import Mathlib

/-!
# RRT* planner (`path_finder/rrt_star.h`): embedding and verification

The planner of `rrt_star.h` is embedded over an arbitrary linearly ordered field `K`
(exact arithmetic; `K := ℚ` runs, `K := ℝ` is the mathematical reading of `double`).

* Pointers to tree nodes are slot numbers of `nodes_pool_`; the pool is a map from slot
  number to node record.  `goal_node_` is slot `0`, `start_node_` is slot `1`.
* The collaborators that are not part of the unit (occupancy map, sampler, kd-tree, clock,
  square root) are fields of `Env`: pure functions and read-only streams.
* The `while` loops whose termination is not syntactic (planning loop, subtree walk of
  `changeNodeParent`, parent walk of `fillPath`) take a fuel argument and fail with
  `Fault.outOfFuel` when it runs out.  Reading a pool slot outside `0 .. max_tree_node_nums_-1`
  fails with `Fault.outOfBounds`.
* Visualisation and logging calls are observational and are left out, with the clock
  readings made only for a log line and with `sampleWholeTree`, which feeds the visualiser.
* The sampler is a stream of points: `samples k` stands for whatever `samplingOnce` returns
  at its `k`-th call, uniform or informed.
-/

set_option autoImplicit false
set_option linter.unusedSectionVars false
set_option linter.unusedVariables false

namespace PathPlan

/-! ## Data model -/

/-- Vector of three coordinates (`Eigen::Vector3d`). -/
structure Vec3 (K : Type) where
  x : K
  y : K
  z : K
deriving DecidableEq

namespace Vec3

variable {K : Type} [LinearOrderedField K]

/-- Componentwise sum. -/
def add (a b : Vec3 K) : Vec3 K := ⟨a.x + b.x, a.y + b.y, a.z + b.z⟩

/-- Componentwise difference. -/
def sub (a b : Vec3 K) : Vec3 K := ⟨a.x - b.x, a.y - b.y, a.z - b.z⟩

/-- Product of a vector with a scalar on the right (`v * len`). -/
def smul (a : Vec3 K) (c : K) : Vec3 K := ⟨a.x * c, a.y * c, a.z * c⟩

/-- Quotient of a vector by a scalar (`v / dist`). -/
def sdiv (a : Vec3 K) (c : K) : Vec3 K := ⟨a.x / c, a.y / c, a.z / c⟩

/-- Sum of the squared coordinates (`squaredNorm()`). -/
def squaredNorm (a : Vec3 K) : K := a.x * a.x + a.y * a.y + a.z * a.z

/-- Euclidean length (`norm()`), through the square root supplied by the environment. -/
def norm (sqrt : K → K) (a : Vec3 K) : K := sqrt (squaredNorm a)

end Vec3

/-- Node of the search tree (`TreeNode` of `node.h`); `parent` and `children` hold slot numbers. -/
structure TreeNode (K : Type) where
  x : Vec3 K
  cost_from_start : K
  cost_from_parent : K
  parent : Option Nat
  children : List Nat

/-- Node pool: slot number to node record (`nodes_pool_`). -/
abbrev Pool (K : Type) := Nat → TreeNode K

/-- Ways in which a run of the embedding can fail to produce a value. -/
inductive Fault where
  | outOfFuel
  | outOfBounds
deriving DecidableEq

/-- Collaborators and configuration of the planner.  `clock k` is the `k`-th reading of
`ros::Time::now()` in seconds, `samples k` the `k`-th point drawn by `samplingOnce`;
the two kd-tree queries receive the list of entries inserted so far, in insertion order. -/
structure Env (K : Type) where
  sqrt : K → K
  isStateValid : Vec3 K → Bool
  isSegmentValid : Vec3 K → Vec3 K → Bool
  samples : Nat → Vec3 K
  clock : Nat → K
  kd_nearest3 : List (Vec3 K × Nat) → Vec3 K → Option Nat
  kd_nearest_range3 : List (Vec3 K × Nat) → Vec3 K → K → Option (List Nat)
  steer_length_ : K
  search_radius_ : K
  search_time_ : K
  max_tree_node_nums_ : Nat
  use_informed_sampling_ : Bool

/-- Planner object (`class RRTStar`).  `kd_tree` and `goal_found` are the locals of `rrt_star`
that live across loop iterations; `clock_reads` and `sampler_draws` count the readings taken
from the two streams of the environment. -/
structure RRTStar (K : Type) where
  valid_tree_node_nums_ : Nat
  nodes_pool_ : Pool K
  final_path_ : List (Vec3 K)
  path_list_ : List (List (Vec3 K))
  solution_cost_time_pair_list_ : List (K × K)
  scale_ : Vec3 K
  trans_ : Vec3 K
  first_path_use_time_ : K
  final_path_use_time_ : K
  kd_tree : List (Vec3 K × Nat)
  goal_found : Bool
  clock_reads : Nat
  sampler_draws : Nat

section Model

variable {K : Type} [LinearOrderedField K]

/-- Largest finite `double`, the cost given to the goal before it is reached. -/
def DBL_MAX : K := 2 ^ 1024 - 2 ^ 971

/-- Slot of the goal node (`goal_node_ = nodes_pool_[0]`). -/
def goal_node_ : Nat := 0

/-- Slot of the start node (`start_node_ = nodes_pool_[1]`). -/
def start_node_ : Nat := 1

/-- Apply `f` to the record in slot `i`, leaving the other slots alone. -/
def Pool.modify (pool : Pool K) (i : Nat) (f : TreeNode K → TreeNode K) : Pool K :=
  fun j => if j = i then f (pool j) else pool j

/-- Modelled from the spec: the constructor of `TreeNode` in `node.h`, which is not in the
unit; a new node has no parent, no children and the unreached cost. -/
def TreeNode.fresh : TreeNode K :=
  { x := ⟨0, 0, 0⟩, cost_from_start := DBL_MAX, cost_from_parent := 0,
    parent := none, children := [] }

/-- Planner object right after construction: every slot holds a new node, no slot is in use. -/
def RRTStar.init : RRTStar K :=
  { valid_tree_node_nums_ := 0
    nodes_pool_ := fun _ => TreeNode.fresh
    final_path_ := []
    path_list_ := []
    solution_cost_time_pair_list_ := []
    scale_ := ⟨0, 0, 0⟩
    trans_ := ⟨0, 0, 0⟩
    first_path_use_time_ := 0
    final_path_use_time_ := 0
    kd_tree := []
    goal_found := false
    clock_reads := 0
    sampler_draws := 0 }

/-- Clear parent and children of the slots `0 .. n-1` (the loop of `reset`). -/
def clearSlots (pool : Pool K) (n : Nat) : Pool K :=
  fun j => if j < n then { pool j with parent := none, children := [] } else pool j

/-- Source `reset()`: empty the three outputs, unlink every slot in use, set the count to 0. -/
def reset (st : RRTStar K) : RRTStar K :=
  { st with
    final_path_ := []
    path_list_ := []
    solution_cost_time_pair_list_ := []
    nodes_pool_ := clearSlots st.nodes_pool_ st.valid_tree_node_nums_
    valid_tree_node_nums_ := 0 }

/-- Source `calDist(p1, p2)`: the norm of `p1 - p2`. -/
def calDist (env : Env K) (p1 p2 : Vec3 K) : K := (p1.sub p2).norm env.sqrt

/-- Source `steer(nearest_node_p, rand_node_p, len)`. -/
def steer (env : Env K) (nearest_node_p rand_node_p : Vec3 K) (len : K) : Vec3 K :=
  let diff_vec := rand_node_p.sub nearest_node_p
  let dist := diff_vec.norm env.sqrt
  if diff_vec.norm env.sqrt ≤ len then rand_node_p
  else nearest_node_p.add ((diff_vec.smul len).sdiv dist)

/-- Source `addTreeNode(parent, state, cost_from_start, cost_from_parent)`: claims slot
`valid_tree_node_nums_`; the slot read is outside the pool when the count has reached
`max_tree_node_nums_`. -/
def addTreeNode (env : Env K) (st : RRTStar K) (parent : Nat) (state : Vec3 K)
    (cost_from_start cost_from_parent : K) : Except Fault (Nat × RRTStar K) :=
  if st.valid_tree_node_nums_ < env.max_tree_node_nums_ then
    let new_node_ptr := st.valid_tree_node_nums_
    let pool1 := st.nodes_pool_.modify new_node_ptr (fun n => { n with parent := some parent })
    let pool2 := pool1.modify parent (fun n => { n with children := n.children ++ [new_node_ptr] })
    let pool3 := pool2.modify new_node_ptr (fun n =>
      { n with x := state, cost_from_start := cost_from_start, cost_from_parent := cost_from_parent })
    .ok (new_node_ptr,
      { st with valid_tree_node_nums_ := st.valid_tree_node_nums_ + 1, nodes_pool_ := pool3 })
  else .error .outOfBounds

/-- First half of `changeNodeParent`: unlink `node` from its old parent (`std::list::remove`
drops every occurrence), set its parent, edge cost and cost from start, and append it to the
children of the new parent. -/
def relink (pool : Pool K) (node parent : Nat) (cost_from_parent : K) : Pool K :=
  let pool1 : Pool K := match (pool node).parent with
    | some old => pool.modify old (fun n => { n with children := n.children.filter (fun c => c != node) })
    | none => pool
  let pool2 := pool1.modify node (fun n =>
    { n with parent := some parent, cost_from_parent := cost_from_parent,
             cost_from_start := (pool1 parent).cost_from_start + cost_from_parent })
  pool2.modify parent (fun n => { n with children := n.children ++ [node] })

/-- Inner `for` of `changeNodeParent`: each child of `descendant` gets its cost from start
recomputed and is pushed on the queue. -/
def updateChildren (descendant : Nat) : List Nat → Pool K → List Nat → Pool K × List Nat
  | [], pool, Q => (pool, Q)
  | leafptr :: rest, pool, Q =>
    updateChildren descendant rest
      (pool.modify leafptr (fun n =>
        { n with cost_from_start := n.cost_from_parent + (pool descendant).cost_from_start }))
      (Q ++ [leafptr])

/-- The `while (!Q.empty())` loop of `changeNodeParent`. -/
def propagate : Nat → Pool K → List Nat → Except Fault (Pool K)
  | _, pool, [] => .ok pool
  | 0, _, _ :: _ => .error .outOfFuel
  | fuel + 1, pool, descendant :: Q =>
    let r := updateChildren descendant (pool descendant).children pool Q
    propagate fuel r.1 r.2

/-- Source `changeNodeParent(node, parent, cost_from_parent)`. -/
def changeNodeParent (fuel : Nat) (pool : Pool K) (node parent : Nat) (cost_from_parent : K) :
    Except Fault (Pool K) :=
  propagate fuel (relink pool node parent cost_from_parent) [node]

/-- The `while (node_ptr->parent)` loop of `fillPath`. -/
def fillPathLoop (pool : Pool K) : Nat → Nat → List (Vec3 K) → Except Fault (List (Vec3 K))
  | fuel, node_ptr, path =>
    match (pool node_ptr).parent, fuel with
    | none, _ => .ok path
    | some _, 0 => .error .outOfFuel
    | some p, fuel + 1 => fillPathLoop pool fuel p (path ++ [(pool node_ptr).x])

/-- Source `fillPath(n, path)`: states from `n` up the parent links, then the state of the
start node, reversed. -/
def fillPath (fuel : Nat) (pool : Pool K) (n : Nat) : Except Fault (List (Vec3 K)) :=
  match fillPathLoop pool fuel n [] with
  | .error e => .error e
  | .ok path => .ok (path ++ [(pool start_node_).x]).reverse

/-- Source `calInformedSet`, the scale and translation outputs (the rotation goes to the
sampler only). -/
def calInformedSet (env : Env K) (a2 : K) (foci1 foci2 : Vec3 K) : Vec3 K × Vec3 K :=
  let trans := (foci1.add foci2).sdiv 2
  let scale0 := a2 / 2
  let diff := foci2.sub foci1
  let c_square := diff.squaredNorm / 4
  let scale1 := env.sqrt (scale0 * scale0 - c_square)
  (⟨scale0, scale1, scale1⟩, trans)

/-- Running best of the parent scan: `min_node`, `cost_from_p`, `min_dist_from_start`. -/
structure ParentChoice (K : Type) where
  min_node : Nat
  cost_from_p : K
  min_dist_from_start : K

/-- The parent scan of `rrt_star` over `neighbour_nodes`: a neighbour replaces the running
best when its cost through `x_new` is strictly smaller and its segment to `x_new` is valid. -/
def chooseParent (env : Env K) (pool : Pool K) (x_new : Vec3 K) :
    List Nat → ParentChoice K → ParentChoice K
  | [], best => best
  | curr_node :: rest, best =>
    let dist2current := calDist env (pool curr_node).x x_new
    let current_dist_from_start := (pool curr_node).cost_from_start + dist2current
    if current_dist_from_start < best.min_dist_from_start then
      if env.isSegmentValid (pool curr_node).x x_new then
        chooseParent env pool x_new rest
          { min_node := curr_node, cost_from_p := dist2current,
            min_dist_from_start := current_dist_from_start }
      else chooseParent env pool x_new rest best
    else chooseParent env pool x_new rest best

/-- The block that follows an improvement of the goal in `rrt_star` (after goal connection
and after a rewire): snapshot the path of the goal, append the cost and the elapsed time to
the solution list and, with informed sampling, recompute the scale of the ellipsoid. -/
def storeSolution (env : Env K) (fuel : Nat) (rrt_start_time c_square : K) (st : RRTStar K) :
    Except Fault (RRTStar K) :=
  match fillPath fuel st.nodes_pool_ goal_node_ with
  | .error e => .error e
  | .ok curr_best_path =>
    let goal_cost := (st.nodes_pool_ goal_node_).cost_from_start
    let st1 : RRTStar K :=
      { st with
        path_list_ := st.path_list_ ++ [curr_best_path]
        solution_cost_time_pair_list_ :=
          st.solution_cost_time_pair_list_ ++ [(goal_cost, env.clock st.clock_reads - rrt_start_time)]
        clock_reads := st.clock_reads + 1 }
    if env.use_informed_sampling_ then
      let scale0 := goal_cost / 2
      let scale1 := env.sqrt (scale0 * scale0 - c_square)
      .ok { st1 with scale_ := ⟨scale0, scale1, scale1⟩ }
    else .ok st1

/-- The statement `if (!goal_found) first_path_use_time_ = ...` of the goal connection: the
clock is read only when no solution was found before. -/
def noteFirstPath (env : Env K) (rrt_start_time : K) (st : RRTStar K) : RRTStar K :=
  if st.goal_found then st
  else { st with first_path_use_time_ := env.clock st.clock_reads - rrt_start_time
                 clock_reads := st.clock_reads + 1 }

/-- Step 2 of the loop body of `rrt_star`: try to connect `new_node` to the goal. -/
def connectGoal (env : Env K) (fuel : Nat) (rrt_start_time c_square : K) (x_new : Vec3 K)
    (new_node : Nat) (st : RRTStar K) : Except Fault (RRTStar K) :=
  let dist_to_goal := calDist env x_new (st.nodes_pool_ goal_node_).x
  if dist_to_goal ≤ env.search_radius_ then
    let is_connected2goal := env.isSegmentValid x_new (st.nodes_pool_ goal_node_).x
    if is_connected2goal = true ∧
        (st.nodes_pool_ goal_node_).cost_from_start >
          dist_to_goal + (st.nodes_pool_ new_node).cost_from_start then
      let st1 : RRTStar K := noteFirstPath env rrt_start_time st
      match changeNodeParent fuel st1.nodes_pool_ goal_node_ new_node dist_to_goal with
      | .error e => .error e
      | .ok pool =>
        storeSolution env fuel rrt_start_time c_square
          { st1 with goal_found := true, nodes_pool_ := pool }
    else .ok st
  else .ok st

/-- Body of the rewire `for` of `rrt_star` for one neighbour `curr_node`. -/
def rewireStep (env : Env K) (fuel : Nat) (rrt_start_time c_square : K) (new_node curr_node : Nat)
    (st : RRTStar K) : Except Fault (RRTStar K) :=
  let best_cost_before_rewire := (st.nodes_pool_ goal_node_).cost_from_start
  let dist_to_child := calDist env (st.nodes_pool_ new_node).x (st.nodes_pool_ curr_node).x
  let current_dist_from_new := (st.nodes_pool_ new_node).cost_from_start + dist_to_child
  let promising_cost :=
    current_dist_from_new + calDist env (st.nodes_pool_ curr_node).x (st.nodes_pool_ goal_node_).x
  if current_dist_from_new < (st.nodes_pool_ curr_node).cost_from_start ∧
      promising_cost < best_cost_before_rewire then
    if env.isSegmentValid (st.nodes_pool_ new_node).x (st.nodes_pool_ curr_node).x then
      match changeNodeParent fuel st.nodes_pool_ curr_node new_node
          (calDist env (st.nodes_pool_ new_node).x (st.nodes_pool_ curr_node).x) with
      | .error e => .error e
      | .ok pool =>
        let st1 : RRTStar K := { st with nodes_pool_ := pool }
        if best_cost_before_rewire > (pool goal_node_).cost_from_start then
          storeSolution env fuel rrt_start_time c_square st1
        else .ok st1
    else .ok st
  else .ok st

/-- Step 3 of the loop body of `rrt_star`: the rewire scan over `neighbour_nodes`. -/
def rewire (env : Env K) (fuel : Nat) (rrt_start_time c_square : K) (new_node : Nat) :
    List Nat → RRTStar K → Except Fault (RRTStar K)
  | [], st => .ok st
  | curr_node :: rest, st =>
    match rewireStep env fuel rrt_start_time c_square new_node curr_node st with
    | .error e => .error e
    | .ok st1 => rewire env fuel rrt_start_time c_square new_node rest st1

/-- One pass through the body of the planning loop of `rrt_star`.  The flag of the result is
`true` when the body left the loop through `break`. -/
def iteration (env : Env K) (fuel : Nat) (rrt_start_time c_square : K) (st : RRTStar K) :
    Except Fault (Bool × RRTStar K) :=
  let x_rand := env.samples st.sampler_draws
  let st : RRTStar K := { st with sampler_draws := st.sampler_draws + 1 }
  if !env.isStateValid x_rand then .ok (false, st)
  else
    match env.kd_nearest3 st.kd_tree x_rand with
    | none => .ok (false, st)
    | some nearest_node =>
      let x_new := steer env (st.nodes_pool_ nearest_node).x x_rand env.steer_length_
      if !env.isSegmentValid (st.nodes_pool_ nearest_node).x x_new then .ok (false, st)
      else
        match env.kd_nearest_range3 st.kd_tree x_new env.search_radius_ with
        | none => .ok (true, st)
        | some neighbour_nodes =>
          let dist2nearest := calDist env (st.nodes_pool_ nearest_node).x x_new
          let best := chooseParent env st.nodes_pool_ x_new neighbour_nodes
            { min_node := nearest_node, cost_from_p := dist2nearest,
              min_dist_from_start := (st.nodes_pool_ nearest_node).cost_from_start + dist2nearest }
          match addTreeNode env st best.min_node x_new best.min_dist_from_start best.cost_from_p with
          | .error e => .error e
          | .ok (new_node, st1) =>
            let st2 : RRTStar K := { st1 with kd_tree := st1.kd_tree ++ [(x_new, new_node)] }
            match connectGoal env fuel rrt_start_time c_square x_new new_node st2 with
            | .error e => .error e
            | .ok st3 =>
              match rewire env fuel rrt_start_time c_square new_node neighbour_nodes st3 with
              | .error e => .error e
              | .ok st4 => .ok (false, st4)

/-- The planning loop of `rrt_star`: the guard reads the clock, then compares the node count
with the capacity; `inner` is the fuel handed to the loops inside the body. -/
def rrt_loop (env : Env K) (inner : Nat) (rrt_start_time c_square : K) :
    Nat → RRTStar K → Except Fault (RRTStar K)
  | fuel, st =>
    let elapsed := env.clock st.clock_reads - rrt_start_time
    let st1 : RRTStar K := { st with clock_reads := st.clock_reads + 1 }
    if elapsed < env.search_time_ ∧ st1.valid_tree_node_nums_ < env.max_tree_node_nums_ then
      match fuel with
      | 0 => .error .outOfFuel
      | fuel + 1 =>
        match iteration env inner rrt_start_time c_square st1 with
        | .error e => .error e
        | .ok (true, st2) => .ok st2
        | .ok (false, st2) => rrt_loop env inner rrt_start_time c_square fuel st2
    else .ok st1

/-- Planner state at the first test of the loop guard in `rrt_star`: the start time has been
read, the goal is not found, the kd-tree holds the start node. -/
def rrt_star_init (st : RRTStar K) : RRTStar K :=
  { st with clock_reads := st.clock_reads + 1
            goal_found := false
            kd_tree := [((st.nodes_pool_ start_node_).x, start_node_)] }

/-- Source `rrt_star(s, g)`: read the start time, put the start node in the kd-tree, run the
planning loop, and fill `final_path_` when the goal was found. -/
def rrt_star (env : Env K) (fuel : Nat) (st : RRTStar K) (s g : Vec3 K) :
    Except Fault (Bool × RRTStar K) :=
  let rrt_start_time := env.clock st.clock_reads
  let c_square := (g.sub s).squaredNorm / 4
  match rrt_loop env fuel rrt_start_time c_square fuel (rrt_star_init st) with
  | .error e => .error e
  | .ok st1 =>
    if st1.goal_found then
      match fillPath fuel st1.nodes_pool_ goal_node_ with
      | .error e => .error e
      | .ok path =>
        .ok (true,
          { st1 with final_path_use_time_ := env.clock st1.clock_reads - rrt_start_time
                     clock_reads := st1.clock_reads + 1
                     final_path_ := path })
    else .ok (false, st1)

/-- Planner state handed to `rrt_star` by `plan` when start and goal are valid: outputs and
links cleared, start in slot 1 with cost 0, goal in slot 0 with the unreached cost, two slots
in use. -/
def plan_init (env : Env K) (st : RRTStar K) (s g : Vec3 K) : RRTStar K :=
  let st0 := reset st
  let pool1 := st0.nodes_pool_.modify start_node_ (fun n => { n with x := s, cost_from_start := 0 })
  let pool2 := pool1.modify goal_node_ (fun n => { n with x := g, cost_from_start := DBL_MAX })
  let st1 : RRTStar K := { st0 with nodes_pool_ := pool2, valid_tree_node_nums_ := 2 }
  if env.use_informed_sampling_ then
    let r := calInformedSet env 10000000000 s g
    { st1 with scale_ := r.1, trans_ := r.2 }
  else st1

/-- Source `plan(s, g)`. -/
def plan (env : Env K) (fuel : Nat) (st : RRTStar K) (s g : Vec3 K) :
    Except Fault (Bool × RRTStar K) :=
  if !env.isStateValid s then .ok (false, reset st)
  else if !env.isStateValid g then .ok (false, reset st)
  else if env.max_tree_node_nums_ < 2 then .error .outOfBounds
  else rrt_star env fuel (plan_init env st s g) s g

/-- Source `getPath()`. -/
def getPath (st : RRTStar K) : List (Vec3 K) := st.final_path_

/-- Source `getAllPaths()`. -/
def getAllPaths (st : RRTStar K) : List (List (Vec3 K)) := st.path_list_

/-- Source `getSolutions()`. -/
def getSolutions (st : RRTStar K) : List (K × K) := st.solution_cost_time_pair_list_

end Model

/-! ## Reference instances of the collaborators -/
section Demo

variable {K : Type} [LinearOrderedField K]

/-- Squared distance between two points. -/
def sqDist (p q : Vec3 K) : K := (p.sub q).squaredNorm

/-- Modelled from the spec: `nearest(point)` of the spatial index (`kdtree.h` is not in the
unit): the node of the closest inserted point, the earliest inserted one among equals, and no
node when the index is empty. -/
def specNearest : List (Vec3 K × Nat) → Vec3 K → Option Nat
  | [], _ => none
  | e :: rest, q =>
    some (rest.foldl (fun b c => if sqDist c.1 q < sqDist b.1 q then c else b) e).2

/-- Modelled from the spec: `range(point, radius)` of the spatial index: the nodes of all
inserted points within `radius` (inclusive) of `point`, in insertion order. -/
def specRange (kd : List (Vec3 K × Nat)) (q : Vec3 K) (radius : K) : Option (List Nat) :=
  some ((kd.filter (fun e => decide (sqDist e.1 q ≤ radius * radius))).map Prod.snd)

end Demo

/-- Integer square root, bit by bit from bit `i` down: the largest `r` with `r * r ≤ n`. -/
def natSqrtAux (n : Nat) : Nat → Nat → Nat
  | 0, r => if (r + 1) * (r + 1) ≤ n then r + 1 else r
  | i + 1, r =>
    natSqrtAux n i (if (r + 2 ^ (i + 1)) * (r + 2 ^ (i + 1)) ≤ n then r + 2 ^ (i + 1) else r)

/-- Integer square root. -/
def natSqrt (n : Nat) : Nat := natSqrtAux n (n.log2 / 2 + 1) 0

/-- Square root on the rationals that is exact on squares of rationals (integer square root
of numerator and denominator). -/
def ratSqrt (q : ℚ) : ℚ := (natSqrt q.num.toNat : ℚ) / (natSqrt q.den : ℚ)

/-- Small world on the rationals: three samples, one blocked segment, room for five nodes. -/
def demoEnv : Env ℚ :=
  { sqrt := ratSqrt
    isStateValid := fun _ => true
    isSegmentValid := fun p q => !(decide (p = ⟨3, 0, 0⟩) && decide (q = ⟨6, 0, 4⟩))
    samples := fun k => match k with
      | 0 => ⟨3, 4, 0⟩
      | 1 => ⟨6, 0, 0⟩
      | _ => ⟨3, 0, 0⟩
    clock := fun k => k
    kd_nearest3 := specNearest
    kd_nearest_range3 := specRange
    steer_length_ := 5
    search_radius_ := 5
    search_time_ := 100
    max_tree_node_nums_ := 5
    use_informed_sampling_ := true }

/-- The small world with room for the start and the goal only. -/
def capTwoEnv : Env ℚ := { demoEnv with max_tree_node_nums_ := 2 }

/-- A world whose occupancy map accepts only the start `(0,0,0)` and the goal `(6,0,4)`, with
a budget of three seconds and the given capacity. -/
def rejectEnv (capacity : Nat) : Env ℚ :=
  { demoEnv with
    isStateValid := fun p => decide (p = ⟨0, 0, 0⟩) || decide (p = ⟨6, 0, 4⟩)
    search_time_ := 3
    max_tree_node_nums_ := capacity }

/-- A pool of three slots in use: the start in slot 1, a node in slot 2 below it, and the
goal in slot 0 below that node, one unit apart along the first axis. -/
def chainPool : Pool ℚ := fun i =>
  match i with
  | 0 => { x := ⟨2, 0, 0⟩, cost_from_start := 2, cost_from_parent := 1,
           parent := some 2, children := [] }
  | 1 => { x := ⟨0, 0, 0⟩, cost_from_start := 0, cost_from_parent := 0,
           parent := none, children := [2] }
  | 2 => { x := ⟨1, 0, 0⟩, cost_from_start := 1, cost_from_parent := 1,
           parent := some 1, children := [0] }
  | _ => { x := ⟨0, 0, 0⟩, cost_from_start := 0, cost_from_parent := 0,
           parent := none, children := [] }

/-- A tree of depth three for the subtree walk: the start in slot 1 with the children 2 and
5, slot 3 below 2, slot 4 below 3, and the goal in slot 0 not connected; six slots in use. -/
def propPool : Pool ℚ := fun i =>
  match i with
  | 1 => { x := ⟨0, 0, 0⟩, cost_from_start := 0, cost_from_parent := 0,
           parent := none, children := [2, 5] }
  | 2 => { x := ⟨5, 0, 0⟩, cost_from_start := 5, cost_from_parent := 5,
           parent := some 1, children := [3] }
  | 3 => { x := ⟨5, 2, 0⟩, cost_from_start := 7, cost_from_parent := 2,
           parent := some 2, children := [4] }
  | 4 => { x := ⟨5, 2, 3⟩, cost_from_start := 10, cost_from_parent := 3,
           parent := some 3, children := [] }
  | 5 => { x := ⟨0, 1, 0⟩, cost_from_start := 1, cost_from_parent := 1,
           parent := some 1, children := [] }
  | _ => { x := ⟨9, 9, 9⟩, cost_from_start := DBL_MAX, cost_from_parent := 0,
           parent := none, children := [] }

/-- A planner whose pool is `chainPool` with three slots in use. -/
def chainState : RRTStar ℚ :=
  { (RRTStar.init : RRTStar ℚ) with nodes_pool_ := chainPool, valid_tree_node_nums_ := 3 }

/-- The small world with room for four nodes: the run inserts two nodes and reaches the goal
through both of them. -/
def demoFourEnv : Env ℚ := { demoEnv with max_tree_node_nums_ := 4 }

/-- The small world with a spatial index whose nearest query returns no result for the
first sample `(3, 4, 0)` and answers every other query as `specNearest` does. -/
def nearFailEnv : Env ℚ :=
  { demoEnv with
    kd_nearest3 := fun kd q => if q = ⟨3, 4, 0⟩ then none else specNearest kd q }

/-- A world on a triangle with rational sides: start `(0,0,0)`, goal `(3,0,0)`, every sample
at `(3, 8/5, 0)`, which is 17/5 away from the start and 8/5 away from the goal; room for
three nodes. -/
def triEnv : Env ℚ :=
  { demoEnv with
    samples := fun _ => ⟨3, 8 / 5, 0⟩
    max_tree_node_nums_ := 3 }

/-! ## Predicates -/
section Predicates

variable {K : Type} [LinearOrderedField K]

/-- Node `a` is reached from node `m` by following zero or more parent links. -/
inductive Anc (pool : Pool K) (a : Nat) : Nat → Prop
  | refl : Anc pool a a
  | step {m p : Nat} : (pool m).parent = some p → Anc pool a p → Anc pool a m

/-- The node reached from `i` after exactly `k` parent links, if the links exist. -/
def ancestorAt (pool : Pool K) : Nat → Nat → Option Nat
  | 0, i => some i
  | k + 1, i =>
    match (pool i).parent with
    | none => none
    | some p => ancestorAt pool k p

/-- States met from `n` over `k` parent links, `n` first. -/
def upStates (pool : Pool K) : Nat → Nat → List (Vec3 K)
  | 0, n => [(pool n).x]
  | k + 1, n =>
    (pool n).x :: (match (pool n).parent with
      | none => []
      | some p => upStates pool k p)

/-- Two pools agree on everything but `cost_from_start`. -/
def SameShape (p q : Pool K) : Prop :=
  ∀ m, (q m).parent = (p m).parent ∧ (q m).children = (p m).children ∧
    (q m).x = (p m).x ∧ (q m).cost_from_parent = (p m).cost_from_parent

/-- Every consecutive pair of waypoints is a valid segment. -/
def SegmentsValid (env : Env K) (path : List (Vec3 K)) : Prop :=
  List.Chain' (fun p q => env.isSegmentValid p q = true) path

/-- Assumptions on the collaborators: the square root is never negative and the kd-tree
queries return nodes that were inserted. -/
structure EnvOK (env : Env K) : Prop where
  sqrt_nonneg : ∀ v, 0 ≤ env.sqrt v
  nearest_mem : ∀ kd q n, env.kd_nearest3 kd q = some n → n ∈ kd.map Prod.snd
  range_mem : ∀ kd q r ns, env.kd_nearest_range3 kd q r = some ns → ∀ n ∈ ns, n ∈ kd.map Prod.snd

/-- Well-formedness of the tree stored in the pool with `valid` slots in use. -/
structure TreeInv (env : Env K) (pool : Pool K) (valid : Nat) : Prop where
  two_le : 2 ≤ valid
  start_root : (pool start_node_).parent = none
  start_cost : (pool start_node_).cost_from_start = 0
  parent_live : ∀ i p, (pool i).parent = some p → i < valid ∧ p < valid ∧ p ≠ goal_node_
  has_parent : ∀ i, 2 ≤ i → i < valid → (pool i).parent ≠ none
  children_iff : ∀ p c, c ∈ (pool p).children ↔ (pool c).parent = some p
  children_nodup : ∀ p, (pool p).children.Nodup
  reach : ∀ i p, (pool i).parent = some p → Anc pool start_node_ i
  cost_ok : ∀ i p, (pool i).parent = some p →
    (pool i).cost_from_start = (pool p).cost_from_start + (pool i).cost_from_parent
  edge_len : ∀ i p, (pool i).parent = some p →
    (pool i).cost_from_parent = calDist env (pool p).x (pool i).x
  edge_valid : ∀ i p, (pool i).parent = some p → env.isSegmentValid (pool p).x (pool i).x = true

/-- Invariant of the planning loop of `rrt_star` for the query `(s, g)`. -/
structure Inv (env : Env K) (s g : Vec3 K) (st : RRTStar K) : Prop where
  tree : TreeInv env st.nodes_pool_ st.valid_tree_node_nums_
  cap : st.valid_tree_node_nums_ ≤ env.max_tree_node_nums_
  start_x : (st.nodes_pool_ start_node_).x = s
  goal_x : (st.nodes_pool_ goal_node_).x = g
  kd_live : ∀ e ∈ st.kd_tree, e.2 < st.valid_tree_node_nums_ ∧ e.2 ≠ goal_node_
  found_iff : st.goal_found = true ↔ (st.nodes_pool_ goal_node_).parent ≠ none
  hist_iff : st.goal_found = true ↔ st.solution_cost_time_pair_list_ ≠ []
  hist_desc : (st.solution_cost_time_pair_list_.map Prod.fst).Pairwise (fun a b => b < a)
  hist_ge : ∀ c ∈ st.solution_cost_time_pair_list_.map Prod.fst,
    (st.nodes_pool_ goal_node_).cost_from_start ≤ c
  hist_cur : ∀ c, (st.solution_cost_time_pair_list_.map Prod.fst).getLast? = some c →
    c = (st.nodes_pool_ goal_node_).cost_from_start
  unreached : st.goal_found = false → (st.nodes_pool_ goal_node_).cost_from_start = DBL_MAX
  paths_len : st.path_list_.length = st.solution_cost_time_pair_list_.length
  paths_ok : ∀ path ∈ st.path_list_,
    SegmentsValid env path ∧ path.head? = some s ∧ path.getLast? = some g
  final_nil : st.final_path_ = []

/-- One mutation step either lowers the cost of the goal strictly and appends exactly one
record carrying the new cost, or leaves both the cost of the goal and the solution list
as they were. -/
def RecordStep (st st' : RRTStar K) : Prop :=
  ((st'.nodes_pool_ goal_node_).cost_from_start < (st.nodes_pool_ goal_node_).cost_from_start ∧
    ∃ t, st'.solution_cost_time_pair_list_ =
      st.solution_cost_time_pair_list_ ++ [((st'.nodes_pool_ goal_node_).cost_from_start, t)]) ∨
  ((st'.nodes_pool_ goal_node_).cost_from_start = (st.nodes_pool_ goal_node_).cost_from_start ∧
    st'.solution_cost_time_pair_list_ = st.solution_cost_time_pair_list_)

/-- No slot beyond the ones in use carries a link. -/
def Clean (st : RRTStar K) : Prop :=
  ∀ i, st.valid_tree_node_nums_ ≤ i →
    (st.nodes_pool_ i).parent = none ∧ (st.nodes_pool_ i).children = []

/-- Every parent link of the pool is a valid segment, parent state first. -/
def EdgesValid (env : Env K) (st : RRTStar K) : Prop :=
  ∀ i p, (st.nodes_pool_ i).parent = some p →
    env.isSegmentValid (st.nodes_pool_ p).x (st.nodes_pool_ i).x = true

/-- The cost from the start of every node with a parent is the cost of the parent plus the
cost of the edge. -/
def CostConsistent (st : RRTStar K) : Prop :=
  ∀ i p, (st.nodes_pool_ i).parent = some p →
    (st.nodes_pool_ i).cost_from_start =
      (st.nodes_pool_ p).cost_from_start + (st.nodes_pool_ i).cost_from_parent

/-- Following parent links from `i` reaches the start node in fewer links than there are
slots in use. -/
def ReachesStart (st : RRTStar K) (i : Nat) : Prop :=
  ∃ k, k < st.valid_tree_node_nums_ ∧ ancestorAt st.nodes_pool_ k i = some start_node_

/-- Every slot in use, except a goal that has no parent yet, reaches the start node over
parent links. -/
def TreeAcyclic (st : RRTStar K) : Prop :=
  ∀ i, i < st.valid_tree_node_nums_ →
    (i ≠ goal_node_ ∨ (st.nodes_pool_ goal_node_).parent ≠ none) → ReachesStart st i

/-- States of the planning loop of `rrt_star` at its guard: the state `st0` in which the loop
is entered, and the state left by a pass through the body that was started from such a state
with the guard open (a pass that ends in `break` included). -/
inductive LoopReach (env : Env K) (inner : Nat) (t0 csq : K) (st0 : RRTStar K) :
    RRTStar K → Prop
  | entry : LoopReach env inner t0 csq st0 st0
  | pass {st1 st2 : RRTStar K} {brk : Bool} :
    LoopReach env inner t0 csq st0 st1 →
    env.clock st1.clock_reads - t0 < env.search_time_ →
    st1.valid_tree_node_nums_ < env.max_tree_node_nums_ →
    iteration env inner t0 csq { st1 with clock_reads := st1.clock_reads + 1 } = .ok (brk, st2) →
    LoopReach env inner t0 csq st0 st2

/-- States of the planning loop in the call `plan(s, g)` made on the planner state `st0`. -/
def PlanReach (env : Env K) (fuel : Nat) (st0 : RRTStar K) (s g : Vec3 K) (st : RRTStar K) :
    Prop :=
  env.isStateValid s = true ∧ env.isStateValid g = true ∧ 2 ≤ env.max_tree_node_nums_ ∧
  LoopReach env fuel (env.clock (plan_init env st0 s g).clock_reads)
    ((g.sub s).squaredNorm / 4) (rrt_star_init (plan_init env st0 s g)) st

/-- The function `sqrt` is an exact square root at `v`. -/
def SqrtAt (sqrt : K → K) (v : K) : Prop := 0 ≤ sqrt v ∧ sqrt v * sqrt v = v

/-- The children list of every slot holds exactly the slots in use whose parent is that
slot, each once. -/
def ChildrenExact (st : RRTStar K) : Prop :=
  ∀ p, (∀ c, c ∈ (st.nodes_pool_ p).children ↔
      c < st.valid_tree_node_nums_ ∧ (st.nodes_pool_ c).parent = some p) ∧
    (st.nodes_pool_ p).children.Nodup

/-- Planner states between calls: the planner as constructed, and the state left by a call
of `plan` that returned, made on such a state with fuel for the capacity. -/
inductive Reachable (env : Env K) : RRTStar K → Prop
  | init : Reachable env RRTStar.init
  | call {st st' : RRTStar K} {fuel : Nat} {s g : Vec3 K} {b : Bool} :
    Reachable env st → env.max_tree_node_nums_ ≤ fuel →
    plan env fuel st s g = .ok (b, st') → Reachable env st'

/-- Length of the polyline through the waypoints of `path`: the sum of the distances
between consecutive waypoints. -/
def polylineLength (env : Env K) : List (Vec3 K) → K
  | [] => 0
  | [_] => 0
  | p :: q :: rest => calDist env p q + polylineLength env (q :: rest)

/-- The cost of each record of the solution list is the polyline length of the snapshot at
the same position of the path list, and the two lists have the same length. -/
def PathCosts (env : Env K) (st : RRTStar K) : Prop :=
  List.Forall₂ (fun path r => polylineLength env path = r.1)
    (getAllPaths st) (getSolutions st)

/-- One mutation step either leaves the path list and the solution list alone, or appends
to them the path of the goal and a record with the cost of the goal, both read in the state
it returns. -/
def PathStep (fuel : Nat) (st st' : RRTStar K) : Prop :=
  (st'.path_list_ = st.path_list_ ∧
    st'.solution_cost_time_pair_list_ = st.solution_cost_time_pair_list_) ∨
  ∃ path t, st'.path_list_ = st.path_list_ ++ [path] ∧
    st'.solution_cost_time_pair_list_ =
      st.solution_cost_time_pair_list_ ++ [((st'.nodes_pool_ goal_node_).cost_from_start, t)] ∧
    fillPath fuel st'.nodes_pool_ goal_node_ = .ok path

/-- Costs are geometric lengths in the state `st`: every node in use with a parent has as
cost from parent the distance from the state of the parent to its own state, which is not
negative, and as cost from start the polyline length of the path `fillPath` returns for it;
the path list and the solution list have the same length, and the cost of the record at
each position is the polyline length of the snapshot at that position. -/
def GeometricCosts (env : Env K) (fuel : Nat) (st : RRTStar K) : Prop :=
  (∀ n p, n < st.valid_tree_node_nums_ → (st.nodes_pool_ n).parent = some p →
    (st.nodes_pool_ n).cost_from_parent =
      calDist env (st.nodes_pool_ p).x (st.nodes_pool_ n).x ∧
    0 ≤ (st.nodes_pool_ n).cost_from_parent ∧
    ∃ path, fillPath fuel st.nodes_pool_ n = .ok path ∧
      polylineLength env path = (st.nodes_pool_ n).cost_from_start) ∧
  (getAllPaths st).length = (getSolutions st).length ∧
  ∀ (i : Nat) (path : List (Vec3 K)) (r : K × K),
    (getAllPaths st)[i]? = some path → (getSolutions st)[i]? = some r →
    polylineLength env path = r.1

/-- The square root is exact at the squared distance of every two consecutive waypoints. -/
def ExactAlong (env : Env K) (path : List (Vec3 K)) : Prop :=
  List.Chain' (fun p q => SqrtAt env.sqrt (p.sub q).squaredNorm) path

/-- Every recorded solution of the state `st` of a call `plan(s, g)` yields a well-defined
ellipsoid: for the cost `c` of a record whose snapshot has exact edge lengths, `c` is not
negative, the radicand `(c/2)^2 - |g - s|^2 / 4` is not negative, `c` is at least the
distance from `s` to `g` when the square root is exact there, and the minor semi-axis is at
most the major semi-axis `c/2` when the square root is exact at the radicand. -/
def RadicandOK (env : Env K) (s g : Vec3 K) (st : RRTStar K) : Prop :=
  ∀ (i : Nat) (path : List (Vec3 K)) (r : K × K),
    (getAllPaths st)[i]? = some path → (getSolutions st)[i]? = some r →
    ExactAlong env path →
    0 ≤ r.1 ∧
    0 ≤ r.1 / 2 * (r.1 / 2) - (g.sub s).squaredNorm / 4 ∧
    (SqrtAt env.sqrt (s.sub g).squaredNorm → calDist env s g ≤ r.1) ∧
    (SqrtAt env.sqrt (r.1 / 2 * (r.1 / 2) - (g.sub s).squaredNorm / 4) →
      env.sqrt (r.1 / 2 * (r.1 / 2) - (g.sub s).squaredNorm / 4) ≤ r.1 / 2)

end Predicates

/-! ## Lemmas -/

section Lemmas

variable {K : Type} [LinearOrderedField K]

@[simp] theorem Pool.modify_same (pool : Pool K) (i : Nat) (f : TreeNode K → TreeNode K) :
    pool.modify i f i = f (pool i) := by
  simp [Pool.modify]

theorem Pool.modify_ne (pool : Pool K) {i j : Nat} (f : TreeNode K → TreeNode K) (h : j ≠ i) :
    pool.modify i f j = pool j := by
  simp [Pool.modify, h]

theorem Pool.modify_apply (pool : Pool K) (i j : Nat) (f : TreeNode K → TreeNode K) :
    pool.modify i f j = if j = i then f (pool j) else pool j := rfl

/-! ### Ancestors -/

theorem Anc.trans {pool : Pool K} {a b m : Nat} (hab : Anc pool a b) (hbm : Anc pool b m) :
    Anc pool a m := by
  induction hbm with
  | refl => exact hab
  | step hp _ ih => exact Anc.step hp ih

theorem Anc.of_parent_eq {p q : Pool K} (h : ∀ m, (q m).parent = (p m).parent) {a m : Nat}
    (ha : Anc p a m) : Anc q a m := by
  induction ha with
  | refl => exact Anc.refl
  | step hp _ ih => exact Anc.step ((h _).trans hp) ih

theorem anc_iff_ancestorAt (pool : Pool K) (a m : Nat) :
    Anc pool a m ↔ ∃ k, ancestorAt pool k m = some a := by
  constructor
  · intro h
    induction h with
    | refl => exact ⟨0, rfl⟩
    | step hp _ ih =>
      obtain ⟨k, hk⟩ := ih
      exact ⟨k + 1, by simp [ancestorAt, hp, hk]⟩
  · rintro ⟨k, hk⟩
    induction k generalizing m with
    | zero =>
      simp [ancestorAt] at hk
      subst hk
      exact Anc.refl
    | succ k ih =>
      simp only [ancestorAt] at hk
      cases hp : (pool m).parent with
      | none => simp [hp] at hk
      | some p =>
        simp only [hp] at hk
        exact Anc.step hp (ih p hk)

theorem ancestorAt_add (pool : Pool K) (a b i : Nat) :
    ancestorAt pool (a + b) i = (ancestorAt pool a i).bind (ancestorAt pool b) := by
  induction a generalizing i with
  | zero => simp [ancestorAt]
  | succ a ih =>
    have : a + 1 + b = (a + b) + 1 := by omega
    rw [this]
    simp only [ancestorAt]
    cases hp : (pool i).parent with
    | none => simp
    | some p => simpa using ih p

/-- A parentless node is reached from a given node after a unique number of links. -/
theorem ancestorAt_root_unique {pool : Pool K} {r i k k' : Nat}
    (hr : (pool r).parent = none)
    (h : ancestorAt pool k i = some r) (h' : ancestorAt pool k' i = some r) : k = k' := by
  wlog hle : k ≤ k' generalizing k k'
  · exact (this h' h (by omega)).symm
  obtain ⟨d, rfl⟩ := Nat.exists_eq_add_of_le hle
  rw [ancestorAt_add, h] at h'
  cases d with
  | zero => rfl
  | succ d => simp [ancestorAt, hr] at h'

theorem ancestorAt_lt {pool : Pool K} {valid : Nat}
    (hlive : ∀ i p, (pool i).parent = some p → p < valid) {i : Nat} (hi : i < valid) :
    ∀ k v, ancestorAt pool k i = some v → v < valid := by
  intro k
  induction k generalizing i with
  | zero => intro v h; simp [ancestorAt] at h; omega
  | succ k ih =>
    intro v h
    simp only [ancestorAt] at h
    cases hp : (pool i).parent with
    | none => simp [hp] at h
    | some p =>
      simp only [hp] at h
      exact ih (hlive i p hp) v h

theorem ancestorAt_of_le {pool : Pool K} {i k v : Nat} (h : ancestorAt pool k i = some v) :
    ∀ j, j ≤ k → ∃ w, ancestorAt pool j i = some w := by
  intro j hj
  obtain ⟨d, rfl⟩ := Nat.exists_eq_add_of_le hj
  rw [ancestorAt_add] at h
  cases hw : ancestorAt pool j i with
  | none => simp [hw] at h
  | some w => exact ⟨w, rfl⟩

/-- A chain of live nodes that ends in a parentless node has fewer links than live slots. -/
theorem depth_lt_valid {pool : Pool K} {valid r i k : Nat}
    (hlive : ∀ i p, (pool i).parent = some p → p < valid) (hi : i < valid)
    (hr : (pool r).parent = none) (h : ancestorAt pool k i = some r) : k < valid := by
  classical
  have hex := ancestorAt_of_le h
  let f : Fin (k + 1) → Fin valid := fun j =>
    ⟨(ancestorAt pool j.1 i).getD 0, by
      obtain ⟨w, hw⟩ := hex j.1 (by omega)
      rw [hw]
      exact ancestorAt_lt hlive hi _ _ hw⟩
  have hinj : Function.Injective f := by
    intro a b hab
    obtain ⟨wa, hwa⟩ := hex a.1 (by omega)
    obtain ⟨wb, hwb⟩ := hex b.1 (by omega)
    have hw : wa = wb := by
      have := congrArg Fin.val hab
      simpa [f, hwa, hwb] using this
    subst hw
    have ha : ancestorAt pool (k - a.1) wa = some r := by
      have := h
      rw [show k = a.1 + (k - a.1) by omega, ancestorAt_add, hwa] at this
      simpa using this
    have hb : ancestorAt pool (k - b.1) wa = some r := by
      have := h
      rw [show k = b.1 + (k - b.1) by omega, ancestorAt_add, hwb] at this
      simpa using this
    have := ancestorAt_root_unique hr ha hb
    apply Fin.ext
    omega
  have := Fintype.card_le_of_injective f hinj
  simp at this
  omega

/-! ### Subtree walk of `changeNodeParent` -/

theorem length_le_of_nodup_lt {l : List Nat} {n : Nat} (hnd : l.Nodup) (hlt : ∀ x ∈ l, x < n) :
    l.length ≤ n := by
  classical
  have h1 : l.toFinset ⊆ Finset.range n := by
    intro x hx
    simp only [List.mem_toFinset] at hx
    simpa using hlt x hx
  have h2 := Finset.card_le_card h1
  rw [List.toFinset_card_of_nodup hnd, Finset.card_range] at h2
  exact h2

theorem updateChildren_snd (d : Nat) (L : List Nat) (pool : Pool K) (Q : List Nat) :
    (updateChildren d L pool Q).2 = Q ++ L := by
  induction L generalizing pool Q with
  | nil => simp [updateChildren]
  | cons a L ih => simp [updateChildren, ih]

theorem updateChildren_fst (d : Nat) (L : List Nat) (pool : Pool K) (Q : List Nat)
    (hd : d ∉ L) (m : Nat) :
    (updateChildren d L pool Q).1 m =
      if m ∈ L then
        { pool m with
          cost_from_start := (pool m).cost_from_parent + (pool d).cost_from_start }
      else pool m := by
  induction L generalizing pool Q with
  | nil => simp [updateChildren]
  | cons a L ih =>
    have hda : d ≠ a := fun h => hd (by simp [h])
    have hdL : d ∉ L := fun h => hd (by simp [h])
    simp only [updateChildren]
    rw [ih _ _ hdL]
    by_cases hma : m = a
    · subst hma
      by_cases hmL : m ∈ L
      · simp [hmL, Pool.modify_apply, hda]
      · simp [hmL, Pool.modify_apply, hda]
    · by_cases hmL : m ∈ L
      · simp [hmL, Pool.modify_apply, hda, hma]
      · simp [hmL, Pool.modify_apply, hda, hma]

theorem propagate_spec {pool0 : Pool K} {valid node : Nat}
    (hlive : ∀ i p, (pool0 i).parent = some p → i < valid)
    (hch : ∀ p c, c ∈ (pool0 p).children ↔ (pool0 c).parent = some p)
    (hnd : ∀ p, (pool0 p).children.Nodup)
    (hnode : node < valid)
    (hroot : ∀ p, (pool0 node).parent = some p → ¬ Anc pool0 node p) :
    ∀ (fuel : Nat) (P Q : List Nat) (pool : Pool K),
      SameShape pool0 pool → (P ++ Q).Nodup →
      (∀ q ∈ P ++ Q, Anc pool0 node q) →
      (∀ q ∈ P ++ Q, q ≠ node → ∃ p ∈ P, (pool0 q).parent = some p) →
      valid ≤ fuel + P.length →
      (∀ m p, (pool0 m).parent = some p → p ∈ Q ∨
        (pool m).cost_from_start = (pool p).cost_from_start + (pool m).cost_from_parent) →
      ∃ pool', propagate fuel pool Q = .ok pool' ∧ SameShape pool0 pool' ∧
        (∀ m, (∀ p, (pool0 m).parent = some p → ¬ Anc pool0 node p) →
          (pool' m).cost_from_start = (pool m).cost_from_start) ∧
        (∀ m p, (pool0 m).parent = some p →
          (pool' m).cost_from_start = (pool' p).cost_from_start + (pool' m).cost_from_parent) := by
  intro fuel
  induction fuel with
  | zero =>
    intro P Q pool hshape hnodup hanc hpar hfuel hcons
    cases Q with
    | nil =>
      refine ⟨pool, rfl, hshape, fun _ _ => rfl, ?_⟩
      intro m p hp
      rcases hcons m p hp with h | h
      · simp at h
      · exact h
    | cons d rest =>
      exfalso
      have hlt : ∀ x ∈ P ++ d :: rest, x < valid := by
        intro x hx
        by_cases hxn : x = node
        · rw [hxn]; exact hnode
        · obtain ⟨p, _, hp⟩ := hpar x hx hxn
          exact hlive x p hp
      have := length_le_of_nodup_lt hnodup hlt
      simp at this
      omega
  | succ fuel ih =>
    intro P Q pool hshape hnodup hanc hpar hfuel hcons
    cases Q with
    | nil =>
      refine ⟨pool, rfl, hshape, fun _ _ => rfl, ?_⟩
      intro m p hp
      rcases hcons m p hp with h | h
      · simp at h
      · exact h
    | cons d rest =>
      have hdQ : d ∈ P ++ d :: rest := by simp
      have hancd : Anc pool0 node d := hanc d hdQ
      have hL : (pool d).children = (pool0 d).children := (hshape d).2.1
      -- children of `d` are new
      have hnew : ∀ c ∈ (pool0 d).children, c ∉ P ++ d :: rest := by
        intro c hc hmem
        have hpc : (pool0 c).parent = some d := (hch d c).1 hc
        by_cases hcn : c = node
        · rw [hcn] at hpc
          exact hroot d hpc hancd
        · obtain ⟨p, hpP, hp⟩ := hpar c hmem hcn
          rw [hpc] at hp
          have hpd : p = d := (Option.some.inj hp).symm
          rw [hpd] at hpP
          have := List.nodup_append.1 hnodup
          exact this.2.2 hpP (by simp)
      have hdL : d ∉ (pool0 d).children := fun h => hnew d h hdQ
      -- the pool after the inner loop
      have hfst := fun m => updateChildren_fst d (pool0 d).children pool rest hdL m
      have hsnd := updateChildren_snd d (pool0 d).children pool rest
      have hstep : propagate (fuel + 1) pool (d :: rest) =
          propagate fuel (updateChildren d (pool0 d).children pool rest).1
            (rest ++ (pool0 d).children) := by
        simp only [propagate, hL, hsnd]
      set pool1 := (updateChildren d (pool0 d).children pool rest).1 with hpool1
      have hshape1 : SameShape pool0 pool1 := by
        intro m
        rw [hfst m]
        by_cases hm : m ∈ (pool0 d).children
        · simpa [hm] using hshape m
        · simpa [hm] using hshape m
      have hcost1 : ∀ m, m ∉ (pool0 d).children →
          (pool1 m).cost_from_start = (pool m).cost_from_start := by
        intro m hm
        rw [hfst m]; simp [hm]
      have hcost1c : ∀ m, m ∈ (pool0 d).children →
          (pool1 m).cost_from_start = (pool m).cost_from_parent + (pool d).cost_from_start := by
        intro m hm
        rw [hfst m]; simp [hm]
      have hcfp : ∀ (q : Pool K), SameShape pool0 q → ∀ m,
          (q m).cost_from_parent = (pool0 m).cost_from_parent := fun q hq m => (hq m).2.2.2
      have hnodup1 : ((P ++ [d]) ++ (rest ++ (pool0 d).children)).Nodup := by
        have : (P ++ [d]) ++ (rest ++ (pool0 d).children) =
            (P ++ d :: rest) ++ (pool0 d).children := by simp
        rw [this]
        refine List.nodup_append.2 ⟨hnodup, hnd d, ?_⟩
        intro x hx hx2
        exact hnew x hx2 hx
      have hmem1 : ∀ q, q ∈ (P ++ [d]) ++ (rest ++ (pool0 d).children) →
          q ∈ P ++ d :: rest ∨ q ∈ (pool0 d).children := by
        intro q hq
        simp only [List.mem_append, List.mem_singleton, List.mem_cons] at hq ⊢
        tauto
      have hanc1 : ∀ q ∈ (P ++ [d]) ++ (rest ++ (pool0 d).children), Anc pool0 node q := by
        intro q hq
        rcases hmem1 q hq with h | h
        · exact hanc q h
        · exact Anc.step ((hch d q).1 h) hancd
      have hpar1 : ∀ q ∈ (P ++ [d]) ++ (rest ++ (pool0 d).children), q ≠ node →
          ∃ p ∈ P ++ [d], (pool0 q).parent = some p := by
        intro q hq hqn
        rcases hmem1 q hq with h | h
        · obtain ⟨p, hpP, hp⟩ := hpar q h hqn
          exact ⟨p, by simp [hpP], hp⟩
        · exact ⟨d, by simp, (hch d q).1 h⟩
      have hfuel1 : valid ≤ fuel + (P ++ [d]).length := by
        simp; omega
      have hcons1 : ∀ m p, (pool0 m).parent = some p → p ∈ rest ++ (pool0 d).children ∨
          (pool1 m).cost_from_start = (pool1 p).cost_from_start + (pool1 m).cost_from_parent := by
        intro m p hp
        by_cases hpL : p ∈ (pool0 d).children
        · left; simp [hpL]
        by_cases hmL : m ∈ (pool0 d).children
        · right
          have hpd : p = d := by
            have := (hch d m).1 hmL
            rw [hp] at this
            exact Option.some.inj this
          rw [hcost1c m hmL, hpd, hcost1 d hdL, hcfp pool1 hshape1, hcfp pool hshape]
          ring
        · rcases hcons m p hp with h | h
          · rcases List.mem_cons.1 h with h | h
            · exact absurd ((hch d m).2 (h ▸ hp)) hmL
            · left; simp [h]
          · right
            rw [hcost1 m hmL, hcost1 p hpL, hcfp pool1 hshape1, ← hcfp pool hshape]
            exact h
      obtain ⟨pool', hrun, hshape', hframe', hcons'⟩ :=
        ih (P ++ [d]) (rest ++ (pool0 d).children) pool1 hshape1 hnodup1 hanc1 hpar1 hfuel1 hcons1
      refine ⟨pool', by rw [hstep]; exact hrun, hshape', ?_, hcons'⟩
      intro m hm
      rw [hframe' m hm]
      apply hcost1
      intro hmL
      exact hm d ((hch d m).1 hmL) hancd

/-! ### Relinking -/

theorem relink_parent (pool : Pool K) (node np : Nat) (c : K) (m : Nat) :
    (relink pool node np c m).parent = if m = node then some np else (pool m).parent := by
  unfold relink
  cases h : (pool node).parent <;>
    simp only [Pool.modify_apply] <;> split_ifs <;> simp_all

theorem relink_x (pool : Pool K) (node np : Nat) (c : K) (m : Nat) :
    (relink pool node np c m).x = (pool m).x := by
  unfold relink
  cases h : (pool node).parent <;>
    simp only [Pool.modify_apply] <;> split_ifs <;> simp_all

theorem relink_cost_from_parent (pool : Pool K) (node np : Nat) (c : K) (m : Nat) :
    (relink pool node np c m).cost_from_parent =
      if m = node then c else (pool m).cost_from_parent := by
  unfold relink
  cases h : (pool node).parent <;>
    simp only [Pool.modify_apply] <;> split_ifs <;> simp_all

theorem relink_cost_from_start (pool : Pool K) (node np : Nat) (c : K) (m : Nat) :
    (relink pool node np c m).cost_from_start =
      if m = node then (pool np).cost_from_start + c else (pool m).cost_from_start := by
  unfold relink
  cases h : (pool node).parent <;>
    simp only [Pool.modify_apply] <;> split_ifs <;> simp_all

theorem relink_children (pool : Pool K) (node np : Nat) (c : K) (p : Nat) :
    (relink pool node np c p).children =
      (if (pool node).parent = some p then (pool p).children.filter (fun c => c != node)
        else (pool p).children) ++ (if p = np then [node] else []) := by
  unfold relink
  cases h : (pool node).parent <;>
    simp only [Pool.modify_apply] <;> split_ifs <;> simp_all

theorem relink_children_iff {pool : Pool K} {node np : Nat} (c : K)
    (hch : ∀ p c, c ∈ (pool p).children ↔ (pool c).parent = some p) (p k : Nat) :
    k ∈ (relink pool node np c p).children ↔ (relink pool node np c k).parent = some p := by
  rw [relink_children, relink_parent]
  by_cases hk : k = node
  · subst hk
    by_cases hp : p = np
    · simp [hp]
    · have : ¬ np = p := fun h => hp h.symm
      by_cases hpar : (pool k).parent = some p
      · simp [hp, hpar, this]
      · simp [hp, hpar, this, hch]
  · by_cases hp : p = np
    · by_cases hpar : (pool node).parent = some p
      · subst hp
        simp [hpar, hk, hch]
      · subst hp
        simp [hpar, hk, hch]
    · by_cases hpar : (pool node).parent = some p
      · simp [hp, hpar, hk, hch]
      · simp [hp, hpar, hk, hch]

theorem relink_children_nodup {pool : Pool K} {node np : Nat} (c : K)
    (hch : ∀ p c, c ∈ (pool p).children ↔ (pool c).parent = some p)
    (hnd : ∀ p, (pool p).children.Nodup) (p : Nat) :
    (relink pool node np c p).children.Nodup := by
  rw [relink_children]
  have hbase : (if (pool node).parent = some p then
      (pool p).children.filter (fun c => c != node) else (pool p).children).Nodup := by
    split_ifs
    · exact (hnd p).filter _
    · exact hnd p
  have hnot : node ∉ (if (pool node).parent = some p then
      (pool p).children.filter (fun c => c != node) else (pool p).children) := by
    split_ifs with h
    · simp
    · rw [hch]; exact h
  by_cases hp : p = np
  · simp only [hp, if_true]
    rw [← hp]
    exact List.nodup_append.2 ⟨hbase, by simp, by
      intro a ha hb
      simp at hb
      exact hnot (hb ▸ ha)⟩
  · simpa [hp] using hbase

/-! ### `changeNodeParent` keeps the tree well formed -/

theorem calDist_nonneg {env : Env K} (henv : EnvOK env) (p q : Vec3 K) : 0 ≤ calDist env p q :=
  henv.sqrt_nonneg _

theorem TreeInv.edge_nonneg {env : Env K} {pool : Pool K} {valid : Nat} (henv : EnvOK env)
    (h : TreeInv env pool valid) {i p : Nat} (hp : (pool i).parent = some p) :
    0 ≤ (pool i).cost_from_parent := by
  rw [h.edge_len i p hp]
  exact calDist_nonneg henv _ _

/-- Costs from the start do not decrease along parent links, read downwards. -/
theorem TreeInv.cost_le_of_anc {env : Env K} {pool : Pool K} {valid : Nat} (henv : EnvOK env)
    (h : TreeInv env pool valid) {a m : Nat} (ha : Anc pool a m) :
    (pool a).cost_from_start ≤ (pool m).cost_from_start := by
  induction ha with
  | refl => exact le_refl _
  | step hp _ ih =>
    rw [h.cost_ok _ _ hp]
    have := h.edge_nonneg henv hp
    linarith

theorem TreeInv.cost_nonneg {env : Env K} {pool : Pool K} {valid : Nat} (henv : EnvOK env)
    (h : TreeInv env pool valid) {m : Nat} (ha : Anc pool start_node_ m) :
    0 ≤ (pool m).cost_from_start := by
  have := h.cost_le_of_anc henv ha
  rwa [h.start_cost] at this

/-- The goal never has descendants: nothing below it but itself. -/
theorem TreeInv.anc_goal {env : Env K} {pool : Pool K} {valid : Nat}
    (h : TreeInv env pool valid) {m : Nat} (ha : Anc pool goal_node_ m) : m = goal_node_ := by
  induction ha with
  | refl => rfl
  | step hp _ ih => exact absurd ih (h.parent_live _ _ hp).2.2

theorem TreeInv.anc_lt {env : Env K} {pool : Pool K} {valid : Nat}
    (h : TreeInv env pool valid) {a m : Nat} (ha : Anc pool a m) (hm : m < valid) : a < valid := by
  induction ha with
  | refl => exact hm
  | step hp _ ih => exact ih (h.parent_live _ _ hp).2.1

section Relinked

variable {pool pr : Pool K} {node np : Nat}

theorem anc_relink_of_not_desc
    (hpar : ∀ m, (pr m).parent = if m = node then some np else (pool m).parent)
    {a m : Nat} (ha : Anc pool a m) (hn : ¬ Anc pool node m) : Anc pr a m := by
  induction ha with
  | refl => exact Anc.refl
  | @step m p hp _ ih =>
    have hmn : m ≠ node := fun h => hn (h ▸ Anc.refl)
    have hnp : ¬ Anc pool node p := fun h => hn (Anc.step hp h)
    exact Anc.step (by rw [hpar, if_neg hmn]; exact hp) (ih hnp)

theorem anc_relink_desc
    (hpar : ∀ m, (pr m).parent = if m = node then some np else (pool m).parent)
    {m : Nat} : Anc pr node m ↔ Anc pool node m := by
  constructor
  · intro h
    induction h with
    | refl => exact Anc.refl
    | @step m p hp _ ih =>
      by_cases hmn : m = node
      · rw [hmn]; exact Anc.refl
      · rw [hpar, if_neg hmn] at hp
        exact Anc.step hp ih
  · intro h
    induction h with
    | refl => exact Anc.refl
    | @step m p hp _ ih =>
      by_cases hmn : m = node
      · rw [hmn]; exact Anc.refl
      · exact Anc.step (by rw [hpar, if_neg hmn]; exact hp) ih

theorem anc_relink_start
    (hpar : ∀ m, (pr m).parent = if m = node then some np else (pool m).parent)
    (hnp : Anc pool start_node_ np) (hn : ¬ Anc pool node np)
    {m : Nat} (ha : Anc pool start_node_ m) : Anc pr start_node_ m := by
  have hnode : Anc pr start_node_ node :=
    Anc.step (by rw [hpar, if_pos rfl]) (anc_relink_of_not_desc hpar hnp hn)
  induction ha with
  | refl => exact Anc.refl
  | @step m p hp _ ih =>
    by_cases hmn : m = node
    · rw [hmn]; exact hnode
    · exact Anc.step (by rw [hpar, if_neg hmn]; exact hp) ih

end Relinked

/-- Effect of `changeNodeParent` on a well-formed tree when the new parent is a reached node
that does not lie in the subtree of `node`. -/
theorem changeNodeParent_spec {env : Env K} {pool : Pool K} {valid node np fuel : Nat} {c : K}
    (h : TreeInv env pool valid)
    (hnode : node < valid) (hnode1 : node ≠ start_node_)
    (hnp : np < valid) (hnp0 : np ≠ goal_node_) (hnpr : Anc pool start_node_ np)
    (hanc : ¬ Anc pool node np)
    (hc : c = calDist env (pool np).x (pool node).x)
    (hseg : env.isSegmentValid (pool np).x (pool node).x = true)
    (hfuel : valid ≤ fuel) :
    ∃ pool', changeNodeParent fuel pool node np c = .ok pool' ∧ TreeInv env pool' valid ∧
      (∀ m, (pool' m).x = (pool m).x) ∧
      (∀ m, (pool' m).parent = if m = node then some np else (pool m).parent) ∧
      (∀ m, (pool' m).cost_from_parent = if m = node then c else (pool m).cost_from_parent) ∧
      (∀ m, Anc pool node m → (pool' m).cost_from_start =
        (pool m).cost_from_start +
          ((pool np).cost_from_start + c - (pool node).cost_from_start)) ∧
      (∀ m, ¬ Anc pool node m → (pool' m).cost_from_start = (pool m).cost_from_start) := by
  have hne : node ≠ np := fun e => hanc (e ▸ Anc.refl)
  set pr := relink pool node np c with hpr
  have hpar : ∀ m, (pr m).parent = if m = node then some np else (pool m).parent :=
    relink_parent pool node np c
  have hx : ∀ m, (pr m).x = (pool m).x := relink_x pool node np c
  have hcfp := relink_cost_from_parent pool node np c
  have hcost := relink_cost_from_start pool node np c
  have hch : ∀ p k, k ∈ (relink pool node np c p).children ↔
      (relink pool node np c k).parent = some p := relink_children_iff c h.children_iff
  have hnd : ∀ p, (relink pool node np c p).children.Nodup :=
    relink_children_nodup c h.children_iff h.children_nodup
  have hlive : ∀ i p, (pr i).parent = some p → i < valid := by
    intro i p hp
    rw [hpar] at hp
    by_cases hi : i = node
    · rw [hi]; exact hnode
    · rw [if_neg hi] at hp; exact (h.parent_live i p hp).1
  have hroot : ∀ p, (pr node).parent = some p → ¬ Anc pr node p := by
    intro p hp hd
    rw [hpar, if_pos rfl] at hp
    have : np = p := Option.some.inj hp
    rw [← this] at hd
    exact hanc ((anc_relink_desc hpar).1 hd)
  have hcons0 : ∀ m p, (pr m).parent = some p → p ∈ [node] ∨
      (pr m).cost_from_start = (pr p).cost_from_start + (pr m).cost_from_parent := by
    intro m p hp
    by_cases hpn : p = node
    · left; simp [hpn]
    right
    rw [hpar] at hp
    by_cases hm : m = node
    · rw [if_pos hm] at hp
      have hpe : np = p := Option.some.inj hp
      rw [hcost, hcost, hcfp, if_pos hm, if_pos hm, if_neg hpn, hpe]
    · rw [if_neg hm] at hp
      rw [hcost, hcost, hcfp, if_neg hm, if_neg hm, if_neg hpn]
      exact h.cost_ok m p hp
  obtain ⟨pool', hrun, hshape, hframe, hcons⟩ :=
    propagate_spec hlive hch hnd hnode hroot fuel [] [node] pr
      (fun m => ⟨rfl, rfl, rfl, rfl⟩) (by simp) (by simp; exact Anc.refl) (by simp)
      (by simpa using hfuel) hcons0
  have hpar' : ∀ m, (pool' m).parent = if m = node then some np else (pool m).parent :=
    fun m => (hshape m).1.trans (hpar m)
  have hx' : ∀ m, (pool' m).x = (pool m).x := fun m => (hshape m).2.2.1.trans (hx m)
  have hcfp' : ∀ m, (pool' m).cost_from_parent = if m = node then c else (pool m).cost_from_parent :=
    fun m => (hshape m).2.2.2.trans (hcfp m)
  have hparp : ∀ m, (pool' m).parent = (pr m).parent := fun m => (hshape m).1
  -- frame, phrased on the original pool
  have hframe0 : ∀ m, m ≠ node → ¬ Anc pool node m →
      (pool' m).cost_from_start = (pool m).cost_from_start := by
    intro m hm hnd'
    rw [hframe m, hcost, if_neg hm]
    intro p hp hd
    rw [hpar, if_neg hm] at hp
    exact hnd' (Anc.step hp ((anc_relink_desc hpar).1 hd))
  have hnode_cost : (pool' node).cost_from_start = (pool np).cost_from_start + c := by
    rw [hframe node, hcost, if_pos rfl]
    intro p hp
    exact hroot p hp
  have hnp_cost : (pool' np).cost_from_start = (pool np).cost_from_start :=
    hframe0 np (fun e => hne e.symm) hanc
  have hcons'' : ∀ m p, (pool' m).parent = some p →
      (pool' m).cost_from_start = (pool' p).cost_from_start + (pool' m).cost_from_parent := by
    intro m p hp
    rw [hparp] at hp
    have := hcons m p hp
    rw [(hshape m).2.2.2] at this ⊢
    exact this
  refine ⟨pool', hrun, ?_, hx', hpar', hcfp', ?_, ?_⟩
  · refine
      { two_le := h.two_le
        start_root := by rw [hpar', if_neg (Ne.symm hnode1)]; exact h.start_root
        start_cost := ?_
        parent_live := ?_
        has_parent := ?_
        children_iff := ?_
        children_nodup := ?_
        reach := ?_
        cost_ok := hcons''
        edge_len := ?_
        edge_valid := ?_ }
    · rw [hframe0 _ (Ne.symm hnode1), h.start_cost]
      intro hd
      -- the start has no parent, so it is below `node` only if it is `node`
      cases hd with
      | refl => exact hnode1 rfl
      | step hp _ => rw [h.start_root] at hp; cases hp
    · intro i p hp
      rw [hpar'] at hp
      by_cases hi : i = node
      · rw [if_pos hi] at hp
        have : np = p := Option.some.inj hp
        rw [hi, ← this]
        exact ⟨hnode, hnp, hnp0⟩
      · rw [if_neg hi] at hp
        exact h.parent_live i p hp
    · intro i h2 hiv
      rw [hpar']
      by_cases hi : i = node
      · simp [hi]
      · rw [if_neg hi]; exact h.has_parent i h2 hiv
    · intro p k
      rw [(hshape p).2.1, hparp]
      exact hch p k
    · intro p
      rw [(hshape p).2.1]
      exact hnd p
    · intro i p hp
      have hi : Anc pr start_node_ i := by
        by_cases hin : i = node
        · rw [hin]
          exact Anc.step (by rw [hpar, if_pos rfl]) (anc_relink_of_not_desc hpar hnpr hanc)
        · rw [hpar', if_neg hin] at hp
          exact anc_relink_start hpar hnpr hanc (h.reach i p hp)
      exact Anc.of_parent_eq hparp hi
    · intro i p hp
      rw [hpar'] at hp
      rw [hcfp', hx', hx']
      by_cases hi : i = node
      · rw [if_pos hi] at hp
        have : np = p := Option.some.inj hp
        rw [if_pos hi, hi, ← this]
        exact hc
      · rw [if_neg hi] at hp
        rw [if_neg hi]
        exact h.edge_len i p hp
    · intro i p hp
      rw [hpar'] at hp
      rw [hx', hx']
      by_cases hi : i = node
      · rw [if_pos hi] at hp
        have : np = p := Option.some.inj hp
        rw [hi, ← this]
        exact hseg
      · rw [if_neg hi] at hp
        exact h.edge_valid i p hp
  · intro m hm
    induction hm with
    | refl => rw [hnode_cost]; ring
    | @step m p hp hd ih =>
      by_cases hmn : m = node
      · rw [hmn, hnode_cost]; ring
      · have hp' : (pool' m).parent = some p := by rw [hpar', if_neg hmn]; exact hp
        rw [hcons'' m p hp', ih, hcfp', if_neg hmn, h.cost_ok m p hp]
        ring
  · intro m hm
    exact hframe0 m (fun e => hm (e ▸ Anc.refl)) hm

/-! ### Path extraction -/

theorem fillPathLoop_spec {pool : Pool K} {r : Nat} (hr : (pool r).parent = none) :
    ∀ (k n fuel : Nat) (acc : List (Vec3 K)), ancestorAt pool k n = some r → k ≤ fuel →
      ∃ l, fillPathLoop pool fuel n acc = .ok (acc ++ l) ∧
        l ++ [(pool r).x] = upStates pool k n := by
  intro k
  induction k with
  | zero =>
    intro n fuel acc h _
    simp [ancestorAt] at h
    subst h
    refine ⟨[], ?_, by simp [upStates]⟩
    unfold fillPathLoop
    simp [hr]
  | succ k ih =>
    intro n fuel acc h hk
    simp only [ancestorAt] at h
    cases hp : (pool n).parent with
    | none => simp [hp] at h
    | some p =>
      simp only [hp] at h
      obtain ⟨f, rfl⟩ : ∃ f, fuel = f + 1 := ⟨fuel - 1, by omega⟩
      obtain ⟨l, hl, hl2⟩ := ih p f (acc ++ [(pool n).x]) h (by omega)
      refine ⟨(pool n).x :: l, ?_, ?_⟩
      · unfold fillPathLoop
        simp only [hp]
        rw [hl]
        simp
      · simp [upStates, hp, hl2]

theorem fillPath_spec {pool : Pool K} (hr : (pool start_node_).parent = none)
    {k n fuel : Nat} (h : ancestorAt pool k n = some start_node_) (hk : k ≤ fuel) :
    fillPath fuel pool n = .ok (upStates pool k n).reverse := by
  obtain ⟨l, hl, hl2⟩ := fillPathLoop_spec hr k n fuel [] h hk
  unfold fillPath
  rw [hl]
  simp only [List.nil_append]
  rw [hl2]

theorem upStates_length {pool : Pool K} :
    ∀ (k n : Nat) (r : Nat), ancestorAt pool k n = some r →
      (upStates pool k n).length = k + 1 := by
  intro k
  induction k with
  | zero => intro n r _; simp [upStates]
  | succ k ih =>
    intro n r h
    simp only [ancestorAt] at h
    cases hp : (pool n).parent with
    | none => simp [hp] at h
    | some p =>
      simp only [hp] at h
      simp [upStates, hp, ih p r h]

theorem upStates_ne_nil (pool : Pool K) (k n : Nat) : upStates pool k n ≠ [] := by
  cases k <;> simp [upStates]

theorem upStates_head (pool : Pool K) (k n : Nat) :
    (upStates pool k n).head? = some (pool n).x := by
  cases k <;> simp [upStates]

theorem upStates_getLast {pool : Pool K} :
    ∀ (k n : Nat) (r : Nat), ancestorAt pool k n = some r →
      (upStates pool k n).getLast? = some (pool r).x := by
  intro k
  induction k with
  | zero =>
    intro n r h
    simp [ancestorAt] at h
    simp [upStates, h]
  | succ k ih =>
    intro n r h
    simp only [ancestorAt] at h
    cases hp : (pool n).parent with
    | none => simp [hp] at h
    | some p =>
      simp only [hp] at h
      have := ih p r h
      simp only [upStates, hp]
      rw [List.getLast?_cons, this]
      simp

theorem upStates_get {pool : Pool K} :
    ∀ (k n : Nat) (r : Nat), ancestorAt pool k n = some r → ∀ j, j ≤ k →
      (upStates pool k n)[j]? = (ancestorAt pool j n).map (fun v => (pool v).x) := by
  intro k
  induction k with
  | zero =>
    intro n r _ j hj
    have : j = 0 := by omega
    subst this
    simp [upStates, ancestorAt]
  | succ k ih =>
    intro n r h j hj
    simp only [ancestorAt] at h
    cases hp : (pool n).parent with
    | none => simp [hp] at h
    | some p =>
      simp only [hp] at h
      cases j with
      | zero => simp [upStates, ancestorAt]
      | succ j =>
        simp only [upStates, hp, ancestorAt, List.getElem?_cons_succ]
        exact ih p r h j (by omega)

theorem upStates_chain {env : Env K} {pool : Pool K}
    (hv : ∀ i p, (pool i).parent = some p → env.isSegmentValid (pool p).x (pool i).x = true) :
    ∀ (k n : Nat) (r : Nat), ancestorAt pool k n = some r →
      List.Chain' (fun a b => env.isSegmentValid b a = true) (upStates pool k n) := by
  intro k
  induction k with
  | zero => intro n r _; simp [upStates]
  | succ k ih =>
    intro n r h
    simp only [ancestorAt] at h
    cases hp : (pool n).parent with
    | none => simp [hp] at h
    | some p =>
      simp only [hp] at h
      simp only [upStates, hp]
      rw [List.chain'_cons']
      refine ⟨?_, ih p r h⟩
      intro y hy
      rw [upStates_head] at hy
      have : (pool p).x = y := by simpa using hy
      rw [← this]
      exact hv n p hp

theorem segmentsValid_reverse_upStates {env : Env K} {pool : Pool K}
    (hv : ∀ i p, (pool i).parent = some p → env.isSegmentValid (pool p).x (pool i).x = true)
    {k n r : Nat} (h : ancestorAt pool k n = some r) :
    SegmentsValid env (upStates pool k n).reverse := by
  unfold SegmentsValid
  rw [List.chain'_reverse]
  exact upStates_chain hv k n r h

/-- In a well-formed tree every reached live node has a path, and `fillPath` returns it with
as much fuel as there are live slots. -/
theorem TreeInv.fillPath_ok {env : Env K} {pool : Pool K} {valid n fuel : Nat}
    (h : TreeInv env pool valid) (hn : n < valid) (ha : Anc pool start_node_ n)
    (hfuel : valid ≤ fuel) :
    ∃ k, k < valid ∧ ancestorAt pool k n = some start_node_ ∧
      fillPath fuel pool n = .ok (upStates pool k n).reverse := by
  obtain ⟨k, hk⟩ := (anc_iff_ancestorAt pool start_node_ n).1 ha
  have hlt : k < valid :=
    depth_lt_valid (fun i p hp => (h.parent_live i p hp).2.1) hn h.start_root hk
  exact ⟨k, hlt, hk, fillPath_spec h.start_root hk (by omega)⟩

/-! ### Insertion -/

theorem TreeInv.dead_parent {env : Env K} {pool : Pool K} {valid : Nat}
    (h : TreeInv env pool valid) {i : Nat} (hi : valid ≤ i) : (pool i).parent = none := by
  cases hp : (pool i).parent with
  | none => rfl
  | some p => have := (h.parent_live i p hp).1; omega

theorem TreeInv.dead_children {env : Env K} {pool : Pool K} {valid : Nat}
    (h : TreeInv env pool valid) {i : Nat} (hi : valid ≤ i) : (pool i).children = [] := by
  apply List.eq_nil_iff_forall_not_mem.2
  intro c hc
  have := (h.parent_live c i ((h.children_iff i c).1 hc)).2.1
  omega

/-- Every live node but the goal is reached from the start. -/
theorem TreeInv.reach_live {env : Env K} {pool : Pool K} {valid : Nat}
    (h : TreeInv env pool valid) {i : Nat} (hi : i < valid) (h0 : i ≠ goal_node_) :
    Anc pool start_node_ i := by
  by_cases h1 : i = start_node_
  · rw [h1]; exact Anc.refl
  · have h2 : 2 ≤ i := by
      simp only [goal_node_, start_node_] at h0 h1
      omega
    cases hp : (pool i).parent with
    | none => exact absurd hp (h.has_parent i h2 hi)
    | some p => exact h.reach i p hp

theorem addTreeNode_spec {env : Env K} {st : RRTStar K} {par : Nat} {x_new : Vec3 K} {cfs cfp : K}
    (h : TreeInv env st.nodes_pool_ st.valid_tree_node_nums_)
    (hcap : st.valid_tree_node_nums_ < env.max_tree_node_nums_)
    (hpar : par < st.valid_tree_node_nums_) (hpar0 : par ≠ goal_node_)
    (hcost : cfs = (st.nodes_pool_ par).cost_from_start + cfp)
    (hlen : cfp = calDist env (st.nodes_pool_ par).x x_new)
    (hseg : env.isSegmentValid (st.nodes_pool_ par).x x_new = true) :
    ∃ pool', addTreeNode env st par x_new cfs cfp =
        .ok (st.valid_tree_node_nums_,
          { st with valid_tree_node_nums_ := st.valid_tree_node_nums_ + 1, nodes_pool_ := pool' }) ∧
      TreeInv env pool' (st.valid_tree_node_nums_ + 1) ∧
      (pool' st.valid_tree_node_nums_).x = x_new ∧
      (pool' st.valid_tree_node_nums_).cost_from_start = cfs ∧
      (pool' st.valid_tree_node_nums_).cost_from_parent = cfp ∧
      (pool' st.valid_tree_node_nums_).parent = some par ∧
      (∀ m, m ≠ st.valid_tree_node_nums_ →
        (pool' m).x = (st.nodes_pool_ m).x ∧
        (pool' m).cost_from_start = (st.nodes_pool_ m).cost_from_start ∧
        (pool' m).cost_from_parent = (st.nodes_pool_ m).cost_from_parent ∧
        (pool' m).parent = (st.nodes_pool_ m).parent) := by
  set pool := st.nodes_pool_ with hpool
  set new := st.valid_tree_node_nums_ with hnew
  have hpn : par ≠ new := by omega
  have hdp : (pool new).parent = none := h.dead_parent (le_refl _)
  have hdc : (pool new).children = [] := h.dead_children (le_refl _)
  have hreach : Anc pool start_node_ par := h.reach_live hpar hpar0
  let pool' : Pool K :=
    ((pool.modify new (fun n => { n with parent := some par })).modify par
      (fun n => { n with children := n.children ++ [new] })).modify new
      (fun n => { n with x := x_new, cost_from_start := cfs, cost_from_parent := cfp })
  have hpar' : ∀ m, (pool' m).parent = if m = new then some par else (pool m).parent := by
    intro m
    simp only [pool', Pool.modify_apply]
    split_ifs <;> simp_all
  have hx' : ∀ m, (pool' m).x = if m = new then x_new else (pool m).x := by
    intro m
    simp only [pool', Pool.modify_apply]
    split_ifs <;> simp_all
  have hc' : ∀ m, (pool' m).cost_from_start = if m = new then cfs else (pool m).cost_from_start := by
    intro m
    simp only [pool', Pool.modify_apply]
    split_ifs <;> simp_all
  have hcp' : ∀ m, (pool' m).cost_from_parent = if m = new then cfp else (pool m).cost_from_parent := by
    intro m
    simp only [pool', Pool.modify_apply]
    split_ifs <;> simp_all
  have hch' : ∀ m, (pool' m).children =
      if m = par then (pool m).children ++ [new] else (pool m).children := by
    intro m
    simp only [pool', Pool.modify_apply]
    split_ifs <;> simp_all
  have hold : ∀ i p, (pool i).parent = some p → i ≠ new ∧ p ≠ new := by
    intro i p hp
    have := h.parent_live i p hp
    omega
  have hnotdesc : ∀ m, m < new → ¬ Anc pool new m := by
    intro m hm hd
    have := h.anc_lt hd hm
    omega
  refine ⟨pool', ?_, ?_, ?_, ?_, ?_, ?_, ?_⟩
  · unfold addTreeNode
    rw [if_pos hcap]
  · refine
      { two_le := by have := h.two_le; omega
        start_root := ?_
        start_cost := ?_
        parent_live := ?_
        has_parent := ?_
        children_iff := ?_
        children_nodup := ?_
        reach := ?_
        cost_ok := ?_
        edge_len := ?_
        edge_valid := ?_ }
    · have : start_node_ ≠ new := by
        have := h.two_le; simp only [start_node_]; omega
      rw [hpar', if_neg this]; exact h.start_root
    · have : start_node_ ≠ new := by
        have := h.two_le; simp only [start_node_]; omega
      rw [hc', if_neg this]; exact h.start_cost
    · intro i p hp
      rw [hpar'] at hp
      by_cases hi : i = new
      · rw [if_pos hi] at hp
        have : par = p := Option.some.inj hp
        subst this
        exact ⟨by omega, by omega, hpar0⟩
      · rw [if_neg hi] at hp
        have := h.parent_live i p hp
        exact ⟨by omega, by omega, this.2.2⟩
    · intro i h2 hiv
      rw [hpar']
      by_cases hi : i = new
      · simp [hi]
      · rw [if_neg hi]; exact h.has_parent i h2 (by omega)
    · intro p k
      rw [hch', hpar']
      by_cases hk : k = new
      · subst hk
        by_cases hp : p = par
        · simp [hp]
        · have hne : ¬ par = p := fun e => hp e.symm
          simp [hp, hne, h.children_iff, hdp]
      · by_cases hp : p = par
        · simp [hp, hk, h.children_iff]
        · simp [hp, hk, h.children_iff]
    · intro p
      rw [hch']
      by_cases hp : p = par
      · rw [if_pos hp]
        refine List.nodup_append.2 ⟨h.children_nodup p, by simp, ?_⟩
        intro a ha hb
        simp only [List.mem_singleton] at hb
        rw [hb, h.children_iff, hdp] at ha
        cases ha
      · rw [if_neg hp]; exact h.children_nodup p
    · intro i p hp
      have hparr : Anc pool' start_node_ par :=
        anc_relink_of_not_desc hpar' hreach (hnotdesc par hpar)
      by_cases hi : i = new
      · rw [hi]
        exact Anc.step (by rw [hpar', if_pos rfl]) hparr
      · rw [hpar', if_neg hi] at hp
        have hil : i < new := (h.parent_live i p hp).1
        exact anc_relink_of_not_desc hpar' (h.reach i p hp) (hnotdesc i hil)
    · intro i p hp
      rw [hpar'] at hp
      by_cases hi : i = new
      · rw [if_pos hi] at hp
        have : par = p := Option.some.inj hp
        subst this
        rw [hc', hc', hcp', if_pos hi, if_neg hpn, if_pos hi]
        exact hcost
      · rw [if_neg hi] at hp
        rw [hc', hc', hcp', if_neg hi, if_neg (hold i p hp).2, if_neg hi]
        exact h.cost_ok i p hp
    · intro i p hp
      rw [hpar'] at hp
      by_cases hi : i = new
      · rw [if_pos hi] at hp
        have : par = p := Option.some.inj hp
        subst this
        rw [hcp', hx', hx', if_pos hi, if_neg hpn, if_pos hi]
        exact hlen
      · rw [if_neg hi] at hp
        rw [hcp', hx', hx', if_neg hi, if_neg (hold i p hp).2, if_neg hi]
        exact h.edge_len i p hp
    · intro i p hp
      rw [hpar'] at hp
      by_cases hi : i = new
      · rw [if_pos hi] at hp
        have : par = p := Option.some.inj hp
        subst this
        rw [hx', hx', if_pos hi, if_neg hpn]
        exact hseg
      · rw [if_neg hi] at hp
        rw [hx', hx', if_neg hi, if_neg (hold i p hp).2]
        exact h.edge_valid i p hp
  · rw [hx', if_pos rfl]
  · rw [hc', if_pos rfl]
  · rw [hcp', if_pos rfl]
  · rw [hpar', if_pos rfl]
  · intro m hm
    rw [hx', hc', hcp', hpar', if_neg hm, if_neg hm, if_neg hm, if_neg hm]
    exact ⟨rfl, rfl, rfl, rfl⟩

/-! ### Parent scan -/

theorem chooseParent_ok (env : Env K) (pool : Pool K) (x_new : Vec3 K) :
    ∀ (L : List Nat) (b : ParentChoice K),
      b.min_dist_from_start = (pool b.min_node).cost_from_start + b.cost_from_p →
      b.cost_from_p = calDist env (pool b.min_node).x x_new →
      env.isSegmentValid (pool b.min_node).x x_new = true →
      let r := chooseParent env pool x_new L b
      r.min_dist_from_start = (pool r.min_node).cost_from_start + r.cost_from_p ∧
      r.cost_from_p = calDist env (pool r.min_node).x x_new ∧
      env.isSegmentValid (pool r.min_node).x x_new = true ∧
      (r.min_node = b.min_node ∨ r.min_node ∈ L) := by
  intro L
  induction L with
  | nil =>
    intro b h1 h2 h3
    simp only [chooseParent]
    exact ⟨h1, h2, h3, by simp⟩
  | cons a L ih =>
    intro b h1 h2 h3
    simp only [chooseParent]
    split_ifs with hlt hseg
    · obtain ⟨r1, r2, r3, r4⟩ := ih
        { min_node := a, cost_from_p := calDist env (pool a).x x_new,
          min_dist_from_start := (pool a).cost_from_start + calDist env (pool a).x x_new }
        rfl rfl hseg
      refine ⟨r1, r2, r3, ?_⟩
      rcases r4 with r4 | r4
      · right; rw [r4]; simp
      · right; simp [r4]
    · obtain ⟨r1, r2, r3, r4⟩ := ih b h1 h2 h3
      refine ⟨r1, r2, r3, ?_⟩
      rcases r4 with r4 | r4
      · left; exact r4
      · right; simp [r4]
    · obtain ⟨r1, r2, r3, r4⟩ := ih b h1 h2 h3
      refine ⟨r1, r2, r3, ?_⟩
      rcases r4 with r4 | r4
      · left; exact r4
      · right; simp [r4]

/-! ### Recording a solution -/

theorem storeSolution_spec {env : Env K} {fuel : Nat} {t0 csq : K} {st : RRTStar K}
    {s g : Vec3 K}
    (h : TreeInv env st.nodes_pool_ st.valid_tree_node_nums_)
    (hgoal : (st.nodes_pool_ goal_node_).parent ≠ none)
    (hfuel : st.valid_tree_node_nums_ ≤ fuel)
    (hsx : (st.nodes_pool_ start_node_).x = s) (hgx : (st.nodes_pool_ goal_node_).x = g) :
    ∃ path t scale, storeSolution env fuel t0 csq st =
        .ok { st with
              path_list_ := st.path_list_ ++ [path]
              solution_cost_time_pair_list_ := st.solution_cost_time_pair_list_ ++
                [((st.nodes_pool_ goal_node_).cost_from_start, t)]
              clock_reads := st.clock_reads + 1
              scale_ := scale } ∧
      SegmentsValid env path ∧ path.head? = some s ∧ path.getLast? = some g := by
  have hg0 : goal_node_ < st.valid_tree_node_nums_ := by
    have := h.two_le; simp only [goal_node_]; omega
  have hreach : Anc st.nodes_pool_ start_node_ goal_node_ := by
    cases hp : (st.nodes_pool_ goal_node_).parent with
    | none => exact absurd hp hgoal
    | some p => exact h.reach _ p hp
  obtain ⟨k, _, hk, hfp⟩ := h.fillPath_ok hg0 hreach hfuel
  have hseg : SegmentsValid env (upStates st.nodes_pool_ k goal_node_).reverse :=
    segmentsValid_reverse_upStates h.edge_valid hk
  have hhead : (upStates st.nodes_pool_ k goal_node_).reverse.head? = some s := by
    rw [List.head?_reverse, upStates_getLast k _ _ hk, hsx]
  have hlast : (upStates st.nodes_pool_ k goal_node_).reverse.getLast? = some g := by
    rw [List.getLast?_reverse, upStates_head, hgx]
  by_cases hinf : env.use_informed_sampling_ = true
  · refine ⟨_, env.clock st.clock_reads - t0,
      ⟨(st.nodes_pool_ goal_node_).cost_from_start / 2,
        env.sqrt ((st.nodes_pool_ goal_node_).cost_from_start / 2 *
          ((st.nodes_pool_ goal_node_).cost_from_start / 2) - csq),
        env.sqrt ((st.nodes_pool_ goal_node_).cost_from_start / 2 *
          ((st.nodes_pool_ goal_node_).cost_from_start / 2) - csq)⟩, ?_, hseg, hhead, hlast⟩
    unfold storeSolution
    rw [hfp]
    simp only [hinf, if_true]
  · refine ⟨_, env.clock st.clock_reads - t0, st.scale_, ?_, hseg, hhead, hlast⟩
    unfold storeSolution
    rw [hfp]
    simp only [hinf]
    rfl

/-- A mutation that lowered the cost of the goal, followed by `storeSolution`, keeps the loop
invariant and is a recording step. -/
theorem Inv.record {env : Env K} {s g : Vec3 K} {st st1 : RRTStar K} {fuel : Nat} {t0 csq : K}
    (hinv : Inv env s g st)
    (htree : TreeInv env st1.nodes_pool_ st.valid_tree_node_nums_)
    (hx : ∀ m, (st1.nodes_pool_ m).x = (st.nodes_pool_ m).x)
    (hgp : (st1.nodes_pool_ goal_node_).parent ≠ none)
    (hlt : (st1.nodes_pool_ goal_node_).cost_from_start <
      (st.nodes_pool_ goal_node_).cost_from_start)
    (hvalid : st1.valid_tree_node_nums_ = st.valid_tree_node_nums_)
    (hkd : st1.kd_tree = st.kd_tree) (hfound : st1.goal_found = true)
    (hpl : st1.path_list_ = st.path_list_)
    (hsol : st1.solution_cost_time_pair_list_ = st.solution_cost_time_pair_list_)
    (hfin : st1.final_path_ = st.final_path_)
    (hfuel : st.valid_tree_node_nums_ ≤ fuel) :
    ∃ st2, storeSolution env fuel t0 csq st1 = .ok st2 ∧ Inv env s g st2 ∧ RecordStep st st2 ∧
      st2.nodes_pool_ = st1.nodes_pool_ ∧
      st2.valid_tree_node_nums_ = st.valid_tree_node_nums_ ∧ st2.kd_tree = st.kd_tree ∧
      st2.sampler_draws = st1.sampler_draws ∧ st2.clock_reads = st1.clock_reads + 1 := by
  have htree1 : TreeInv env st1.nodes_pool_ st1.valid_tree_node_nums_ := by rw [hvalid]; exact htree
  obtain ⟨path, t, scale, hrun, hseg, hhead, hlast⟩ :=
    @storeSolution_spec K _ env fuel t0 csq st1 s g htree1 hgp (by rw [hvalid]; exact hfuel)
      ((hx _).trans hinv.start_x) ((hx _).trans hinv.goal_x)
  refine ⟨_, hrun, ?_, ?_, rfl, hvalid, hkd, rfl, rfl⟩
  · refine
      { tree := htree1
        cap := by simpa [hvalid] using hinv.cap
        start_x := (hx _).trans hinv.start_x
        goal_x := (hx _).trans hinv.goal_x
        kd_live := by simpa [hvalid, hkd] using hinv.kd_live
        found_iff := by simp [hfound, hgp]
        hist_iff := by simp [hfound]
        hist_desc := ?_
        hist_ge := ?_
        hist_cur := ?_
        unreached := by simp [hfound]
        paths_len := by simp [hpl, hsol, hinv.paths_len]
        paths_ok := ?_
        final_nil := by simpa [hfin] using hinv.final_nil }
    · simp only [hsol, List.map_append, List.map_cons, List.map_nil]
      rw [List.pairwise_append]
      refine ⟨hinv.hist_desc, by simp, ?_⟩
      intro a ha b hb
      simp only [List.mem_singleton] at hb
      rw [hb]
      exact lt_of_lt_of_le hlt (hinv.hist_ge a ha)
    · intro c hc
      simp only [hsol, List.map_append, List.map_cons, List.map_nil, List.mem_append,
        List.mem_singleton] at hc
      rcases hc with hc | hc
      · exact le_of_lt (lt_of_lt_of_le hlt (hinv.hist_ge c hc))
      · rw [hc]
    · intro c hc
      simp only [hsol, List.map_append, List.map_cons, List.map_nil,
        List.getLast?_append, List.getLast?_singleton] at hc
      simpa using hc.symm
    · intro p hp
      simp only [hpl, List.mem_append, List.mem_singleton] at hp
      rcases hp with hp | hp
      · exact hinv.paths_ok p hp
      · rw [hp]; exact ⟨hseg, hhead, hlast⟩
  · left
    exact ⟨hlt, t, by simp [hsol]⟩

/-- A mutation that left the goal alone keeps the loop invariant. -/
theorem Inv.keep {env : Env K} {s g : Vec3 K} {st : RRTStar K} {pool' : Pool K}
    (hinv : Inv env s g st)
    (htree : TreeInv env pool' st.valid_tree_node_nums_)
    (hx : ∀ m, (pool' m).x = (st.nodes_pool_ m).x)
    (hgp : (pool' goal_node_).parent = (st.nodes_pool_ goal_node_).parent)
    (heq : (pool' goal_node_).cost_from_start = (st.nodes_pool_ goal_node_).cost_from_start) :
    Inv env s g { st with nodes_pool_ := pool' } :=
  { tree := htree
    cap := hinv.cap
    start_x := (hx _).trans hinv.start_x
    goal_x := (hx _).trans hinv.goal_x
    kd_live := hinv.kd_live
    found_iff := by simpa [hgp] using hinv.found_iff
    hist_iff := hinv.hist_iff
    hist_desc := hinv.hist_desc
    hist_ge := by simpa [heq] using hinv.hist_ge
    hist_cur := by simpa [heq] using hinv.hist_cur
    unreached := by simpa [heq] using hinv.unreached
    paths_len := hinv.paths_len
    paths_ok := hinv.paths_ok
    final_nil := hinv.final_nil }

/-! ### Goal connection and rewiring keep the loop invariant -/

/-- The loop invariant only reads the pool, the node count, the kd-tree, the found flag and
the three outputs. -/
theorem Inv.of_fields_eq {env : Env K} {s g : Vec3 K} {st st' : RRTStar K} (hinv : Inv env s g st)
    (h1 : st'.nodes_pool_ = st.nodes_pool_)
    (h2 : st'.valid_tree_node_nums_ = st.valid_tree_node_nums_)
    (h3 : st'.kd_tree = st.kd_tree) (h4 : st'.goal_found = st.goal_found)
    (h5 : st'.solution_cost_time_pair_list_ = st.solution_cost_time_pair_list_)
    (h6 : st'.path_list_ = st.path_list_) (h7 : st'.final_path_ = st.final_path_) :
    Inv env s g st' := by
  cases st
  cases st'
  simp only at h1 h2 h3 h4 h5 h6 h7
  subst h1 h2 h3 h4 h5 h6 h7
  exact
    { tree := hinv.tree, cap := hinv.cap, start_x := hinv.start_x, goal_x := hinv.goal_x
      kd_live := hinv.kd_live, found_iff := hinv.found_iff, hist_iff := hinv.hist_iff
      hist_desc := hinv.hist_desc, hist_ge := hinv.hist_ge, hist_cur := hinv.hist_cur
      unreached := hinv.unreached, paths_len := hinv.paths_len, paths_ok := hinv.paths_ok
      final_nil := hinv.final_nil }

theorem RecordStep.same {st st' : RRTStar K}
    (h1 : (st'.nodes_pool_ goal_node_).cost_from_start = (st.nodes_pool_ goal_node_).cost_from_start)
    (h2 : st'.solution_cost_time_pair_list_ = st.solution_cost_time_pair_list_) :
    RecordStep st st' := Or.inr ⟨h1, h2⟩

theorem noteFirstPath_frame (env : Env K) (t0 : K) (st : RRTStar K) :
    (noteFirstPath env t0 st).nodes_pool_ = st.nodes_pool_ ∧
    (noteFirstPath env t0 st).valid_tree_node_nums_ = st.valid_tree_node_nums_ ∧
    (noteFirstPath env t0 st).kd_tree = st.kd_tree ∧
    (noteFirstPath env t0 st).path_list_ = st.path_list_ ∧
    (noteFirstPath env t0 st).solution_cost_time_pair_list_ = st.solution_cost_time_pair_list_ ∧
    (noteFirstPath env t0 st).final_path_ = st.final_path_ ∧
    (noteFirstPath env t0 st).sampler_draws = st.sampler_draws ∧
    st.clock_reads ≤ (noteFirstPath env t0 st).clock_reads := by
  unfold noteFirstPath
  split_ifs <;> simp

theorem connectGoal_inv {env : Env K} (henv : EnvOK env) {s g : Vec3 K} {st : RRTStar K}
    {fuel : Nat} {t0 csq : K} {x_new : Vec3 K} {new_node : Nat}
    (hinv : Inv env s g st) (hnew : new_node < st.valid_tree_node_nums_)
    (hnew0 : new_node ≠ goal_node_) (hxn : (st.nodes_pool_ new_node).x = x_new)
    (hfuel : st.valid_tree_node_nums_ ≤ fuel) :
    ∃ st', connectGoal env fuel t0 csq x_new new_node st = .ok st' ∧ Inv env s g st' ∧
      RecordStep st st' ∧ st'.valid_tree_node_nums_ = st.valid_tree_node_nums_ ∧
      st'.kd_tree = st.kd_tree ∧ st'.sampler_draws = st.sampler_draws ∧
      st.clock_reads ≤ st'.clock_reads ∧
      (∀ m, (st'.nodes_pool_ m).x = (st.nodes_pool_ m).x) := by
  have hkeep : ∃ st', (Except.ok st : Except Fault (RRTStar K)) = Except.ok st' ∧ Inv env s g st' ∧
      RecordStep st st' ∧ st'.valid_tree_node_nums_ = st.valid_tree_node_nums_ ∧
      st'.kd_tree = st.kd_tree ∧ st'.sampler_draws = st.sampler_draws ∧
      st.clock_reads ≤ st'.clock_reads ∧
      (∀ m, (st'.nodes_pool_ m).x = (st.nodes_pool_ m).x) :=
    ⟨st, rfl, hinv, RecordStep.same rfl rfl, rfl, rfl, rfl, le_refl _, fun _ => rfl⟩
  unfold connectGoal
  simp only
  split_ifs with hrad hcon
  · -- the goal is connected
    obtain ⟨hsegv, hbetter⟩ := hcon
    have htree := hinv.tree
    have hg0 : goal_node_ < st.valid_tree_node_nums_ := by
      have := htree.two_le; simp only [goal_node_]; omega
    have hreach : Anc st.nodes_pool_ start_node_ new_node := htree.reach_live hnew hnew0
    have hnotdesc : ¬ Anc st.nodes_pool_ goal_node_ new_node := fun hd => hnew0 (htree.anc_goal hd)
    obtain ⟨e1, e2, e3, e4, e5, e6, e7, e8⟩ := noteFirstPath_frame env t0 st
    obtain ⟨pool', hrun, htree', hx', hpar', hcfp', hdesc, hnd⟩ :=
      @changeNodeParent_spec K _ env st.nodes_pool_ st.valid_tree_node_nums_ goal_node_ new_node
        fuel (calDist env x_new (st.nodes_pool_ goal_node_).x)
        htree hg0 (by decide) hnew hnew0 hreach hnotdesc
        (by rw [hxn]) (by rw [hxn]; exact hsegv) hfuel
    rw [e1, hrun]
    simp only
    have hgcost : (pool' goal_node_).cost_from_start =
        (st.nodes_pool_ new_node).cost_from_start +
          calDist env x_new (st.nodes_pool_ goal_node_).x := by
      rw [hdesc goal_node_ Anc.refl]; ring
    obtain ⟨st2, hst2, hinv2, hrec, hpool2, hv2, hkd2, hsd2, hcr2⟩ :=
      @Inv.record K _ env s g st
        { noteFirstPath env t0 st with goal_found := true, nodes_pool_ := pool' } fuel t0 csq
        hinv htree' hx' (by rw [hpar']; simp)
        (by rw [hgcost]; rw [gt_iff_lt] at hbetter; linarith)
        e2 e3 rfl e4 e5 e6 hfuel
    refine ⟨st2, hst2, hinv2, hrec, hv2, hkd2, by rw [hsd2]; exact e7, ?_, ?_⟩
    · rw [hcr2]
      have : st.clock_reads ≤ (noteFirstPath env t0 st).clock_reads := e8
      exact Nat.le_succ_of_le this
    · intro m
      rw [hpool2]
      exact hx' m
  · exact hkeep
  · exact hkeep

theorem rewireStep_inv {env : Env K} (henv : EnvOK env) {s g : Vec3 K} {st : RRTStar K}
    {fuel : Nat} {t0 csq : K} {new_node curr_node : Nat}
    (hinv : Inv env s g st) (hnew : new_node < st.valid_tree_node_nums_)
    (hnew0 : new_node ≠ goal_node_)
    (hcurr : curr_node < st.valid_tree_node_nums_) (hcurr0 : curr_node ≠ goal_node_)
    (hfuel : st.valid_tree_node_nums_ ≤ fuel) :
    ∃ st', rewireStep env fuel t0 csq new_node curr_node st = .ok st' ∧ Inv env s g st' ∧
      RecordStep st st' ∧ st'.valid_tree_node_nums_ = st.valid_tree_node_nums_ ∧
      st'.kd_tree = st.kd_tree ∧ st'.sampler_draws = st.sampler_draws ∧
      st.clock_reads ≤ st'.clock_reads ∧
      (∀ m, (st'.nodes_pool_ m).x = (st.nodes_pool_ m).x) ∧
      ((st'.nodes_pool_ goal_node_).cost_from_start < (st.nodes_pool_ goal_node_).cost_from_start →
        Anc st.nodes_pool_ curr_node goal_node_) := by
  have hkeep : ∃ st', (Except.ok st : Except Fault (RRTStar K)) = Except.ok st' ∧ Inv env s g st' ∧
      RecordStep st st' ∧ st'.valid_tree_node_nums_ = st.valid_tree_node_nums_ ∧
      st'.kd_tree = st.kd_tree ∧ st'.sampler_draws = st.sampler_draws ∧
      st.clock_reads ≤ st'.clock_reads ∧
      (∀ m, (st'.nodes_pool_ m).x = (st.nodes_pool_ m).x) ∧
      ((st'.nodes_pool_ goal_node_).cost_from_start < (st.nodes_pool_ goal_node_).cost_from_start →
        Anc st.nodes_pool_ curr_node goal_node_) :=
    ⟨st, rfl, hinv, RecordStep.same rfl rfl, rfl, rfl, rfl, le_refl _, fun _ => rfl,
      fun h => absurd h (lt_irrefl _)⟩
  have htree := hinv.tree
  by_cases hcond : (st.nodes_pool_ new_node).cost_from_start +
        calDist env (st.nodes_pool_ new_node).x (st.nodes_pool_ curr_node).x <
        (st.nodes_pool_ curr_node).cost_from_start ∧
      (st.nodes_pool_ new_node).cost_from_start +
        calDist env (st.nodes_pool_ new_node).x (st.nodes_pool_ curr_node).x +
        calDist env (st.nodes_pool_ curr_node).x (st.nodes_pool_ goal_node_).x <
        (st.nodes_pool_ goal_node_).cost_from_start
  swap
  · unfold rewireStep
    simp only [hcond, if_false]
    exact hkeep
  by_cases hsegv : env.isSegmentValid (st.nodes_pool_ new_node).x (st.nodes_pool_ curr_node).x = true
  swap
  · unfold rewireStep
    simp only [hcond, hsegv]
    simpa using hkeep
  obtain ⟨hlt, hc2⟩ := hcond
  have hd0 := calDist_nonneg henv (st.nodes_pool_ new_node).x (st.nodes_pool_ curr_node).x
  have hreach : Anc st.nodes_pool_ start_node_ new_node := htree.reach_live hnew hnew0
  have hnewcost := htree.cost_nonneg henv hreach
  have hcurr1 : curr_node ≠ start_node_ := by
    intro e
    rw [e] at hlt hd0
    rw [htree.start_cost] at hlt
    linarith
  have hnotdesc : ¬ Anc st.nodes_pool_ curr_node new_node := by
    intro hd
    have := htree.cost_le_of_anc henv hd
    linarith
  obtain ⟨pool', hrun, htree', hx', hpar', hcfp', hdesc, hnd⟩ :=
    @changeNodeParent_spec K _ env st.nodes_pool_ st.valid_tree_node_nums_ curr_node new_node
      fuel (calDist env (st.nodes_pool_ new_node).x (st.nodes_pool_ curr_node).x)
      htree hcurr hcurr1 hnew hnew0 hreach hnotdesc rfl hsegv hfuel
  have hgp : (pool' goal_node_).parent = (st.nodes_pool_ goal_node_).parent := by
    rw [hpar', if_neg (Ne.symm hcurr0)]
  have hle : (pool' goal_node_).cost_from_start ≤ (st.nodes_pool_ goal_node_).cost_from_start := by
    by_cases hd : Anc st.nodes_pool_ curr_node goal_node_
    · rw [hdesc _ hd]; linarith
    · rw [hnd _ hd]
  unfold rewireStep
  simp only [hlt, hsegv, if_true, hrun]
  simp only [hc2, and_self, if_true]
  by_cases himp : (st.nodes_pool_ goal_node_).cost_from_start > (pool' goal_node_).cost_from_start
  · rw [if_pos himp]
    have hgpar : (st.nodes_pool_ goal_node_).parent ≠ none := by
      intro hnone
      have hd : ¬ Anc st.nodes_pool_ curr_node goal_node_ := by
        intro hd
        cases hd with
        | refl => exact hcurr0 rfl
        | step hp _ => rw [hnone] at hp; cases hp
      rw [hnd _ hd] at himp
      exact lt_irrefl _ himp
    have hfound : st.goal_found = true := hinv.found_iff.2 hgpar
    obtain ⟨st2, hst2, hinv2, hrec, hpool2, hv2, hkd2, hsd2, hcr2⟩ :=
      @Inv.record K _ env s g st { st with nodes_pool_ := pool' } fuel t0 csq
        hinv htree' hx' (by rw [hgp]; exact hgpar) himp rfl rfl hfound rfl rfl rfl hfuel
    refine ⟨st2, hst2, hinv2, hrec, hv2, hkd2, hsd2, ?_, ?_, ?_⟩
    · rw [hcr2]; exact Nat.le_succ _
    · intro m
      rw [hpool2]
      exact hx' m
    · intro _
      by_contra hd
      rw [hnd _ hd] at himp
      exact lt_irrefl _ himp
  · rw [if_neg himp]
    have heq : (pool' goal_node_).cost_from_start = (st.nodes_pool_ goal_node_).cost_from_start :=
      le_antisymm hle (not_lt.1 himp)
    exact ⟨_, rfl, hinv.keep htree' hx' hgp heq, RecordStep.same heq rfl, rfl, rfl, rfl,
      le_refl _, hx', fun h => absurd h (by rw [heq]; exact lt_irrefl _)⟩

theorem rewire_inv {env : Env K} (henv : EnvOK env) {s g : Vec3 K}
    {fuel : Nat} {t0 csq : K} {new_node : Nat} (hnew0 : new_node ≠ goal_node_) :
    ∀ (L : List Nat) (st : RRTStar K), Inv env s g st →
      new_node < st.valid_tree_node_nums_ →
      (∀ c ∈ L, c < st.valid_tree_node_nums_ ∧ c ≠ goal_node_) →
      st.valid_tree_node_nums_ ≤ fuel →
      ∃ st', rewire env fuel t0 csq new_node L st = .ok st' ∧ Inv env s g st' ∧
        st'.valid_tree_node_nums_ = st.valid_tree_node_nums_ ∧
        st'.kd_tree = st.kd_tree ∧ st'.sampler_draws = st.sampler_draws ∧
        st.clock_reads ≤ st'.clock_reads ∧
        (st'.nodes_pool_ goal_node_).cost_from_start ≤ (st.nodes_pool_ goal_node_).cost_from_start ∧
        (∀ m, (st'.nodes_pool_ m).x = (st.nodes_pool_ m).x) ∧
        Relation.ReflTransGen RecordStep st st' := by
  intro L
  induction L with
  | nil =>
    intro st hinv _ _ _
    exact ⟨st, rfl, hinv, rfl, rfl, rfl, le_refl _, le_refl _, fun _ => rfl,
      Relation.ReflTransGen.refl⟩
  | cons c L ih =>
    intro st hinv hnew hL hfuel
    obtain ⟨st1, hrun1, hinv1, hrec1, hv1, hkd1, hsd1, hcr1, hx1, _⟩ :=
      @rewireStep_inv K _ env henv s g st fuel t0 csq new_node c hinv hnew hnew0
        (hL c (by simp)).1 (hL c (by simp)).2 hfuel
    obtain ⟨st2, hrun2, hinv2, hv2, hkd2, hsd2, hcr2, hgc2, hx2, hsteps2⟩ :=
      ih st1 hinv1 (by rw [hv1]; exact hnew)
        (fun c' hc' => by rw [hv1]; exact hL c' (by simp [hc'])) (by rw [hv1]; exact hfuel)
    refine ⟨st2, ?_, hinv2, hv2.trans hv1, hkd2.trans hkd1, hsd2.trans hsd1,
      le_trans hcr1 hcr2, ?_, fun m => (hx2 m).trans (hx1 m),
      Relation.ReflTransGen.head hrec1 hsteps2⟩
    · simp only [rewire, hrun1]
      exact hrun2
    · refine le_trans hgc2 ?_
      rcases hrec1 with h | h
      · exact le_of_lt h.1
      · exact le_of_eq h.1

/-! ### One pass through the loop body -/

theorem iteration_inv {env : Env K} (henv : EnvOK env) {s g : Vec3 K} {st : RRTStar K}
    {fuel : Nat} {t0 csq : K}
    (hinv : Inv env s g st) (hcap : st.valid_tree_node_nums_ < env.max_tree_node_nums_)
    (hfuel : env.max_tree_node_nums_ ≤ fuel) :
    ∃ b st', iteration env fuel t0 csq st = .ok (b, st') ∧ Inv env s g st' ∧
      st.clock_reads ≤ st'.clock_reads ∧
      st.valid_tree_node_nums_ ≤ st'.valid_tree_node_nums_ ∧
      st'.valid_tree_node_nums_ ≤ st.valid_tree_node_nums_ + 1 ∧
      (st'.nodes_pool_ goal_node_).cost_from_start ≤ (st.nodes_pool_ goal_node_).cost_from_start ∧
      Relation.ReflTransGen RecordStep st st' := by
  have hinv0 : Inv env s g { st with sampler_draws := st.sampler_draws + 1 } :=
    hinv.of_fields_eq rfl rfl rfl rfl rfl rfl rfl
  have hskip : ∀ b : Bool, ∃ b' st', (Except.ok (b, { st with sampler_draws := st.sampler_draws + 1 }) :
      Except Fault (Bool × RRTStar K)) = .ok (b', st') ∧ Inv env s g st' ∧
      st.clock_reads ≤ st'.clock_reads ∧
      st.valid_tree_node_nums_ ≤ st'.valid_tree_node_nums_ ∧
      st'.valid_tree_node_nums_ ≤ st.valid_tree_node_nums_ + 1 ∧
      (st'.nodes_pool_ goal_node_).cost_from_start ≤ (st.nodes_pool_ goal_node_).cost_from_start ∧
      Relation.ReflTransGen RecordStep st st' :=
    fun b => ⟨b, _, rfl, hinv0, le_refl _, le_refl _, Nat.le_succ _, le_refl _,
      Relation.ReflTransGen.single (RecordStep.same rfl rfl)⟩
  unfold iteration
  simp only
  by_cases hval : env.isStateValid (env.samples st.sampler_draws) = true
  swap
  · simp only [hval]
    simpa using hskip false
  simp only [hval, Bool.not_true]
  cases hnear : env.kd_nearest3 st.kd_tree (env.samples st.sampler_draws) with
  | none => simpa using hskip false
  | some nearest_node =>
    simp only
    by_cases hseg : env.isSegmentValid (st.nodes_pool_ nearest_node).x
        (steer env (st.nodes_pool_ nearest_node).x (env.samples st.sampler_draws)
          env.steer_length_) = true
    swap
    · simp only [hseg]
      simpa using hskip false
    simp only [hseg, Bool.not_true]
    cases hrange : env.kd_nearest_range3 st.kd_tree
        (steer env (st.nodes_pool_ nearest_node).x (env.samples st.sampler_draws)
          env.steer_length_) env.search_radius_ with
    | none => simpa using hskip true
    | some neighbour_nodes =>
      simp only
      set x_new := steer env (st.nodes_pool_ nearest_node).x (env.samples st.sampler_draws)
        env.steer_length_ with hx_new
      have htree := hinv.tree
      have hkdmem : ∀ n, n ∈ st.kd_tree.map Prod.snd →
          n < st.valid_tree_node_nums_ ∧ n ≠ goal_node_ := by
        intro n hn
        obtain ⟨e, he, rfl⟩ := List.mem_map.1 hn
        exact hinv.kd_live e he
      have hnearest := hkdmem _ (henv.nearest_mem _ _ _ hnear)
      have hnbrs : ∀ c ∈ neighbour_nodes, c < st.valid_tree_node_nums_ ∧ c ≠ goal_node_ :=
        fun c hc => hkdmem c (henv.range_mem _ _ _ _ hrange c hc)
      obtain ⟨b1, b2, b3, b4⟩ := chooseParent_ok env st.nodes_pool_ x_new neighbour_nodes
        { min_node := nearest_node
          cost_from_p := calDist env (st.nodes_pool_ nearest_node).x x_new
          min_dist_from_start := (st.nodes_pool_ nearest_node).cost_from_start +
            calDist env (st.nodes_pool_ nearest_node).x x_new } rfl rfl hseg
      set best := chooseParent env st.nodes_pool_ x_new neighbour_nodes
        { min_node := nearest_node
          cost_from_p := calDist env (st.nodes_pool_ nearest_node).x x_new
          min_dist_from_start := (st.nodes_pool_ nearest_node).cost_from_start +
            calDist env (st.nodes_pool_ nearest_node).x x_new } with hbest
      have hmin : best.min_node < st.valid_tree_node_nums_ ∧ best.min_node ≠ goal_node_ := by
        rcases b4 with h | h
        · rw [h]; exact hnearest
        · exact hnbrs _ h
      obtain ⟨pool1, hadd, htree1, hxnew, hcnew, hcpnew, hpnew, hold⟩ :=
        @addTreeNode_spec K _ env { st with sampler_draws := st.sampler_draws + 1 }
          best.min_node x_new best.min_dist_from_start best.cost_from_p
          htree hcap hmin.1 hmin.2 b1 b2 b3
      rw [hadd]
      simp only
      have hg_ne : goal_node_ ≠ st.valid_tree_node_nums_ := by
        have := htree.two_le; simp only [goal_node_]; omega
      have hs_ne : start_node_ ≠ st.valid_tree_node_nums_ := by
        have := htree.two_le; simp only [start_node_]; omega
      have hinv2 : Inv env s g
          { st with sampler_draws := st.sampler_draws + 1
                    valid_tree_node_nums_ := st.valid_tree_node_nums_ + 1
                    nodes_pool_ := pool1
                    kd_tree := st.kd_tree ++ [(x_new, st.valid_tree_node_nums_)] } :=
        { tree := htree1
          cap := hcap
          start_x := ((hold _ hs_ne).1).trans hinv.start_x
          goal_x := ((hold _ hg_ne).1).trans hinv.goal_x
          kd_live := by
            intro e he
            simp only [List.mem_append, List.mem_singleton] at he
            rcases he with he | he
            · have := hinv.kd_live e he
              exact ⟨Nat.lt_succ_of_lt this.1, this.2⟩
            · rw [he]
              exact ⟨Nat.lt_succ_self _, Ne.symm hg_ne⟩
          found_iff := by
            show st.goal_found = true ↔ (pool1 goal_node_).parent ≠ none
            rw [(hold _ hg_ne).2.2.2]; exact hinv.found_iff
          hist_iff := hinv.hist_iff
          hist_desc := hinv.hist_desc
          hist_ge := by
            show ∀ c ∈ st.solution_cost_time_pair_list_.map Prod.fst,
              (pool1 goal_node_).cost_from_start ≤ c
            rw [(hold _ hg_ne).2.1]; exact hinv.hist_ge
          hist_cur := by
            show ∀ c, (st.solution_cost_time_pair_list_.map Prod.fst).getLast? = some c →
              c = (pool1 goal_node_).cost_from_start
            rw [(hold _ hg_ne).2.1]; exact hinv.hist_cur
          unreached := by
            show st.goal_found = false → (pool1 goal_node_).cost_from_start = DBL_MAX
            rw [(hold _ hg_ne).2.1]; exact hinv.unreached
          paths_len := hinv.paths_len
          paths_ok := hinv.paths_ok
          final_nil := hinv.final_nil }
      have hfuel2 : st.valid_tree_node_nums_ + 1 ≤ fuel := by omega
      obtain ⟨st3, hrun3, hinv3, hrec3, hv3, hkd3, hsd3, hcr3, hx3⟩ :=
        @connectGoal_inv K _ env henv s g _ fuel t0 csq x_new st.valid_tree_node_nums_
          hinv2 (Nat.lt_succ_self _) (Ne.symm hg_ne) hxnew hfuel2
      rw [hrun3]
      simp only
      obtain ⟨st4, hrun4, hinv4, hv4, hkd4, hsd4, hcr4, hgc4, hx4, hsteps4⟩ :=
        @rewire_inv K _ env henv s g fuel t0 csq st.valid_tree_node_nums_ (Ne.symm hg_ne)
          neighbour_nodes st3 hinv3 (by rw [hv3]; exact Nat.lt_succ_self _)
          (fun c hc => by rw [hv3]; exact ⟨Nat.lt_succ_of_lt (hnbrs c hc).1, (hnbrs c hc).2⟩)
          (by rw [hv3]; exact hfuel2)
      rw [hrun4]
      have h0 : (pool1 goal_node_).cost_from_start = (st.nodes_pool_ goal_node_).cost_from_start :=
        (hold _ hg_ne).2.1
      refine ⟨false, st4, rfl, hinv4, le_trans hcr3 hcr4, ?_, ?_, ?_, ?_⟩
      · rw [hv4, hv3]; exact Nat.le_succ _
      · rw [hv4, hv3]
      · refine le_trans hgc4 ?_
        rcases hrec3 with h | h
        · exact le_trans (le_of_lt h.1) (le_of_eq h0)
        · exact le_trans (le_of_eq h.1) (le_of_eq h0)
      · have hstep0 : RecordStep st
            { st with sampler_draws := st.sampler_draws + 1
                      valid_tree_node_nums_ := st.valid_tree_node_nums_ + 1
                      nodes_pool_ := pool1
                      kd_tree := st.kd_tree ++ [(x_new, st.valid_tree_node_nums_)] } :=
          RecordStep.same h0 rfl
        exact Relation.ReflTransGen.head hstep0 (Relation.ReflTransGen.head hrec3 hsteps4)

/-! ### The planning loop -/

theorem rrt_loop_inv {env : Env K} (henv : EnvOK env) {s g : Vec3 K} {inner : Nat} {t0 csq : K}
    (hfuel : env.max_tree_node_nums_ ≤ inner) :
    ∀ (fuel : Nat) (st st' : RRTStar K), Inv env s g st →
      rrt_loop env inner t0 csq fuel st = .ok st' →
      Inv env s g st' ∧ st.clock_reads < st'.clock_reads ∧
      st.valid_tree_node_nums_ ≤ st'.valid_tree_node_nums_ ∧
      (st'.nodes_pool_ goal_node_).cost_from_start ≤ (st.nodes_pool_ goal_node_).cost_from_start := by
  intro fuel
  induction fuel with
  | zero =>
    intro st st' hinv hrun
    unfold rrt_loop at hrun
    simp only at hrun
    split_ifs at hrun with hg
    have := Except.ok.inj hrun
    rw [← this]
    exact ⟨hinv.of_fields_eq rfl rfl rfl rfl rfl rfl rfl, Nat.lt_succ_self _, le_refl _, le_refl _⟩
  | succ fuel ih =>
    intro st st' hinv hrun
    unfold rrt_loop at hrun
    simp only at hrun
    split_ifs at hrun with hg
    · have hinv1 : Inv env s g { st with clock_reads := st.clock_reads + 1 } :=
        hinv.of_fields_eq rfl rfl rfl rfl rfl rfl rfl
      obtain ⟨b, st2, hit, hinv2, hcr2, hv2, _, hgc2, _⟩ :=
        @iteration_inv K _ env henv s g _ inner t0 csq hinv1 hg.2 hfuel
      rw [hit] at hrun
      cases b with
      | true =>
        simp only at hrun
        have := Except.ok.inj hrun
        rw [← this]
        exact ⟨hinv2, Nat.lt_of_lt_of_le (Nat.lt_succ_self _) hcr2, hv2, hgc2⟩
      | false =>
        simp only at hrun
        obtain ⟨h1, h2, h3, h4⟩ := ih st2 st' hinv2 hrun
        exact ⟨h1, Nat.lt_trans (Nat.lt_of_lt_of_le (Nat.lt_succ_self _) hcr2) h2,
          le_trans hv2 h3, le_trans h4 hgc2⟩
    · have := Except.ok.inj hrun
      rw [← this]
      exact ⟨hinv.of_fields_eq rfl rfl rfl rfl rfl rfl rfl, Nat.lt_succ_self _, le_refl _, le_refl _⟩

/-- With a clock that is past the budget from its `N`-th reading on, the loop ends within
`N` passes: it never runs out of fuel when `N ≤ clock_reads + fuel`. -/
theorem rrt_loop_total {env : Env K} (henv : EnvOK env) {s g : Vec3 K} {inner N : Nat} {t0 csq : K}
    (hfuel : env.max_tree_node_nums_ ≤ inner)
    (hclock : ∀ k, N ≤ k → env.search_time_ ≤ env.clock k - t0) :
    ∀ (fuel : Nat) (st : RRTStar K), Inv env s g st → N ≤ st.clock_reads + fuel →
      ∃ st', rrt_loop env inner t0 csq fuel st = .ok st' := by
  intro fuel
  induction fuel with
  | zero =>
    intro st hinv hN
    unfold rrt_loop
    simp only
    have := hclock st.clock_reads (by omega)
    rw [if_neg (by intro h; exact absurd h.1 (not_lt.2 this))]
    exact ⟨_, rfl⟩
  | succ fuel ih =>
    intro st hinv hN
    unfold rrt_loop
    simp only
    split_ifs with hg
    · have hinv1 : Inv env s g { st with clock_reads := st.clock_reads + 1 } :=
        hinv.of_fields_eq rfl rfl rfl rfl rfl rfl rfl
      obtain ⟨b, st2, hit, hinv2, hcr2, _, _, _, _⟩ :=
        @iteration_inv K _ env henv s g _ inner t0 csq hinv1 hg.2 hfuel
      rw [hit]
      cases b with
      | true => exact ⟨_, rfl⟩
      | false =>
        simp only
        have hcr : st.clock_reads + 1 ≤ st2.clock_reads := hcr2
        exact ih st2 hinv2 (by omega)
    · exact ⟨_, rfl⟩

/-! ### From `plan` to the loop -/

theorem clearSlots_clean {st : RRTStar K} (hc : Clean st) (i : Nat) :
    (clearSlots st.nodes_pool_ st.valid_tree_node_nums_ i).parent = none ∧
    (clearSlots st.nodes_pool_ st.valid_tree_node_nums_ i).children = [] := by
  unfold clearSlots
  split_ifs with h
  · exact ⟨rfl, rfl⟩
  · exact hc i (not_lt.1 h)

theorem plan_init_fields (env : Env K) (st : RRTStar K) (s g : Vec3 K) :
    (plan_init env st s g).valid_tree_node_nums_ = 2 ∧
    (plan_init env st s g).nodes_pool_ =
      ((clearSlots st.nodes_pool_ st.valid_tree_node_nums_).modify start_node_
        (fun n => { n with x := s, cost_from_start := 0 })).modify goal_node_
        (fun n => { n with x := g, cost_from_start := DBL_MAX }) ∧
    (plan_init env st s g).final_path_ = [] ∧
    (plan_init env st s g).path_list_ = [] ∧
    (plan_init env st s g).solution_cost_time_pair_list_ = [] ∧
    (plan_init env st s g).clock_reads = st.clock_reads ∧
    (plan_init env st s g).sampler_draws = st.sampler_draws := by
  unfold plan_init reset
  split_ifs <;> simp

theorem plan_init_inv {env : Env K} {st : RRTStar K} (s g : Vec3 K) (hc : Clean st)
    (hmax : 2 ≤ env.max_tree_node_nums_) :
    Inv env s g (rrt_star_init (plan_init env st s g)) := by
  obtain ⟨hv, hp, hf, hpl, hsol, _, _⟩ := plan_init_fields env st s g
  have hpar : ∀ i, ((plan_init env st s g).nodes_pool_ i).parent = none := by
    intro i
    rw [hp]
    simp only [Pool.modify_apply]
    split_ifs <;> simp [(clearSlots_clean hc _).1]
  have hchi : ∀ i, ((plan_init env st s g).nodes_pool_ i).children = [] := by
    intro i
    rw [hp]
    simp only [Pool.modify_apply]
    split_ifs <;> simp [(clearSlots_clean hc _).2]
  have hsx : ((plan_init env st s g).nodes_pool_ start_node_).x = s := by
    rw [hp]; simp [Pool.modify_apply, start_node_, goal_node_]
  have hsc : ((plan_init env st s g).nodes_pool_ start_node_).cost_from_start = 0 := by
    rw [hp]; simp [Pool.modify_apply, start_node_, goal_node_]
  have hgx : ((plan_init env st s g).nodes_pool_ goal_node_).x = g := by
    rw [hp]; simp [Pool.modify_apply]
  have hgc : ((plan_init env st s g).nodes_pool_ goal_node_).cost_from_start = DBL_MAX := by
    rw [hp]; simp [Pool.modify_apply]
  refine
    { tree :=
        { two_le := by simp [rrt_star_init, hv]
          start_root := hpar _
          start_cost := hsc
          parent_live := by
            intro i p h
            have := hpar i
            simp only [rrt_star_init] at h
            rw [this] at h; cases h
          has_parent := by
            intro i h2 hi
            simp only [rrt_star_init, hv] at hi
            omega
          children_iff := by
            intro p c
            simp only [rrt_star_init]
            rw [hchi p, hpar c]
            simp
          children_nodup := by
            intro p
            simp only [rrt_star_init]
            rw [hchi p]; exact List.nodup_nil
          reach := by
            intro i p h
            simp only [rrt_star_init] at h
            rw [hpar i] at h; cases h
          cost_ok := by
            intro i p h
            simp only [rrt_star_init] at h
            rw [hpar i] at h; cases h
          edge_len := by
            intro i p h
            simp only [rrt_star_init] at h
            rw [hpar i] at h; cases h
          edge_valid := by
            intro i p h
            simp only [rrt_star_init] at h
            rw [hpar i] at h; cases h }
      cap := by simp only [rrt_star_init, hv]; exact hmax
      start_x := hsx
      goal_x := hgx
      kd_live := by
        intro e he
        simp only [rrt_star_init, List.mem_singleton] at he
        rw [he]
        simp [rrt_star_init, hv, start_node_, goal_node_]
      found_iff := by simp [rrt_star_init, hpar]
      hist_iff := by simp [rrt_star_init, hsol]
      hist_desc := by simp [rrt_star_init, hsol]
      hist_ge := by simp [rrt_star_init, hsol]
      hist_cur := by simp [rrt_star_init, hsol]
      unreached := fun _ => hgc
      paths_len := by simp [rrt_star_init, hsol, hpl]
      paths_ok := by simp [rrt_star_init, hpl]
      final_nil := hf }

/-! ### What a completed `plan` leaves behind -/

theorem Inv.goal_reached {env : Env K} {s g : Vec3 K} {st : RRTStar K} (hinv : Inv env s g st)
    (hf : st.goal_found = true) {fuel : Nat} (hfuel : st.valid_tree_node_nums_ ≤ fuel) :
    ∃ k, k < st.valid_tree_node_nums_ ∧
      ancestorAt st.nodes_pool_ k goal_node_ = some start_node_ ∧
      fillPath fuel st.nodes_pool_ goal_node_ =
        .ok (upStates st.nodes_pool_ k goal_node_).reverse := by
  have hg0 : goal_node_ < st.valid_tree_node_nums_ := by
    have := hinv.tree.two_le; simp only [goal_node_]; omega
  have hgp := hinv.found_iff.1 hf
  have hreach : Anc st.nodes_pool_ start_node_ goal_node_ := by
    cases hp : (st.nodes_pool_ goal_node_).parent with
    | none => exact absurd hp hgp
    | some p => exact hinv.tree.reach _ p hp
  exact hinv.tree.fillPath_ok hg0 hreach hfuel

theorem rrt_star_result {env : Env K} (henv : EnvOK env) {s g : Vec3 K} {st0 : RRTStar K}
    (hinv0 : Inv env s g (rrt_star_init st0))
    {fuel : Nat} (hfuel : env.max_tree_node_nums_ ≤ fuel) {b : Bool} {st : RRTStar K}
    (h : rrt_star env fuel st0 s g = .ok (b, st)) :
    Inv env s g { st with final_path_ := [] } ∧ b = st.goal_found ∧
      (b = false → st.final_path_ = []) ∧
      (b = true → ∃ k, k < st.valid_tree_node_nums_ ∧
        ancestorAt st.nodes_pool_ k goal_node_ = some start_node_ ∧
        st.final_path_ = (upStates st.nodes_pool_ k goal_node_).reverse) := by
  unfold rrt_star at h
  simp only at h
  cases hloop : rrt_loop env fuel (env.clock st0.clock_reads) ((g.sub s).squaredNorm / 4) fuel
      (rrt_star_init st0) with
  | error e => rw [hloop] at h; cases h
  | ok st1 =>
    rw [hloop] at h
    simp only at h
    obtain ⟨hinv1, _, _, _⟩ := rrt_loop_inv henv hfuel fuel _ _ hinv0 hloop
    by_cases hf : st1.goal_found = true
    · rw [if_pos hf] at h
      obtain ⟨k, hk, hanc, hfp⟩ := hinv1.goal_reached hf (le_trans hinv1.cap hfuel)
      rw [hfp] at h
      simp only at h
      have h' := Except.ok.inj h
      have hb : true = b := congrArg Prod.fst h'
      have hst := congrArg Prod.snd h'
      simp only at hst
      subst hb
      subst hst
      refine ⟨hinv1.of_fields_eq rfl rfl rfl rfl rfl rfl hinv1.final_nil.symm, hf.symm, by simp,
        fun _ => ⟨k, hk, hanc, rfl⟩⟩
    · rw [if_neg hf] at h
      have h' := Except.ok.inj h
      have hb : false = b := congrArg Prod.fst h'
      have hst : st1 = st := congrArg Prod.snd h'
      subst hb
      subst hst
      refine ⟨hinv1.of_fields_eq rfl rfl rfl rfl rfl rfl hinv1.final_nil.symm, ?_, fun _ => hinv1.final_nil,
        by simp⟩
      simpa using hf

/-- Shape of every completed call of `plan`: either start or goal is invalid and the call
returned `false` right after `reset`, or both are valid, the capacity is at least two, and
the final state satisfies the loop invariant with the final path read off the goal. -/
theorem plan_result {env : Env K} (henv : EnvOK env) {st0 : RRTStar K} (hc : Clean st0)
    {fuel : Nat} (hfuel : env.max_tree_node_nums_ ≤ fuel) {s g : Vec3 K} {b : Bool}
    {st : RRTStar K} (h : plan env fuel st0 s g = .ok (b, st)) :
    (b = false ∧ st = reset st0 ∧
      (env.isStateValid s = false ∨ env.isStateValid g = false)) ∨
    (env.isStateValid s = true ∧ env.isStateValid g = true ∧ 2 ≤ env.max_tree_node_nums_ ∧
      Inv env s g { st with final_path_ := [] } ∧ b = st.goal_found ∧
      (b = false → st.final_path_ = []) ∧
      (b = true → ∃ k, k < st.valid_tree_node_nums_ ∧
        ancestorAt st.nodes_pool_ k goal_node_ = some start_node_ ∧
        st.final_path_ = (upStates st.nodes_pool_ k goal_node_).reverse)) := by
  unfold plan at h
  by_cases hs : env.isStateValid s = true
  swap
  · left
    simp only [hs] at h
    simp only [Bool.not_false, if_true] at h
    have h' := Except.ok.inj h
    exact ⟨(congrArg Prod.fst h').symm, (congrArg Prod.snd h').symm, Or.inl (by simpa using hs)⟩
  by_cases hg : env.isStateValid g = true
  swap
  · left
    simp only [hs, hg] at h
    simp only [Bool.not_true, Bool.not_false, if_true] at h
    have h' : b = false ∧ reset st0 = st := by simpa using h
    exact ⟨h'.1, h'.2.symm, Or.inr (by simpa using hg)⟩
  right
  simp only [hs, hg, Bool.not_true] at h
  by_cases hmax : env.max_tree_node_nums_ < 2
  · simp [hmax] at h
  · simp only [hmax] at h
    have h2 : 2 ≤ env.max_tree_node_nums_ := by omega
    have hrun : rrt_star env fuel (plan_init env st0 s g) s g = .ok (b, st) := by simpa using h
    exact ⟨hs, hg, h2, rrt_star_result henv (plan_init_inv s g hc h2) hfuel hrun⟩

/-- A call of `plan` with valid start and goal returns when the clock is past the budget
from some reading on and the fuel covers that reading and the capacity. -/
theorem plan_total {env : Env K} (henv : EnvOK env) {st0 : RRTStar K} (hc : Clean st0)
    {fuel N : Nat} (hfuel : env.max_tree_node_nums_ ≤ fuel) (hN : N ≤ fuel) (s g : Vec3 K)
    (hmax : 2 ≤ env.max_tree_node_nums_)
    (hclock : ∀ k, N ≤ k → env.search_time_ ≤ env.clock k - env.clock st0.clock_reads) :
    ∃ b st, plan env fuel st0 s g = .ok (b, st) := by
  unfold plan
  by_cases hs : env.isStateValid s = true
  swap
  · exact ⟨false, reset st0, by simp [hs]⟩
  by_cases hg : env.isStateValid g = true
  swap
  · exact ⟨false, reset st0, by simp [hs, hg]⟩
  have hmax' : ¬ env.max_tree_node_nums_ < 2 := by omega
  simp only [hs, hg, Bool.not_true, hmax']
  have hinv0 : Inv env s g (rrt_star_init (plan_init env st0 s g)) := plan_init_inv s g hc hmax
  have hcr : (plan_init env st0 s g).clock_reads = st0.clock_reads :=
    (plan_init_fields env st0 s g).2.2.2.2.2.1
  obtain ⟨st1, hloop⟩ := @rrt_loop_total K _ env henv s g fuel N
    (env.clock (plan_init env st0 s g).clock_reads) ((g.sub s).squaredNorm / 4) hfuel
    (by rw [hcr]; exact hclock) fuel _ hinv0 (by omega)
  obtain ⟨hinv1, _, _, _⟩ := rrt_loop_inv henv hfuel fuel _ _ hinv0 hloop
  unfold rrt_star
  simp only [Bool.false_eq_true, if_false]
  rw [hloop]
  simp only
  by_cases hf : st1.goal_found = true
  · obtain ⟨k, hk, hanc, hfp⟩ := hinv1.goal_reached hf (le_trans hinv1.cap hfuel)
    rw [if_pos hf, hfp]
    exact ⟨_, _, rfl⟩
  · rw [if_neg hf]
    exact ⟨_, _, rfl⟩

/-! ### States of the loop satisfy the invariant -/

theorem loopReach_inv {env : Env K} (henv : EnvOK env) {s g : Vec3 K} {inner : Nat} {t0 csq : K}
    (hfuel : env.max_tree_node_nums_ ≤ inner) {st0 st : RRTStar K}
    (h0 : Inv env s g st0) (h : LoopReach env inner t0 csq st0 st) : Inv env s g st := by
  induction h with
  | entry => exact h0
  | @pass st1 st2 brk _ _ hcap hit ih =>
    have hinv1 : Inv env s g { st1 with clock_reads := st1.clock_reads + 1 } :=
      ih.of_fields_eq rfl rfl rfl rfl rfl rfl rfl
    obtain ⟨b, st3, hit2, hinv2, _⟩ := @iteration_inv K _ env henv s g _ inner t0 csq hinv1 hcap hfuel
    rw [hit] at hit2
    have hsnd : st2 = st3 := congrArg Prod.snd (Except.ok.inj hit2)
    rw [hsnd]
    exact hinv2

theorem planReach_inv {env : Env K} (henv : EnvOK env) {st0 : RRTStar K} (hc : Clean st0)
    {fuel : Nat} (hfuel : env.max_tree_node_nums_ ≤ fuel) {s g : Vec3 K} {st : RRTStar K}
    (h : PlanReach env fuel st0 s g st) : Inv env s g st :=
  loopReach_inv henv hfuel (plan_init_inv s g hc h.2.2.1) h.2.2.2

theorem TreeInv.acyclic {env : Env K} {st : RRTStar K}
    (ht : TreeInv env st.nodes_pool_ st.valid_tree_node_nums_) : TreeAcyclic st := by
  intro i hi hg
  have hreach : Anc st.nodes_pool_ start_node_ i := by
    by_cases h0 : i = goal_node_
    · rcases hg with hg | hg
      · exact absurd h0 hg
      · rw [h0]
        cases hp : (st.nodes_pool_ goal_node_).parent with
        | none => exact absurd hp hg
        | some p => exact ht.reach _ p hp
    · exact ht.reach_live hi h0
  obtain ⟨k, hk⟩ := (anc_iff_ancestorAt _ _ _).1 hreach
  exact ⟨k, depth_lt_valid (fun i p hp => (ht.parent_live i p hp).2.1) hi ht.start_root hk, hk⟩

theorem reset_parent {st0 : RRTStar K} (hc : Clean st0) (i : Nat) :
    ((reset st0).nodes_pool_ i).parent = none :=
  (clearSlots_clean hc i).1

/-! ### Runs in which nothing is inserted -/

theorem iteration_rejected {env : Env K} (fuel : Nat) (t0 csq : K) (st : RRTStar K)
    (hrej : env.isStateValid (env.samples st.sampler_draws) = false) :
    iteration env fuel t0 csq st = .ok (false, { st with sampler_draws := st.sampler_draws + 1 }) := by
  unfold iteration
  simp [hrej]

theorem rrt_loop_rejected {env : Env K} (inner : Nat) (t0 csq : K)
    (hrej : ∀ k, env.isStateValid (env.samples k) = false) :
    ∀ (fuel n : Nat) (st : RRTStar K), n ≤ fuel →
      env.search_time_ ≤ env.clock (st.clock_reads + n) - t0 →
      ∃ st', rrt_loop env inner t0 csq fuel st = .ok st' ∧
        st'.nodes_pool_ = st.nodes_pool_ ∧
        st'.valid_tree_node_nums_ = st.valid_tree_node_nums_ ∧
        st'.goal_found = st.goal_found ∧ st'.final_path_ = st.final_path_ ∧
        st'.path_list_ = st.path_list_ ∧
        st'.solution_cost_time_pair_list_ = st.solution_cost_time_pair_list_ ∧
        (st.valid_tree_node_nums_ < env.max_tree_node_nums_ →
          env.search_time_ ≤ env.clock (st'.clock_reads - 1) - t0) := by
  intro fuel
  induction fuel with
  | zero =>
    intro n st hn hclock
    have hn0 : n = 0 := by omega
    subst hn0
    unfold rrt_loop
    simp only
    rw [if_neg (by intro h; exact absurd h.1 (not_lt.2 hclock))]
    exact ⟨_, rfl, rfl, rfl, rfl, rfl, rfl, rfl, fun _ => by simpa using hclock⟩
  | succ fuel ih =>
    intro n st hn hclock
    unfold rrt_loop
    simp only
    split_ifs with hg
    · rw [iteration_rejected inner t0 csq _ (hrej _)]
      simp only
      have hn1 : n ≠ 0 := by
        intro e
        subst e
        exact absurd hg.1 (not_lt.2 hclock)
      obtain ⟨st', hrun, h1, h2, h3, h4, h5, h6, h7⟩ :=
        ih (n - 1) { st with clock_reads := st.clock_reads + 1,
                             sampler_draws := st.sampler_draws + 1 } (by omega)
          (by
            have : st.clock_reads + 1 + (n - 1) = st.clock_reads + n := by omega
            simp only [this]
            exact hclock)
      exact ⟨st', hrun, h1, h2, h3, h4, h5, h6, fun hlt => h7 hlt⟩
    · refine ⟨_, rfl, rfl, rfl, rfl, rfl, rfl, rfl, ?_⟩
      intro hlt
      have hnot : ¬ env.clock st.clock_reads - t0 < env.search_time_ := fun h => hg ⟨h, hlt⟩
      simpa using not_lt.1 hnot

/-- With room for two nodes the guard of the loop is closed at its first test. -/
theorem rrt_loop_full {env : Env K} (inner : Nat) (t0 csq : K) (fuel : Nat) (st : RRTStar K)
    (hfull : env.max_tree_node_nums_ ≤ st.valid_tree_node_nums_) :
    rrt_loop env inner t0 csq fuel st = .ok { st with clock_reads := st.clock_reads + 1 } := by
  have hfalse : ¬ (env.clock st.clock_reads - t0 < env.search_time_ ∧
      st.valid_tree_node_nums_ < env.max_tree_node_nums_) := fun h => by omega
  cases fuel with
  | zero =>
    unfold rrt_loop
    simp only
    rw [if_neg hfalse]
  | succ fuel =>
    unfold rrt_loop
    simp only
    rw [if_neg hfalse]

theorem plan_valid_unfold (env : Env K) (fuel : Nat) (st0 : RRTStar K) (s g : Vec3 K)
    (hs : env.isStateValid s = true) (hg : env.isStateValid g = true)
    (hmax : 2 ≤ env.max_tree_node_nums_) :
    plan env fuel st0 s g = rrt_star env fuel (plan_init env st0 s g) s g := by
  have hmax' : ¬ env.max_tree_node_nums_ < 2 := by omega
  unfold plan
  simp [hs, hg, hmax']

theorem rrt_star_init_goal_found (st : RRTStar K) : (rrt_star_init st).goal_found = false := rfl

theorem plan_capacity_two (env : Env K) (fuel : Nat) (st0 : RRTStar K) (s g : Vec3 K)
    (hs : env.isStateValid s = true) (hg : env.isStateValid g = true)
    (hmax : env.max_tree_node_nums_ = 2) :
    ∃ st, plan env fuel st0 s g = .ok (false, st) ∧ getPath st = [] ∧ getAllPaths st = [] ∧
      getSolutions st = [] ∧ st.valid_tree_node_nums_ = 2 ∧
      st.sampler_draws = st0.sampler_draws ∧ st.clock_reads = st0.clock_reads + 2 := by
  obtain ⟨hv, hp, hf, hpl, hsol, hcr, hsd⟩ := plan_init_fields env st0 s g
  rw [plan_valid_unfold env fuel st0 s g hs hg (by omega)]
  unfold rrt_star
  simp only
  rw [rrt_loop_full fuel _ _ fuel (rrt_star_init (plan_init env st0 s g))
    (by simp [rrt_star_init, hv, hmax])]
  simp only [rrt_star_init, Bool.false_eq_true, if_false]
  exact ⟨_, rfl, hf, hpl, hsol, hv, hsd, by simp [hcr]⟩

/-! ### The reference collaborators meet the assumptions -/

theorem foldl_pick_mem (q : Vec3 K) (rest : List (Vec3 K × Nat)) (e : Vec3 K × Nat) :
    rest.foldl (fun b c => if sqDist c.1 q < sqDist b.1 q then c else b) e ∈ e :: rest := by
  induction rest generalizing e with
  | nil => simp
  | cons a rest ih =>
    simp only [List.foldl_cons]
    have := ih (if sqDist a.1 q < sqDist e.1 q then a else e)
    split_ifs at this ⊢ with h
    · simp only [List.mem_cons] at this ⊢
      tauto
    · simp only [List.mem_cons] at this ⊢
      tauto

theorem specNearest_mem (kd : List (Vec3 K × Nat)) (q : Vec3 K) (n : Nat)
    (h : specNearest kd q = some n) : n ∈ kd.map Prod.snd := by
  cases kd with
  | nil => simp [specNearest] at h
  | cons e rest =>
    simp only [specNearest, Option.some.injEq] at h
    rw [← h]
    exact List.mem_map_of_mem _ (foldl_pick_mem q rest e)

theorem specRange_mem (kd : List (Vec3 K × Nat)) (q : Vec3 K) (r : K) (ns : List Nat)
    (h : specRange kd q r = some ns) : ∀ n ∈ ns, n ∈ kd.map Prod.snd := by
  simp only [specRange, Option.some.injEq] at h
  intro n hn
  rw [← h] at hn
  obtain ⟨e, he, rfl⟩ := List.mem_map.1 hn
  exact List.mem_map_of_mem _ (List.mem_filter.1 he).1

theorem init_clean : Clean (RRTStar.init : RRTStar K) := fun _ _ => ⟨rfl, rfl⟩

theorem ratSqrt_nonneg (q : ℚ) : 0 ≤ ratSqrt q :=
  div_nonneg (Nat.cast_nonneg _) (Nat.cast_nonneg _)

theorem envOK_of_reference (env : Env ℚ) (h1 : env.sqrt = ratSqrt)
    (h2 : env.kd_nearest3 = specNearest) (h3 : env.kd_nearest_range3 = specRange) : EnvOK env :=
  { sqrt_nonneg := fun v => by rw [h1]; exact ratSqrt_nonneg v
    nearest_mem := fun kd q n h => by rw [h2] at h; exact specNearest_mem kd q n h
    range_mem := fun kd q r ns h => by rw [h3] at h; exact specRange_mem kd q r ns h }

theorem demoEnv_ok : EnvOK demoEnv := envOK_of_reference demoEnv rfl rfl rfl

set_option maxRecDepth 100000 in
theorem demo_run_eval :
    (match plan demoEnv 10 RRTStar.init ⟨0, 0, 0⟩ ⟨6, 0, 4⟩ with
      | .ok (true, st) =>
        decide (st.solution_cost_time_pair_list_.map Prod.fst = [14, 10]) &&
          decide (st.valid_tree_node_nums_ = 5)
      | _ => false) = true := by
  decide!

/-- The planner finds the goal in the small world: three nodes are inserted, the goal is
first reached at cost 14 and a rewire above it brings the cost down to 10. -/
theorem demo_run :
    ∃ st, plan demoEnv 10 RRTStar.init ⟨0, 0, 0⟩ ⟨6, 0, 4⟩ = .ok (true, st) ∧
      (getSolutions st).map Prod.fst = [14, 10] ∧ st.valid_tree_node_nums_ = 5 := by
  have h := demo_run_eval
  cases hp : plan demoEnv 10 RRTStar.init ⟨0, 0, 0⟩ ⟨6, 0, 4⟩ with
  | error e => rw [hp] at h; cases h
  | ok r =>
    obtain ⟨b, st⟩ := r
    cases b with
    | false => rw [hp] at h; cases h
    | true =>
      rw [hp] at h
      simp only [Bool.and_eq_true, decide_eq_true_eq] at h
      exact ⟨st, rfl, h.1, h.2⟩

/-- A completed call of `plan` leaves no link in the slots that are not in use, so the next
call starts from a clean pool again. -/
theorem plan_clean {env : Env K} (henv : EnvOK env) {st0 : RRTStar K} (hc : Clean st0)
    {fuel : Nat} (hfuel : env.max_tree_node_nums_ ≤ fuel) {s g : Vec3 K} {b : Bool}
    {st : RRTStar K} (h : plan env fuel st0 s g = .ok (b, st)) : Clean st := by
  rcases plan_result henv hc hfuel h with ⟨_, hst, _⟩ | ⟨_, _, _, hinv, _⟩
  · intro i _
    rw [hst]
    exact clearSlots_clean hc i
  · intro i hi
    have ht : TreeInv env st.nodes_pool_ st.valid_tree_node_nums_ := hinv.tree
    exact ⟨ht.dead_parent hi, ht.dead_children hi⟩

/-! ### Faults of a run -/

theorem propagate_error {fuel : Nat} {pool : Pool K} {Q : List Nat} {e : Fault}
    (h : propagate fuel pool Q = .error e) : e = Fault.outOfFuel := by
  induction fuel generalizing pool Q with
  | zero =>
    cases Q with
    | nil => simp [propagate] at h
    | cons d rest =>
      simp only [propagate] at h
      exact (Except.error.inj h).symm
  | succ fuel ih =>
    cases Q with
    | nil => simp [propagate] at h
    | cons d rest =>
      simp only [propagate] at h
      exact ih h

/-- With the capacity at least two, the only fault of a call of `plan` that has fuel for the
capacity is the exhaustion of the fuel of the planning loop: no slot outside the pool is
read. -/
theorem rrt_loop_error {env : Env K} (henv : EnvOK env) {s g : Vec3 K} {inner : Nat} {t0 csq : K}
    (hfuel : env.max_tree_node_nums_ ≤ inner) :
    ∀ (fuel : Nat) (st : RRTStar K) (e : Fault), Inv env s g st →
      rrt_loop env inner t0 csq fuel st = .error e → e = Fault.outOfFuel := by
  intro fuel
  induction fuel with
  | zero =>
    intro st e hinv hrun
    unfold rrt_loop at hrun
    simp only at hrun
    split_ifs at hrun with hg
    exact (Except.error.inj hrun).symm
  | succ fuel ih =>
    intro st e hinv hrun
    unfold rrt_loop at hrun
    simp only at hrun
    split_ifs at hrun with hg
    have hinv1 : Inv env s g { st with clock_reads := st.clock_reads + 1 } :=
      hinv.of_fields_eq rfl rfl rfl rfl rfl rfl rfl
    obtain ⟨b, st2, hit, hinv2, _⟩ :=
      @iteration_inv K _ env henv s g _ inner t0 csq hinv1 hg.2 hfuel
    rw [hit] at hrun
    cases b with
    | true => simp only at hrun; cases hrun
    | false =>
      simp only at hrun
      exact ih st2 e hinv2 hrun

theorem plan_error {env : Env K} (henv : EnvOK env) {st0 : RRTStar K} (hc : Clean st0)
    {fuel : Nat} (hfuel : env.max_tree_node_nums_ ≤ fuel) (hmax : 2 ≤ env.max_tree_node_nums_)
    {s g : Vec3 K} {e : Fault} (h : plan env fuel st0 s g = .error e) : e = Fault.outOfFuel := by
  unfold plan at h
  by_cases hs : env.isStateValid s = true
  swap
  · simp [hs] at h
  by_cases hg : env.isStateValid g = true
  swap
  · simp [hs, hg] at h
  have hmax' : ¬ env.max_tree_node_nums_ < 2 := by omega
  simp only [hs, hg, Bool.not_true, hmax', Bool.false_eq_true, if_false] at h
  have hinv0 : Inv env s g (rrt_star_init (plan_init env st0 s g)) := plan_init_inv s g hc hmax
  unfold rrt_star at h
  simp only at h
  cases hloop : rrt_loop env fuel (env.clock (plan_init env st0 s g).clock_reads)
      ((g.sub s).squaredNorm / 4) fuel (rrt_star_init (plan_init env st0 s g)) with
  | error e' =>
    rw [hloop] at h
    simp only at h
    have := rrt_loop_error henv hfuel fuel _ e' hinv0 hloop
    rw [← Except.error.inj h]
    exact this
  | ok st1 =>
    rw [hloop] at h
    simp only at h
    obtain ⟨hinv1, _, _, _⟩ := rrt_loop_inv henv hfuel fuel _ _ hinv0 hloop
    by_cases hf : st1.goal_found = true
    · obtain ⟨k, hk, hanc, hfp⟩ := hinv1.goal_reached hf (le_trans hinv1.cap hfuel)
      rw [if_pos hf, hfp] at h
      cases h
    · rw [if_neg hf] at h
      cases h

theorem addTreeNode_ok (env : Env K) (st : RRTStar K) (parent : Nat) (state : Vec3 K)
    (cfs cfp : K) (hcap : st.valid_tree_node_nums_ < env.max_tree_node_nums_) :
    ∃ pool', addTreeNode env st parent state cfs cfp =
      .ok (st.valid_tree_node_nums_,
        { st with valid_tree_node_nums_ := st.valid_tree_node_nums_ + 1,
                  nodes_pool_ := pool' }) :=
  ⟨_, by unfold addTreeNode; rw [if_pos hcap]⟩

/-! ### `changeNodeParent` on any pool with consistent children lists and costs -/

/-- Effect of `changeNodeParent` on the costs, for a pool whose linked nodes are in use,
whose children lists mirror the parent links and whose costs are consistent, when the new
parent is outside the subtree of `node`. -/
theorem changeNodeParent_costs {pool : Pool K} {valid node np fuel : Nat} (c : K)
    (hlive0 : ∀ i p, (pool i).parent = some p → i < valid)
    (hch0 : ∀ p k, k ∈ (pool p).children ↔ (pool k).parent = some p)
    (hnd0 : ∀ p, (pool p).children.Nodup)
    (hcost0 : ∀ i p, (pool i).parent = some p →
      (pool i).cost_from_start = (pool p).cost_from_start + (pool i).cost_from_parent)
    (hnode : node < valid) (hanc : ¬ Anc pool node np) (hfuel : valid ≤ fuel) :
    ∃ pool', changeNodeParent fuel pool node np c = .ok pool' ∧
      (∀ m, (pool' m).x = (pool m).x) ∧
      (∀ m, (pool' m).parent = if m = node then some np else (pool m).parent) ∧
      (∀ m, (pool' m).cost_from_parent = if m = node then c else (pool m).cost_from_parent) ∧
      (∀ p k, k ∈ (pool' p).children ↔ (pool' k).parent = some p) ∧
      (∀ p, (pool' p).children.Nodup) ∧
      (∀ m p, (pool' m).parent = some p →
        (pool' m).cost_from_start = (pool' p).cost_from_start + (pool' m).cost_from_parent) ∧
      (∀ m, Anc pool node m → (pool' m).cost_from_start =
        (pool m).cost_from_start +
          ((pool np).cost_from_start + c - (pool node).cost_from_start)) ∧
      (∀ m, ¬ Anc pool node m → (pool' m).cost_from_start = (pool m).cost_from_start) := by
  have hne : node ≠ np := fun e => hanc (e ▸ Anc.refl)
  have hpar : ∀ m, (relink pool node np c m).parent =
      if m = node then some np else (pool m).parent := relink_parent pool node np c
  have hx : ∀ m, (relink pool node np c m).x = (pool m).x := relink_x pool node np c
  have hcfp := relink_cost_from_parent pool node np c
  have hcost := relink_cost_from_start pool node np c
  have hch : ∀ p k, k ∈ (relink pool node np c p).children ↔
      (relink pool node np c k).parent = some p := relink_children_iff c hch0
  have hnd : ∀ p, (relink pool node np c p).children.Nodup :=
    relink_children_nodup c hch0 hnd0
  have hlive : ∀ i p, (relink pool node np c i).parent = some p → i < valid := by
    intro i p hp
    rw [hpar] at hp
    by_cases hi : i = node
    · rw [hi]; exact hnode
    · rw [if_neg hi] at hp; exact hlive0 i p hp
  have hroot : ∀ p, (relink pool node np c node).parent = some p →
      ¬ Anc (relink pool node np c) node p := by
    intro p hp hd
    rw [hpar, if_pos rfl] at hp
    have : np = p := Option.some.inj hp
    rw [← this] at hd
    exact hanc ((anc_relink_desc hpar).1 hd)
  have hcons0 : ∀ m p, (relink pool node np c m).parent = some p → p ∈ [node] ∨
      (relink pool node np c m).cost_from_start =
        (relink pool node np c p).cost_from_start +
          (relink pool node np c m).cost_from_parent := by
    intro m p hp
    by_cases hpn : p = node
    · left; simp [hpn]
    right
    rw [hpar] at hp
    by_cases hm : m = node
    · rw [if_pos hm] at hp
      have hpe : np = p := Option.some.inj hp
      rw [hcost, hcost, hcfp, if_pos hm, if_pos hm, if_neg hpn, hpe]
    · rw [if_neg hm] at hp
      rw [hcost, hcost, hcfp, if_neg hm, if_neg hm, if_neg hpn]
      exact hcost0 m p hp
  obtain ⟨pool', hrun, hshape, hframe, hcons⟩ :=
    propagate_spec hlive hch hnd hnode hroot fuel [] [node] (relink pool node np c)
      (fun m => ⟨rfl, rfl, rfl, rfl⟩) (by simp) (by simp; exact Anc.refl) (by simp)
      (by simpa using hfuel) hcons0
  have hpar' : ∀ m, (pool' m).parent = if m = node then some np else (pool m).parent :=
    fun m => (hshape m).1.trans (hpar m)
  have hx' : ∀ m, (pool' m).x = (pool m).x := fun m => (hshape m).2.2.1.trans (hx m)
  have hcfp' : ∀ m, (pool' m).cost_from_parent = if m = node then c else (pool m).cost_from_parent :=
    fun m => (hshape m).2.2.2.trans (hcfp m)
  have hparp : ∀ m, (pool' m).parent = (relink pool node np c m).parent := fun m => (hshape m).1
  have hframe0 : ∀ m, m ≠ node → ¬ Anc pool node m →
      (pool' m).cost_from_start = (pool m).cost_from_start := by
    intro m hm hnd'
    rw [hframe m, hcost, if_neg hm]
    intro p hp hd
    rw [hpar, if_neg hm] at hp
    exact hnd' (Anc.step hp ((anc_relink_desc hpar).1 hd))
  have hnode_cost : (pool' node).cost_from_start = (pool np).cost_from_start + c := by
    rw [hframe node, hcost, if_pos rfl]
    intro p hp
    exact hroot p hp
  have hcons'' : ∀ m p, (pool' m).parent = some p →
      (pool' m).cost_from_start = (pool' p).cost_from_start + (pool' m).cost_from_parent := by
    intro m p hp
    rw [hparp] at hp
    have := hcons m p hp
    rw [(hshape m).2.2.2] at this ⊢
    exact this
  refine ⟨pool', hrun, hx', hpar', hcfp', ?_, ?_, hcons'', ?_, ?_⟩
  · intro p k
    rw [(hshape p).2.1, hparp]
    exact hch p k
  · intro p
    rw [(hshape p).2.1]
    exact hnd p
  · intro m hm
    induction hm with
    | refl => rw [hnode_cost]; ring
    | @step m p hp hd ih =>
      by_cases hmn : m = node
      · rw [hmn, hnode_cost]; ring
      · have hp' : (pool' m).parent = some p := by rw [hpar', if_neg hmn]; exact hp
        rw [hcons'' m p hp', ih, hcfp', if_neg hmn, hcost0 m p hp]
        ring
  · intro m hm
    exact hframe0 m (fun e => hm (e ▸ Anc.refl)) hm

/-! ### Children lists -/

theorem updateChildren_shape (d : Nat) (L : List Nat) (pool : Pool K) (Q : List Nat) :
    SameShape pool (updateChildren d L pool Q).1 := by
  induction L generalizing pool Q with
  | nil => intro m; exact ⟨rfl, rfl, rfl, rfl⟩
  | cons a L ih =>
    intro m
    simp only [updateChildren]
    obtain ⟨h1, h2, h3, h4⟩ := ih
      (pool.modify a (fun n =>
        { n with cost_from_start := n.cost_from_parent + (pool d).cost_from_start }))
      (Q ++ [a]) m
    rw [h1, h2, h3, h4]
    by_cases hm : m = a <;> simp [Pool.modify_apply, hm]

/-- The subtree walk of `changeNodeParent` changes costs from start only. -/
theorem propagate_shape {fuel : Nat} {pool pool' : Pool K} {Q : List Nat}
    (h : propagate fuel pool Q = .ok pool') : SameShape pool pool' := by
  induction fuel generalizing pool Q with
  | zero =>
    cases Q with
    | nil =>
      simp only [propagate] at h
      rw [← Except.ok.inj h]
      intro m; exact ⟨rfl, rfl, rfl, rfl⟩
    | cons d rest => simp [propagate] at h
  | succ fuel ih =>
    cases Q with
    | nil =>
      simp only [propagate] at h
      rw [← Except.ok.inj h]
      intro m; exact ⟨rfl, rfl, rfl, rfl⟩
    | cons d rest =>
      simp only [propagate] at h
      intro m
      obtain ⟨h1, h2, h3, h4⟩ := ih h m
      obtain ⟨g1, g2, g3, g4⟩ := updateChildren_shape d (pool d).children pool rest m
      exact ⟨h1.trans g1, h2.trans g2, h3.trans g3, h4.trans g4⟩

theorem TreeInv.childrenExact {env : Env K} {st : RRTStar K}
    (h : TreeInv env st.nodes_pool_ st.valid_tree_node_nums_) : ChildrenExact st := by
  intro p
  refine ⟨fun c => ?_, h.children_nodup p⟩
  rw [h.children_iff]
  exact ⟨fun hp => ⟨(h.parent_live c p hp).1, hp⟩, fun hp => hp.2⟩

theorem reset_childrenExact {st : RRTStar K} (hc : Clean st) : ChildrenExact (reset st) := by
  intro p
  have h := clearSlots_clean hc
  have hch : ((reset st).nodes_pool_ p).children = [] := (h p).2
  rw [hch]
  refine ⟨fun c => ?_, List.nodup_nil⟩
  have hv : (reset st).valid_tree_node_nums_ = 0 := rfl
  rw [hv]
  simp

theorem plan_init_childrenExact (env : Env K) {st : RRTStar K} (s g : Vec3 K) (hc : Clean st) :
    ChildrenExact (plan_init env st s g) := by
  obtain ⟨hv, hpool, _⟩ := plan_init_fields env st s g
  have h := clearSlots_clean hc
  have hpar : ∀ i, ((plan_init env st s g).nodes_pool_ i).parent = none := by
    intro i
    rw [hpool]
    simp only [Pool.modify_apply]
    split_ifs <;> simp [(h _).1]
  have hch : ∀ i, ((plan_init env st s g).nodes_pool_ i).children = [] := by
    intro i
    rw [hpool]
    simp only [Pool.modify_apply]
    split_ifs <;> simp [(h _).2]
  intro p
  rw [hch p]
  refine ⟨fun c => ?_, List.nodup_nil⟩
  rw [hpar c]
  simp

theorem addTreeNode_links {env : Env K} {st st' : RRTStar K} {par n : Nat}
    {x : Vec3 K} {cfs cfp : K} (hadd : addTreeNode env st par x cfs cfp = .ok (n, st')) :
    st'.valid_tree_node_nums_ = st.valid_tree_node_nums_ + 1 ∧
    (∀ m, (st'.nodes_pool_ m).parent =
      if m = st.valid_tree_node_nums_ then some par else (st.nodes_pool_ m).parent) ∧
    (∀ m, (st'.nodes_pool_ m).children =
      (st.nodes_pool_ m).children ++ if m = par then [st.valid_tree_node_nums_] else []) := by
  unfold addTreeNode at hadd
  split_ifs at hadd with hcap
  have hst := congrArg Prod.snd (Except.ok.inj hadd)
  simp only at hst
  rw [← hst]
  refine ⟨rfl, fun m => ?_, fun m => ?_⟩
  · simp only [Pool.modify_apply]
    split_ifs <;> simp_all
  · simp only [Pool.modify_apply]
    split_ifs <;> simp_all

theorem addTreeNode_childrenExact {env : Env K} {st st' : RRTStar K} {par n : Nat}
    {x : Vec3 K} {cfs cfp : K} (h : ChildrenExact st)
    (hadd : addTreeNode env st par x cfs cfp = .ok (n, st')) : ChildrenExact st' := by
  obtain ⟨hv, hpar, hch⟩ := addTreeNode_links hadd
  intro p
  rw [hch p, hv]
  have hh := (h p).1
  have hvn : st.valid_tree_node_nums_ ∉ (st.nodes_pool_ p).children := by
    intro hm
    have := (hh _).1 hm
    omega
  constructor
  · intro c
    rw [hpar c, List.mem_append, hh c]
    by_cases hc : c = st.valid_tree_node_nums_
    · subst hc
      by_cases hp : p = par
      · simp [hp]
      · have : ¬ par = p := fun e => hp e.symm
        simp [hp, this]
    · have hlt : c < st.valid_tree_node_nums_ + 1 ↔ c < st.valid_tree_node_nums_ := by omega
      rw [if_neg hc, hlt]
      by_cases hp : p = par
      · simp [hp, hc]
      · simp [hp]
  · by_cases hp : p = par
    · rw [if_pos hp, List.nodup_append]
      refine ⟨(h p).2, by simp, ?_⟩
      intro a ha hb
      simp at hb
      exact hvn (hb ▸ ha)
    · rw [if_neg hp, List.append_nil]
      exact (h p).2

theorem relink_childrenExact {st : RRTStar K} {node : Nat} (np : Nat) (c : K)
    (h : ChildrenExact st) (hnode : node < st.valid_tree_node_nums_) :
    ChildrenExact { st with nodes_pool_ := relink st.nodes_pool_ node np c } := by
  intro p
  show (∀ k, k ∈ (relink st.nodes_pool_ node np c p).children ↔
      k < st.valid_tree_node_nums_ ∧ (relink st.nodes_pool_ node np c k).parent = some p) ∧
    (relink st.nodes_pool_ node np c p).children.Nodup
  rw [relink_children]
  have hn := (h p).2
  have hnot : (st.nodes_pool_ node).parent ≠ some p → node ∉ (st.nodes_pool_ p).children :=
    fun hne hm => hne (((h p).1 node).1 hm).2
  constructor
  · intro k
    rw [relink_parent]
    have hh := (h p).1 k
    by_cases hk : k = node
    · subst hk
      by_cases hp : p = np
      · simp [hp, hnode]
      · have : ¬ np = p := fun e => hp e.symm
        by_cases hpar : (st.nodes_pool_ k).parent = some p
        · simp [hp, hpar, this]
        · simp [hp, hpar, this, hh]
    · by_cases hp : p = np
      · by_cases hpar : (st.nodes_pool_ node).parent = some p
        · simp [hp, hpar, hk, hh] <;> simp_all
        · simp [hp, hpar, hk, hh] <;> simp_all
      · by_cases hpar : (st.nodes_pool_ node).parent = some p
        · simp [hp, hpar, hk, hh]
        · simp [hp, hpar, hk, hh]
  · by_cases hpar : (st.nodes_pool_ node).parent = some p
    · rw [if_pos hpar]
      have hf := hn.filter (fun c => c != node)
      by_cases hp : p = np
      · rw [if_pos hp, List.nodup_append]
        refine ⟨hf, by simp, ?_⟩
        intro a ha hb
        simp at ha hb
        exact ha.2 hb
      · rw [if_neg hp, List.append_nil]
        exact hf
    · rw [if_neg hpar]
      by_cases hp : p = np
      · rw [if_pos hp, List.nodup_append]
        refine ⟨hn, by simp, ?_⟩
        intro a ha hb
        simp at hb
        exact hnot hpar (hb ▸ ha)
      · rw [if_neg hp, List.append_nil]
        exact hn

theorem changeNodeParent_childrenExact {st : RRTStar K} {fuel node np : Nat} {c : K}
    {pool' : Pool K} (h : ChildrenExact st) (hnode : node < st.valid_tree_node_nums_)
    (hrun : changeNodeParent fuel st.nodes_pool_ node np c = .ok pool') :
    ChildrenExact { st with nodes_pool_ := pool' } := by
  have hs := propagate_shape hrun
  have hr := relink_childrenExact np c h hnode
  intro p
  have hp := hr p
  show (∀ k, k ∈ (pool' p).children ↔ k < st.valid_tree_node_nums_ ∧ (pool' k).parent = some p) ∧
    (pool' p).children.Nodup
  rw [(hs p).2.1]
  refine ⟨fun k => ?_, hp.2⟩
  rw [(hs k).1]
  exact hp.1 k

/-- The subtree walk never ends when a queued node is its own child. -/
theorem propagate_self_child (n : Nat) :
    ∀ (fuel : Nat) (pool : Pool K) (Q : List Nat), n ∈ Q → n ∈ (pool n).children →
      propagate fuel pool Q = .error .outOfFuel := by
  intro fuel
  induction fuel with
  | zero =>
    intro pool Q hQ _
    cases Q with
    | nil => simp at hQ
    | cons d rest => rfl
  | succ fuel ih =>
    intro pool Q hQ hn
    cases Q with
    | nil => simp at hQ
    | cons d rest =>
      simp only [propagate]
      apply ih
      · rw [updateChildren_snd]
        rcases List.mem_cons.1 hQ with h | h
        · rw [← h]
          exact List.mem_append_right _ hn
        · exact List.mem_append_left _ h
      · rw [(updateChildren_shape d (pool d).children pool rest n).2.1]
        exact hn

/-! ### Sequences of calls -/

theorem Reachable.clean {env : Env K} (henv : EnvOK env) {st : RRTStar K}
    (h : Reachable env st) : Clean st := by
  induction h with
  | init => exact init_clean
  | call _ hfuel hrun ih => exact plan_clean henv ih hfuel hrun

/-- After the setup of `plan` no slot carries a link, the start has cost 0 and the goal the
unreached cost. -/
theorem plan_init_unlinked (env : Env K) {st : RRTStar K} (s g : Vec3 K) (hc : Clean st) :
    (∀ i, ((plan_init env st s g).nodes_pool_ i).parent = none ∧
      ((plan_init env st s g).nodes_pool_ i).children = []) ∧
    ((plan_init env st s g).nodes_pool_ start_node_).cost_from_start = 0 ∧
    ((plan_init env st s g).nodes_pool_ goal_node_).cost_from_start = DBL_MAX ∧
    ((plan_init env st s g).nodes_pool_ start_node_).x = s ∧
    ((plan_init env st s g).nodes_pool_ goal_node_).x = g := by
  obtain ⟨hv, hpool, _⟩ := plan_init_fields env st s g
  have h := clearSlots_clean hc
  rw [hpool]
  refine ⟨fun i => ⟨?_, ?_⟩, ?_, ?_, ?_, ?_⟩
  · simp only [Pool.modify_apply]
    split_ifs <;> simp [(h _).1]
  · simp only [Pool.modify_apply]
    split_ifs <;> simp [(h _).2]
  · simp [Pool.modify_apply, start_node_, goal_node_]
  · simp [Pool.modify_apply]
  · simp [Pool.modify_apply, start_node_, goal_node_]
  · simp [Pool.modify_apply]

/-! ### The parent scan is a minimum -/

/-- The parent scan returns the running best it was started with or a neighbour of the list
whose segment to `x_new` is valid, with its edge length and cost through it, and the cost
returned is at most the cost of the initial best and at most the cost through every
neighbour of the list whose segment to `x_new` is valid. -/
theorem chooseParent_min (env : Env K) (pool : Pool K) (x_new : Vec3 K) :
    ∀ (L : List Nat) (b : ParentChoice K),
      (chooseParent env pool x_new L b = b ∨
        ((chooseParent env pool x_new L b).min_node ∈ L ∧
          env.isSegmentValid (pool (chooseParent env pool x_new L b).min_node).x x_new = true ∧
          (chooseParent env pool x_new L b).cost_from_p =
            calDist env (pool (chooseParent env pool x_new L b).min_node).x x_new ∧
          (chooseParent env pool x_new L b).min_dist_from_start =
            (pool (chooseParent env pool x_new L b).min_node).cost_from_start +
              calDist env (pool (chooseParent env pool x_new L b).min_node).x x_new)) ∧
      (chooseParent env pool x_new L b).min_dist_from_start ≤ b.min_dist_from_start ∧
      ∀ n ∈ L, env.isSegmentValid (pool n).x x_new = true →
        (chooseParent env pool x_new L b).min_dist_from_start ≤
          (pool n).cost_from_start + calDist env (pool n).x x_new := by
  intro L
  induction L with
  | nil =>
    intro b
    exact ⟨Or.inl rfl, le_refl _, fun n hn => absurd hn (List.not_mem_nil n)⟩
  | cons c rest ih =>
    intro b
    simp only [chooseParent]
    by_cases hlt : (pool c).cost_from_start + calDist env (pool c).x x_new < b.min_dist_from_start
    · by_cases hseg : env.isSegmentValid (pool c).x x_new = true
      · rw [if_pos hlt, if_pos hseg]
        obtain ⟨h1, h2, h3⟩ := ih
          { min_node := c, cost_from_p := calDist env (pool c).x x_new,
            min_dist_from_start := (pool c).cost_from_start + calDist env (pool c).x x_new }
        refine ⟨Or.inr ?_, le_trans h2 (le_of_lt hlt), ?_⟩
        · rcases h1 with h1 | ⟨m1, m2, m3, m4⟩
          · rw [h1]
            exact ⟨List.mem_cons_self _ _, hseg, rfl, rfl⟩
          · exact ⟨List.mem_cons_of_mem _ m1, m2, m3, m4⟩
        · intro n hn hv
          rcases List.mem_cons.1 hn with e | hn
          · rw [e]; exact h2
          · exact h3 n hn hv
      · rw [if_pos hlt, if_neg hseg]
        obtain ⟨h1, h2, h3⟩ := ih b
        refine ⟨?_, h2, ?_⟩
        · rcases h1 with h1 | ⟨m1, m2, m3, m4⟩
          · exact Or.inl h1
          · exact Or.inr ⟨List.mem_cons_of_mem _ m1, m2, m3, m4⟩
        · intro n hn hv
          rcases List.mem_cons.1 hn with e | hn
          · rw [e] at hv; exact absurd hv hseg
          · exact h3 n hn hv
    · rw [if_neg hlt]
      obtain ⟨h1, h2, h3⟩ := ih b
      refine ⟨?_, h2, ?_⟩
      · rcases h1 with h1 | ⟨m1, m2, m3, m4⟩
        · exact Or.inl h1
        · exact Or.inr ⟨List.mem_cons_of_mem _ m1, m2, m3, m4⟩
      · intro n hn hv
        rcases List.mem_cons.1 hn with e | hn
        · rw [e]; exact le_trans h2 (not_lt.1 hlt)
        · exact h3 n hn hv

/-! ### One step of the rewire scan -/

theorem rewire_append (env : Env K) (fuel : Nat) (t0 csq : K) (new_node : Nat) :
    ∀ (pre L : List Nat) (st : RRTStar K),
      rewire env fuel t0 csq new_node (pre ++ L) st =
        match rewire env fuel t0 csq new_node pre st with
        | .error e => .error e
        | .ok st1 => rewire env fuel t0 csq new_node L st1 := by
  intro pre
  induction pre with
  | nil => intro L st; rfl
  | cons c pre ih =>
    intro L st
    simp only [List.cons_append, rewire]
    cases rewireStep env fuel t0 csq new_node c st with
    | error e => rfl
    | ok st1 => exact ih L st1

/-- Effect of one step of the rewire scan: when the cost test, the pruning test and the
segment check pass, the neighbour is reparented onto the new node by `changeNodeParent`;
otherwise the state is returned as it is.  The new parent is not in the subtree of the
neighbour when the cost test passes. -/
theorem rewireStep_effect {env : Env K} (henv : EnvOK env) {s g : Vec3 K} {st : RRTStar K}
    {fuel : Nat} {t0 csq : K} {new_node curr_node : Nat}
    (hinv : Inv env s g st) (hnew : new_node < st.valid_tree_node_nums_)
    (hnew0 : new_node ≠ goal_node_)
    (hcurr : curr_node < st.valid_tree_node_nums_) (hcurr0 : curr_node ≠ goal_node_)
    (hfuel : st.valid_tree_node_nums_ ≤ fuel) :
    ∃ st', rewireStep env fuel t0 csq new_node curr_node st = .ok st' ∧
      (¬ ((st.nodes_pool_ new_node).cost_from_start +
            calDist env (st.nodes_pool_ new_node).x (st.nodes_pool_ curr_node).x <
            (st.nodes_pool_ curr_node).cost_from_start ∧
          (st.nodes_pool_ new_node).cost_from_start +
            calDist env (st.nodes_pool_ new_node).x (st.nodes_pool_ curr_node).x +
            calDist env (st.nodes_pool_ curr_node).x (st.nodes_pool_ goal_node_).x <
            (st.nodes_pool_ goal_node_).cost_from_start ∧
          env.isSegmentValid (st.nodes_pool_ new_node).x (st.nodes_pool_ curr_node).x = true) →
        st' = st) ∧
      ((st.nodes_pool_ new_node).cost_from_start +
            calDist env (st.nodes_pool_ new_node).x (st.nodes_pool_ curr_node).x <
            (st.nodes_pool_ curr_node).cost_from_start →
          (st.nodes_pool_ new_node).cost_from_start +
            calDist env (st.nodes_pool_ new_node).x (st.nodes_pool_ curr_node).x +
            calDist env (st.nodes_pool_ curr_node).x (st.nodes_pool_ goal_node_).x <
            (st.nodes_pool_ goal_node_).cost_from_start →
          env.isSegmentValid (st.nodes_pool_ new_node).x (st.nodes_pool_ curr_node).x = true →
        changeNodeParent fuel st.nodes_pool_ curr_node new_node
            (calDist env (st.nodes_pool_ new_node).x (st.nodes_pool_ curr_node).x) =
          .ok st'.nodes_pool_ ∧
        (st'.nodes_pool_ curr_node).parent = some new_node ∧
        (st'.nodes_pool_ curr_node).cost_from_parent =
          calDist env (st.nodes_pool_ new_node).x (st.nodes_pool_ curr_node).x ∧
        (st'.nodes_pool_ curr_node).cost_from_start =
          (st.nodes_pool_ new_node).cost_from_start +
            calDist env (st.nodes_pool_ new_node).x (st.nodes_pool_ curr_node).x ∧
        (st'.nodes_pool_ new_node).cost_from_start = (st.nodes_pool_ new_node).cost_from_start ∧
        (∀ m, m ≠ curr_node → (st'.nodes_pool_ m).parent = (st.nodes_pool_ m).parent)) := by
  have htree := hinv.tree
  by_cases hcond : (st.nodes_pool_ new_node).cost_from_start +
        calDist env (st.nodes_pool_ new_node).x (st.nodes_pool_ curr_node).x <
        (st.nodes_pool_ curr_node).cost_from_start ∧
      (st.nodes_pool_ new_node).cost_from_start +
        calDist env (st.nodes_pool_ new_node).x (st.nodes_pool_ curr_node).x +
        calDist env (st.nodes_pool_ curr_node).x (st.nodes_pool_ goal_node_).x <
        (st.nodes_pool_ goal_node_).cost_from_start
  swap
  · have hstep : rewireStep env fuel t0 csq new_node curr_node st = .ok st := by
      unfold rewireStep
      simp only [hcond, if_false]
    rw [hstep]
    exact ⟨st, rfl, fun _ => rfl, fun h1 h2 _ => absurd ⟨h1, h2⟩ hcond⟩
  by_cases hsegv : env.isSegmentValid (st.nodes_pool_ new_node).x (st.nodes_pool_ curr_node).x = true
  swap
  · have hstep : rewireStep env fuel t0 csq new_node curr_node st = .ok st := by
      unfold rewireStep
      simp only [hcond, hsegv]
      simp
    rw [hstep]
    exact ⟨st, rfl, fun _ => rfl, fun _ _ h3 => absurd h3 hsegv⟩
  obtain ⟨hlt, hc2⟩ := hcond
  have hd0 := calDist_nonneg henv (st.nodes_pool_ new_node).x (st.nodes_pool_ curr_node).x
  have hreach : Anc st.nodes_pool_ start_node_ new_node := htree.reach_live hnew hnew0
  have hnewcost := htree.cost_nonneg henv hreach
  have hcurr1 : curr_node ≠ start_node_ := by
    intro e
    rw [e] at hlt hd0
    rw [htree.start_cost] at hlt
    linarith
  have hnotdesc : ¬ Anc st.nodes_pool_ curr_node new_node := by
    intro hd
    have := htree.cost_le_of_anc henv hd
    linarith
  obtain ⟨pool', hrun, htree', hx', hpar', hcfp', hdesc, hnd⟩ :=
    @changeNodeParent_spec K _ env st.nodes_pool_ st.valid_tree_node_nums_ curr_node new_node
      fuel (calDist env (st.nodes_pool_ new_node).x (st.nodes_pool_ curr_node).x)
      htree hcurr hcurr1 hnew hnew0 hreach hnotdesc rfl hsegv hfuel
  have hgp : (pool' goal_node_).parent = (st.nodes_pool_ goal_node_).parent := by
    rw [hpar', if_neg (Ne.symm hcurr0)]
  have hfacts : (pool' curr_node).parent = some new_node ∧
      (pool' curr_node).cost_from_parent =
        calDist env (st.nodes_pool_ new_node).x (st.nodes_pool_ curr_node).x ∧
      (pool' curr_node).cost_from_start =
        (st.nodes_pool_ new_node).cost_from_start +
          calDist env (st.nodes_pool_ new_node).x (st.nodes_pool_ curr_node).x ∧
      (pool' new_node).cost_from_start = (st.nodes_pool_ new_node).cost_from_start ∧
      (∀ m, m ≠ curr_node → (pool' m).parent = (st.nodes_pool_ m).parent) := by
    refine ⟨by rw [hpar', if_pos rfl], by rw [hcfp', if_pos rfl], ?_, hnd _ hnotdesc, ?_⟩
    · rw [hdesc _ Anc.refl]; ring
    · intro m hm
      rw [hpar', if_neg hm]
  have hstep : rewireStep env fuel t0 csq new_node curr_node st =
      if (st.nodes_pool_ goal_node_).cost_from_start > (pool' goal_node_).cost_from_start then
        storeSolution env fuel t0 csq { st with nodes_pool_ := pool' }
      else .ok { st with nodes_pool_ := pool' } := by
    unfold rewireStep
    simp only [hlt, hsegv, if_true, hrun]
    simp only [hc2, and_self, if_true]
  rw [hstep]
  by_cases himp : (st.nodes_pool_ goal_node_).cost_from_start > (pool' goal_node_).cost_from_start
  · rw [if_pos himp]
    have hgpar : (st.nodes_pool_ goal_node_).parent ≠ none := by
      intro hnone
      have hd : ¬ Anc st.nodes_pool_ curr_node goal_node_ := by
        intro hd
        cases hd with
        | refl => exact hcurr0 rfl
        | step hp _ => rw [hnone] at hp; cases hp
      rw [hnd _ hd] at himp
      exact lt_irrefl _ himp
    have hfound : st.goal_found = true := hinv.found_iff.2 hgpar
    obtain ⟨st2, hst2, _, _, hpool2, _⟩ :=
      @Inv.record K _ env s g st { st with nodes_pool_ := pool' } fuel t0 csq
        hinv htree' hx' (by rw [hgp]; exact hgpar) himp rfl rfl hfound rfl rfl rfl hfuel
    have hp2 : st2.nodes_pool_ = pool' := hpool2
    refine ⟨st2, hst2, fun h => absurd ⟨hlt, hc2, hsegv⟩ h, fun _ _ _ => ?_⟩
    rw [hp2]
    exact ⟨hrun, hfacts⟩
  · rw [if_neg himp]
    exact ⟨_, rfl, fun h => absurd ⟨hlt, hc2, hsegv⟩ h, fun _ _ _ => ⟨hrun, hfacts⟩⟩

set_option maxRecDepth 100000 in
theorem demoFour_run_eval :
    (match plan demoFourEnv 10 RRTStar.init ⟨0, 0, 0⟩ ⟨6, 0, 4⟩ with
      | .ok (true, st) =>
        decide (st.valid_tree_node_nums_ = 4) &&
        decide ((st.nodes_pool_ 0).x = ⟨6, 0, 4⟩) &&
        decide ((st.nodes_pool_ 0).cost_from_start = 14) &&
        decide ((st.nodes_pool_ 0).parent = some 3) &&
        decide ((st.nodes_pool_ 1).x = ⟨0, 0, 0⟩) &&
        decide ((st.nodes_pool_ 1).cost_from_start = 0) &&
        decide ((st.nodes_pool_ 3).x = ⟨6, 0, 0⟩) &&
        decide ((st.nodes_pool_ 3).cost_from_start = 10) &&
        decide ((st.nodes_pool_ 3).parent = some 2)
      | _ => false) = true := by
  decide!

/-- The run in the small world with room for four nodes: the goal (slot 0, cost 14) hangs
below slot 3 (at `(6, 0, 0)`, cost 10), which hangs below slot 2. -/
theorem demoFour_run :
    ∃ st, plan demoFourEnv 10 RRTStar.init ⟨0, 0, 0⟩ ⟨6, 0, 4⟩ = .ok (true, st) ∧
      st.valid_tree_node_nums_ = 4 ∧
      (st.nodes_pool_ 0).x = ⟨6, 0, 4⟩ ∧ (st.nodes_pool_ 0).cost_from_start = 14 ∧
      (st.nodes_pool_ 0).parent = some 3 ∧
      (st.nodes_pool_ 1).x = ⟨0, 0, 0⟩ ∧ (st.nodes_pool_ 1).cost_from_start = 0 ∧
      (st.nodes_pool_ 3).x = ⟨6, 0, 0⟩ ∧ (st.nodes_pool_ 3).cost_from_start = 10 ∧
      (st.nodes_pool_ 3).parent = some 2 := by
  have h := demoFour_run_eval
  cases hp : plan demoFourEnv 10 RRTStar.init ⟨0, 0, 0⟩ ⟨6, 0, 4⟩ with
  | error e => rw [hp] at h; cases h
  | ok r =>
    obtain ⟨b, st⟩ := r
    cases b with
    | false => rw [hp] at h; cases h
    | true =>
      rw [hp] at h
      simp only [Bool.and_eq_true, decide_eq_true_eq] at h
      obtain ⟨⟨⟨⟨⟨⟨⟨⟨h1, h2⟩, h3⟩, h4⟩, h5⟩, h6⟩, h7⟩, h8⟩, h9⟩ := h
      exact ⟨st, rfl, h1, h2, h3, h4, h5, h6, h7, h8, h9⟩

theorem demoFourEnv_ok : EnvOK demoFourEnv := envOK_of_reference demoFourEnv rfl rfl rfl

set_option maxRecDepth 100000 in
theorem demoFour_dists :
    calDist demoFourEnv ⟨0, 0, 0⟩ ⟨6, 0, 0⟩ = 6 ∧ calDist demoFourEnv ⟨6, 0, 0⟩ ⟨6, 0, 4⟩ = 4 ∧
      demoFourEnv.isSegmentValid ⟨0, 0, 0⟩ ⟨6, 0, 0⟩ = true := by
  decide!

/-- The state left by the run with room for four nodes, with the returned path cleared,
satisfies the loop invariant. -/
theorem demoFour_inv {st : RRTStar ℚ}
    (h : plan demoFourEnv 10 RRTStar.init ⟨0, 0, 0⟩ ⟨6, 0, 4⟩ = .ok (true, st)) :
    Inv demoFourEnv ⟨0, 0, 0⟩ ⟨6, 0, 4⟩ { st with final_path_ := [] } := by
  rcases plan_result demoFourEnv_ok init_clean (by decide) h with ⟨hb, _⟩ | ⟨_, _, _, hinv, _⟩
  · cases hb
  · exact hinv

/-! ### The calls made by one pass of the loop body -/

/-- Shape of one pass through the loop body in a state that satisfies the loop invariant,
with room in the pool: either the pass ends before the insertion with only the sampler
advanced, or a node is inserted in the slot given by the count, in a state `st2` that
satisfies the invariant again, the goal connection is tried for it from `st2`, and the rewire
scan runs over the stored neighbours, all in use and none the goal, from the state `st3` the
goal connection returns; the insertion leaves the path list and the solution list alone. -/
theorem iteration_body {env : Env K} (henv : EnvOK env) {s g : Vec3 K} {st : RRTStar K}
    {fuel : Nat} {t0 csq : K}
    (hinv : Inv env s g st) (hcap : st.valid_tree_node_nums_ < env.max_tree_node_nums_)
    (hfuel : env.max_tree_node_nums_ ≤ fuel) :
    (∃ b, iteration env fuel t0 csq st =
      .ok (b, { st with sampler_draws := st.sampler_draws + 1 })) ∨
    ∃ x_new neighbour_nodes st2 st3 st4,
      iteration env fuel t0 csq st = .ok (false, st4) ∧
      Inv env s g st2 ∧ st2.valid_tree_node_nums_ = st.valid_tree_node_nums_ + 1 ∧
      (st2.nodes_pool_ st.valid_tree_node_nums_).x = x_new ∧
      st.valid_tree_node_nums_ ≠ goal_node_ ∧
      (∀ c ∈ neighbour_nodes, c < st.valid_tree_node_nums_ ∧ c ≠ goal_node_) ∧
      connectGoal env fuel t0 csq x_new st.valid_tree_node_nums_ st2 = .ok st3 ∧
      Inv env s g st3 ∧ st3.valid_tree_node_nums_ = st.valid_tree_node_nums_ + 1 ∧
      rewire env fuel t0 csq st.valid_tree_node_nums_ neighbour_nodes st3 = .ok st4 ∧
      st2.path_list_ = st.path_list_ ∧
      st2.solution_cost_time_pair_list_ = st.solution_cost_time_pair_list_ := by
  unfold iteration
  simp only
  by_cases hval : env.isStateValid (env.samples st.sampler_draws) = true
  swap
  · simp only [hval]
    exact Or.inl ⟨false, by simp⟩
  simp only [hval, Bool.not_true]
  cases hnear : env.kd_nearest3 st.kd_tree (env.samples st.sampler_draws) with
  | none => exact Or.inl ⟨false, by simp⟩
  | some nearest_node =>
    simp only
    by_cases hseg : env.isSegmentValid (st.nodes_pool_ nearest_node).x
        (steer env (st.nodes_pool_ nearest_node).x (env.samples st.sampler_draws)
          env.steer_length_) = true
    swap
    · simp only [hseg]
      exact Or.inl ⟨false, by simp⟩
    simp only [hseg, Bool.not_true]
    cases hrange : env.kd_nearest_range3 st.kd_tree
        (steer env (st.nodes_pool_ nearest_node).x (env.samples st.sampler_draws)
          env.steer_length_) env.search_radius_ with
    | none => exact Or.inl ⟨true, by simp⟩
    | some neighbour_nodes =>
      right
      simp only
      set x_new := steer env (st.nodes_pool_ nearest_node).x (env.samples st.sampler_draws)
        env.steer_length_ with hx_new
      have htree := hinv.tree
      have hkdmem : ∀ n, n ∈ st.kd_tree.map Prod.snd →
          n < st.valid_tree_node_nums_ ∧ n ≠ goal_node_ := by
        intro n hn
        obtain ⟨e, he, rfl⟩ := List.mem_map.1 hn
        exact hinv.kd_live e he
      have hnearest := hkdmem _ (henv.nearest_mem _ _ _ hnear)
      have hnbrs : ∀ c ∈ neighbour_nodes, c < st.valid_tree_node_nums_ ∧ c ≠ goal_node_ :=
        fun c hc => hkdmem c (henv.range_mem _ _ _ _ hrange c hc)
      obtain ⟨b1, b2, b3, b4⟩ := chooseParent_ok env st.nodes_pool_ x_new neighbour_nodes
        { min_node := nearest_node
          cost_from_p := calDist env (st.nodes_pool_ nearest_node).x x_new
          min_dist_from_start := (st.nodes_pool_ nearest_node).cost_from_start +
            calDist env (st.nodes_pool_ nearest_node).x x_new } rfl rfl hseg
      set best := chooseParent env st.nodes_pool_ x_new neighbour_nodes
        { min_node := nearest_node
          cost_from_p := calDist env (st.nodes_pool_ nearest_node).x x_new
          min_dist_from_start := (st.nodes_pool_ nearest_node).cost_from_start +
            calDist env (st.nodes_pool_ nearest_node).x x_new } with hbest
      have hmin : best.min_node < st.valid_tree_node_nums_ ∧ best.min_node ≠ goal_node_ := by
        rcases b4 with h | h
        · rw [h]; exact hnearest
        · exact hnbrs _ h
      obtain ⟨pool1, hadd, htree1, hxnew, hcnew, hcpnew, hpnew, hold⟩ :=
        @addTreeNode_spec K _ env { st with sampler_draws := st.sampler_draws + 1 }
          best.min_node x_new best.min_dist_from_start best.cost_from_p
          htree hcap hmin.1 hmin.2 b1 b2 b3
      rw [hadd]
      simp only
      have hg_ne : goal_node_ ≠ st.valid_tree_node_nums_ := by
        have := htree.two_le; simp only [goal_node_]; omega
      have hs_ne : start_node_ ≠ st.valid_tree_node_nums_ := by
        have := htree.two_le; simp only [start_node_]; omega
      have hinv2 : Inv env s g
          { st with sampler_draws := st.sampler_draws + 1
                    valid_tree_node_nums_ := st.valid_tree_node_nums_ + 1
                    nodes_pool_ := pool1
                    kd_tree := st.kd_tree ++ [(x_new, st.valid_tree_node_nums_)] } :=
        { tree := htree1
          cap := hcap
          start_x := ((hold _ hs_ne).1).trans hinv.start_x
          goal_x := ((hold _ hg_ne).1).trans hinv.goal_x
          kd_live := by
            intro e he
            simp only [List.mem_append, List.mem_singleton] at he
            rcases he with he | he
            · have := hinv.kd_live e he
              exact ⟨Nat.lt_succ_of_lt this.1, this.2⟩
            · rw [he]
              exact ⟨Nat.lt_succ_self _, Ne.symm hg_ne⟩
          found_iff := by
            show st.goal_found = true ↔ (pool1 goal_node_).parent ≠ none
            rw [(hold _ hg_ne).2.2.2]; exact hinv.found_iff
          hist_iff := hinv.hist_iff
          hist_desc := hinv.hist_desc
          hist_ge := by
            show ∀ c ∈ st.solution_cost_time_pair_list_.map Prod.fst,
              (pool1 goal_node_).cost_from_start ≤ c
            rw [(hold _ hg_ne).2.1]; exact hinv.hist_ge
          hist_cur := by
            show ∀ c, (st.solution_cost_time_pair_list_.map Prod.fst).getLast? = some c →
              c = (pool1 goal_node_).cost_from_start
            rw [(hold _ hg_ne).2.1]; exact hinv.hist_cur
          unreached := by
            show st.goal_found = false → (pool1 goal_node_).cost_from_start = DBL_MAX
            rw [(hold _ hg_ne).2.1]; exact hinv.unreached
          paths_len := hinv.paths_len
          paths_ok := hinv.paths_ok
          final_nil := hinv.final_nil }
      have hfuel2 : st.valid_tree_node_nums_ + 1 ≤ fuel := by omega
      obtain ⟨st3, hrun3, hinv3, hrec3, hv3, hkd3, hsd3, hcr3, hx3⟩ :=
        @connectGoal_inv K _ env henv s g _ fuel t0 csq x_new st.valid_tree_node_nums_
          hinv2 (Nat.lt_succ_self _) (Ne.symm hg_ne) hxnew hfuel2
      obtain ⟨st4, hrun4, hinv4, hv4, hkd4, hsd4, hcr4, hgc4, hx4, hsteps4⟩ :=
        @rewire_inv K _ env henv s g fuel t0 csq st.valid_tree_node_nums_ (Ne.symm hg_ne)
          neighbour_nodes st3 hinv3 (by rw [hv3]; exact Nat.lt_succ_self _)
          (fun c hc => by rw [hv3]; exact ⟨Nat.lt_succ_of_lt (hnbrs c hc).1, (hnbrs c hc).2⟩)
          (by rw [hv3]; exact hfuel2)
      refine ⟨x_new, neighbour_nodes, _, st3, st4, ?_, hinv2, rfl, hxnew, Ne.symm hg_ne, hnbrs,
        hrun3, hinv3, hv3, hrun4, rfl, rfl⟩
      rw [hrun3]
      simp only
      rw [hrun4]
      simp

/-- Cauchy-Schwarz inequality in three coordinates. -/
theorem dot_sq_le (u1 u2 u3 v1 v2 v3 : K) :
    (u1 * v1 + u2 * v2 + u3 * v3) ^ 2 ≤
      (u1 * u1 + u2 * u2 + u3 * u3) * (v1 * v1 + v2 * v2 + v3 * v3) := by
  have key : (u1 * u1 + u2 * u2 + u3 * u3) * (v1 * v1 + v2 * v2 + v3 * v3) -
      (u1 * v1 + u2 * v2 + u3 * v3) ^ 2 =
      (u1 * v2 - u2 * v1) ^ 2 + (u1 * v3 - u3 * v1) ^ 2 + (u2 * v3 - u3 * v2) ^ 2 := by
    ring
  have s1 := sq_nonneg (u1 * v2 - u2 * v1)
  have s2 := sq_nonneg (u1 * v3 - u3 * v1)
  have s3 := sq_nonneg (u2 * v3 - u3 * v2)
  linarith

theorem polylineLength_append (env : Env K) (x : Vec3 K) :
    ∀ (L : List (Vec3 K)) (y : Vec3 K), L.getLast? = some y →
      polylineLength env (L ++ [x]) = polylineLength env L + calDist env y x := by
  intro L
  induction L with
  | nil => intro y h; simp at h
  | cons a L ih =>
    intro y h
    cases L with
    | nil =>
      simp only [List.getLast?_singleton, Option.some.injEq] at h
      subst h
      simp [polylineLength]
    | cons b L =>
      have h' : (b :: L).getLast? = some y := by
        rw [List.getLast?_cons_cons] at h
        exact h
      have e := ih y h'
      have e2 : polylineLength env (a :: b :: L ++ [x]) =
          calDist env a b + polylineLength env (b :: L ++ [x]) := rfl
      have e3 : polylineLength env (a :: b :: L) =
          calDist env a b + polylineLength env (b :: L) := rfl
      rw [e2, e3, e]
      ring

/-- The polyline from an ancestor down to a node has as length the difference of their
costs from start. -/
theorem TreeInv.polyline_upStates {env : Env K} {pool : Pool K} {valid : Nat}
    (h : TreeInv env pool valid) :
    ∀ (k n r : Nat), ancestorAt pool k n = some r →
      polylineLength env (upStates pool k n).reverse =
        (pool n).cost_from_start - (pool r).cost_from_start := by
  intro k
  induction k with
  | zero =>
    intro n r hr
    simp only [ancestorAt, Option.some.injEq] at hr
    subst hr
    simp [upStates, polylineLength]
  | succ k ih =>
    intro n r hr
    simp only [ancestorAt] at hr
    cases hp : (pool n).parent with
    | none => rw [hp] at hr; cases hr
    | some p =>
      rw [hp] at hr
      simp only at hr
      have hl : (upStates pool k p).reverse.getLast? = some (pool p).x := by
        rw [List.getLast?_reverse]
        exact upStates_head pool k p
      have e : upStates pool (k + 1) n = (pool n).x :: upStates pool k p := by
        simp [upStates, hp]
      rw [e, List.reverse_cons, polylineLength_append env _ _ _ hl, ih p r hr,
        h.cost_ok n p hp, h.edge_len n p hp]
      ring

/-- The cost from start of a node in use that has a parent is the length of the polyline
`fillPath` returns for it. -/
theorem TreeInv.fillPath_length {env : Env K} {pool : Pool K} {valid n fuel : Nat}
    (h : TreeInv env pool valid) (hn : n < valid) (ha : Anc pool start_node_ n)
    (hfuel : valid ≤ fuel) :
    ∃ path, fillPath fuel pool n = .ok path ∧
      polylineLength env path = (pool n).cost_from_start := by
  obtain ⟨k, _, hk, hf⟩ := h.fillPath_ok hn ha hfuel
  refine ⟨_, hf, ?_⟩
  rw [h.polyline_upStates k n start_node_ hk, h.start_cost, sub_zero]

/-! ### The lists of snapshots and records along a run -/

theorem PathStep.unchanged {fuel : Nat} {st st' : RRTStar K}
    (h1 : st'.path_list_ = st.path_list_)
    (h2 : st'.solution_cost_time_pair_list_ = st.solution_cost_time_pair_list_) :
    PathStep fuel st st' := Or.inl ⟨h1, h2⟩

theorem storeSolution_step {env : Env K} {fuel : Nat} {t0 csq : K} {st st' : RRTStar K}
    (h : storeSolution env fuel t0 csq st = .ok st') :
    st'.nodes_pool_ = st.nodes_pool_ ∧
    ∃ path t, st'.path_list_ = st.path_list_ ++ [path] ∧
      st'.solution_cost_time_pair_list_ =
        st.solution_cost_time_pair_list_ ++ [((st.nodes_pool_ goal_node_).cost_from_start, t)] ∧
      fillPath fuel st.nodes_pool_ goal_node_ = .ok path ∧
      (env.use_informed_sampling_ = true →
        st'.scale_ =
          ⟨(st.nodes_pool_ goal_node_).cost_from_start / 2,
            env.sqrt ((st.nodes_pool_ goal_node_).cost_from_start / 2 *
              ((st.nodes_pool_ goal_node_).cost_from_start / 2) - csq),
            env.sqrt ((st.nodes_pool_ goal_node_).cost_from_start / 2 *
              ((st.nodes_pool_ goal_node_).cost_from_start / 2) - csq)⟩) := by
  unfold storeSolution at h
  cases hf : fillPath fuel st.nodes_pool_ goal_node_ with
  | error e => rw [hf] at h; cases h
  | ok path =>
    rw [hf] at h
    simp only at h
    by_cases hi : env.use_informed_sampling_ = true
    · rw [if_pos hi] at h
      have e := Except.ok.inj h
      rw [← e]
      exact ⟨rfl, path, _, rfl, rfl, rfl, fun _ => rfl⟩
    · rw [if_neg hi] at h
      have e := Except.ok.inj h
      rw [← e]
      exact ⟨rfl, path, _, rfl, rfl, rfl, fun hh => absurd hh hi⟩

theorem connectGoal_step {env : Env K} {fuel : Nat} {t0 csq : K} {x_new : Vec3 K}
    {new_node : Nat} {st st' : RRTStar K}
    (h : connectGoal env fuel t0 csq x_new new_node st = .ok st') : PathStep fuel st st' := by
  unfold connectGoal at h
  simp only at h
  split_ifs at h with h1 h2
  · obtain ⟨_, _, _, f4, f5, _⟩ := noteFirstPath_frame env t0 st
    cases hc : changeNodeParent fuel (noteFirstPath env t0 st).nodes_pool_ goal_node_ new_node
        (calDist env x_new (st.nodes_pool_ goal_node_).x) with
    | error e => rw [hc] at h; cases h
    | ok pool =>
      rw [hc] at h
      simp only at h
      obtain ⟨hp, path, t, e1, e2, e3, _⟩ := storeSolution_step h
      right
      refine ⟨path, t, ?_, ?_, ?_⟩
      · rw [e1]; exact congrArg (fun l => l ++ [path]) f4
      · rw [e2, hp]
        exact congrArg (fun l => l ++ [((pool goal_node_).cost_from_start, t)]) f5
      · rw [hp]; exact e3
  · rw [← Except.ok.inj h]; exact PathStep.unchanged rfl rfl
  · rw [← Except.ok.inj h]; exact PathStep.unchanged rfl rfl

theorem rewireStep_step {env : Env K} {fuel : Nat} {t0 csq : K} {new_node curr_node : Nat}
    {st st' : RRTStar K}
    (h : rewireStep env fuel t0 csq new_node curr_node st = .ok st') : PathStep fuel st st' := by
  unfold rewireStep at h
  simp only at h
  split_ifs at h with h1 h2
  · cases hc : changeNodeParent fuel st.nodes_pool_ curr_node new_node
        (calDist env (st.nodes_pool_ new_node).x (st.nodes_pool_ curr_node).x) with
    | error e => rw [hc] at h; cases h
    | ok pool =>
      rw [hc] at h
      simp only at h
      split_ifs at h with h3
      · obtain ⟨hp, path, t, e1, e2, e3, _⟩ := storeSolution_step h
        right
        exact ⟨path, t, e1, by rw [e2, hp], by rw [hp]; exact e3⟩
      · rw [← Except.ok.inj h]; exact PathStep.unchanged rfl rfl
  · rw [← Except.ok.inj h]; exact PathStep.unchanged rfl rfl
  · rw [← Except.ok.inj h]; exact PathStep.unchanged rfl rfl

/-- A step that returns a state satisfying the loop invariant keeps the costs of the
records equal to the lengths of the snapshots. -/
theorem PathStep.costs {env : Env K} {s g : Vec3 K} {fuel : Nat} {st st' : RRTStar K}
    (hstep : PathStep fuel st st') (hinv : Inv env s g st')
    (hfuel : st'.valid_tree_node_nums_ ≤ fuel) (hpc : PathCosts env st) : PathCosts env st' := by
  rcases hstep with ⟨h1, h2⟩ | ⟨path, t, h1, h2, h3⟩
  · unfold PathCosts getAllPaths getSolutions at hpc ⊢
    rw [h1, h2]; exact hpc
  · unfold PathCosts getAllPaths getSolutions at hpc ⊢
    rw [h1, h2]
    refine List.rel_append hpc (List.Forall₂.cons ?_ List.Forall₂.nil)
    have hne : st'.solution_cost_time_pair_list_ ≠ [] := by rw [h2]; simp
    have hfound := hinv.hist_iff.2 hne
    obtain ⟨k, _, hk, hf⟩ := hinv.goal_reached hfound hfuel
    rw [hf] at h3
    rw [← Except.ok.inj h3, hinv.tree.polyline_upStates k goal_node_ start_node_ hk,
      hinv.tree.start_cost, sub_zero]

theorem PathCosts.of_lists_eq {env : Env K} {st st' : RRTStar K} (h : PathCosts env st)
    (h1 : st'.path_list_ = st.path_list_)
    (h2 : st'.solution_cost_time_pair_list_ = st.solution_cost_time_pair_list_) :
    PathCosts env st' := by
  unfold PathCosts getAllPaths getSolutions at h ⊢
  rw [h1, h2]; exact h

theorem PathCosts.of_nil {env : Env K} {st : RRTStar K} (h1 : st.path_list_ = [])
    (h2 : st.solution_cost_time_pair_list_ = []) : PathCosts env st := by
  unfold PathCosts getAllPaths getSolutions
  rw [h1, h2]; exact List.Forall₂.nil

theorem rewire_costs {env : Env K} (henv : EnvOK env) {s g : Vec3 K}
    {fuel : Nat} {t0 csq : K} {new_node : Nat} (hnew0 : new_node ≠ goal_node_) :
    ∀ (L : List Nat) (st st' : RRTStar K), Inv env s g st →
      new_node < st.valid_tree_node_nums_ →
      (∀ c ∈ L, c < st.valid_tree_node_nums_ ∧ c ≠ goal_node_) →
      st.valid_tree_node_nums_ ≤ fuel → PathCosts env st →
      rewire env fuel t0 csq new_node L st = .ok st' → PathCosts env st' := by
  intro L
  induction L with
  | nil =>
    intro st st' _ _ _ _ hpc hrun
    rw [← Except.ok.inj hrun]; exact hpc
  | cons c rest ih =>
    intro st st' hinv hnew hL hfuel hpc hrun
    have hc := hL c (List.mem_cons_self _ _)
    obtain ⟨st1, hstep, hinv1, _, hv1, _⟩ :=
      @rewireStep_inv K _ env henv s g st fuel t0 csq new_node c hinv hnew hnew0 hc.1 hc.2 hfuel
    simp only [rewire, hstep] at hrun
    have hpc1 : PathCosts env st1 :=
      (rewireStep_step hstep).costs hinv1 (by rw [hv1]; exact hfuel) hpc
    exact ih st1 st' hinv1 (by rw [hv1]; exact hnew)
      (fun d hd => by rw [hv1]; exact hL d (List.mem_cons_of_mem _ hd))
      (by rw [hv1]; exact hfuel) hpc1 hrun

theorem iteration_costs {env : Env K} (henv : EnvOK env) {s g : Vec3 K} {st st' : RRTStar K}
    {fuel : Nat} {t0 csq : K} {b : Bool}
    (hinv : Inv env s g st) (hcap : st.valid_tree_node_nums_ < env.max_tree_node_nums_)
    (hfuel : env.max_tree_node_nums_ ≤ fuel) (hpc : PathCosts env st)
    (hrun : iteration env fuel t0 csq st = .ok (b, st')) : PathCosts env st' := by
  rcases @iteration_body K _ env henv s g st fuel t0 csq hinv hcap hfuel with
    ⟨b1, h⟩ | ⟨x_new, nbrs, st2, st3, st4, hit, hinv2, hv2, _, hne, hnb, hcg, hinv3, hv3, hrw,
      hl1, hl2⟩
  · rw [h] at hrun
    have e : _ = st' := congrArg Prod.snd (Except.ok.inj hrun)
    rw [← e]
    exact hpc.of_lists_eq rfl rfl
  · rw [hit] at hrun
    have e : st4 = st' := congrArg Prod.snd (Except.ok.inj hrun)
    rw [← e]
    have hf3 : st3.valid_tree_node_nums_ ≤ fuel := by rw [hv3]; omega
    have hpc3 : PathCosts env st3 :=
      (connectGoal_step hcg).costs hinv3 hf3 (hpc.of_lists_eq hl1 hl2)
    exact rewire_costs henv hne nbrs st3 st4 hinv3 (by rw [hv3]; exact Nat.lt_succ_self _)
      (fun c hc => by rw [hv3]; exact ⟨Nat.lt_succ_of_lt (hnb c hc).1, (hnb c hc).2⟩)
      hf3 hpc3 hrw

theorem rrt_loop_costs {env : Env K} (henv : EnvOK env) {s g : Vec3 K} {inner : Nat} {t0 csq : K}
    (hfuel : env.max_tree_node_nums_ ≤ inner) :
    ∀ (fuel : Nat) (st st' : RRTStar K), Inv env s g st → PathCosts env st →
      rrt_loop env inner t0 csq fuel st = .ok st' → PathCosts env st' := by
  intro fuel
  induction fuel with
  | zero =>
    intro st st' hinv hpc hrun
    unfold rrt_loop at hrun
    simp only at hrun
    split_ifs at hrun with hg
    rw [← Except.ok.inj hrun]
    exact hpc.of_lists_eq rfl rfl
  | succ fuel ih =>
    intro st st' hinv hpc hrun
    unfold rrt_loop at hrun
    simp only at hrun
    split_ifs at hrun with hg
    · have hinv1 : Inv env s g { st with clock_reads := st.clock_reads + 1 } :=
        hinv.of_fields_eq rfl rfl rfl rfl rfl rfl rfl
      have hpc1 : PathCosts env { st with clock_reads := st.clock_reads + 1 } :=
        hpc.of_lists_eq rfl rfl
      obtain ⟨b, st2, hit, hinv2, _⟩ :=
        @iteration_inv K _ env henv s g _ inner t0 csq hinv1 hg.2 hfuel
      have hpc2 := iteration_costs henv hinv1 hg.2 hfuel hpc1 hit
      rw [hit] at hrun
      cases b with
      | true =>
        simp only at hrun
        rw [← Except.ok.inj hrun]
        exact hpc2
      | false =>
        simp only at hrun
        exact ih st2 st' hinv2 hpc2 hrun
    · rw [← Except.ok.inj hrun]
      exact hpc.of_lists_eq rfl rfl

theorem loopReach_costs {env : Env K} (henv : EnvOK env) {s g : Vec3 K} {inner : Nat}
    {t0 csq : K} (hfuel : env.max_tree_node_nums_ ≤ inner) {st0 st : RRTStar K}
    (h0 : Inv env s g st0) (hpc0 : PathCosts env st0)
    (h : LoopReach env inner t0 csq st0 st) : PathCosts env st := by
  induction h with
  | entry => exact hpc0
  | @pass st1 st2 brk hr _ hcap hit ih =>
    have hinv1 := loopReach_inv henv hfuel h0 hr
    have hinv1' : Inv env s g { st1 with clock_reads := st1.clock_reads + 1 } :=
      hinv1.of_fields_eq rfl rfl rfl rfl rfl rfl rfl
    exact iteration_costs henv hinv1' hcap hfuel (ih.of_lists_eq rfl rfl) hit

theorem plan_init_costs (env : Env K) (st : RRTStar K) (s g : Vec3 K) :
    PathCosts env (rrt_star_init (plan_init env st s g)) := by
  obtain ⟨_, _, _, hp, hsol, _⟩ := plan_init_fields env st s g
  exact PathCosts.of_nil hp hsol

theorem planReach_costs {env : Env K} (henv : EnvOK env) {st0 : RRTStar K} (hc : Clean st0)
    {fuel : Nat} (hfuel : env.max_tree_node_nums_ ≤ fuel) {s g : Vec3 K} {st : RRTStar K}
    (h : PlanReach env fuel st0 s g st) : PathCosts env st := by
  obtain ⟨_, _, hmax, hr⟩ := h
  exact loopReach_costs henv hfuel (plan_init_inv s g hc hmax) (plan_init_costs env st0 s g) hr

/-- In the state a call of `plan` returns, the cost of each record is the polyline length
of the snapshot at the same position. -/
theorem plan_costs {env : Env K} (henv : EnvOK env) {st0 : RRTStar K} (hc : Clean st0)
    {fuel : Nat} (hfuel : env.max_tree_node_nums_ ≤ fuel) {s g : Vec3 K} {b : Bool}
    {st : RRTStar K} (h : plan env fuel st0 s g = .ok (b, st)) : PathCosts env st := by
  rcases plan_result henv hc hfuel h with ⟨_, hst, _⟩ | ⟨hs, hg, hmax, _⟩
  · rw [hst]
    exact PathCosts.of_nil rfl rfl
  · rw [plan_valid_unfold env fuel st0 s g hs hg hmax] at h
    unfold rrt_star at h
    simp only at h
    cases hloop : rrt_loop env fuel (env.clock (plan_init env st0 s g).clock_reads)
        ((g.sub s).squaredNorm / 4) fuel (rrt_star_init (plan_init env st0 s g)) with
    | error e => rw [hloop] at h; cases h
    | ok st1 =>
      rw [hloop] at h
      simp only at h
      have hpc1 := rrt_loop_costs henv hfuel fuel _ _ (plan_init_inv s g hc hmax)
        (plan_init_costs env st0 s g) hloop
      by_cases hf : st1.goal_found = true
      · rw [if_pos hf] at h
        cases hfp : fillPath fuel st1.nodes_pool_ goal_node_ with
        | error e => rw [hfp] at h; cases h
        | ok path =>
          rw [hfp] at h
          simp only at h
          have e : _ = st := congrArg Prod.snd (Except.ok.inj h)
          rw [← e]
          exact hpc1.of_lists_eq rfl rfl
      · rw [if_neg hf] at h
        have e : st1 = st := congrArg Prod.snd (Except.ok.inj h)
        rw [← e]
        exact hpc1

theorem PathCosts.index {env : Env K} {st : RRTStar K} (h : PathCosts env st) :
    (getAllPaths st).length = (getSolutions st).length ∧
    ∀ (i : Nat) (path : List (Vec3 K)) (r : K × K),
    (getAllPaths st)[i]? = some path → (getSolutions st)[i]? = some r →
      polylineLength env path = r.1 := by
  unfold PathCosts at h
  obtain ⟨hlen, hget⟩ := List.forall₂_iff_get.1 h
  refine ⟨hlen, ?_⟩
  intro i path r hp hr
  obtain ⟨h1, e1⟩ := List.getElem?_eq_some.1 hp
  obtain ⟨h2, e2⟩ := List.getElem?_eq_some.1 hr
  have := hget i h1 h2
  simp only [List.get_eq_getElem] at this
  rw [e1, e2] at this
  exact this

theorem geometricCosts_of_inv {env : Env K} (henv : EnvOK env) {fuel : Nat} {st : RRTStar K}
    (ht : TreeInv env st.nodes_pool_ st.valid_tree_node_nums_)
    (hfuel : st.valid_tree_node_nums_ ≤ fuel) (hpc : PathCosts env st) :
    GeometricCosts env fuel st := by
  refine ⟨?_, hpc.index.1, hpc.index.2⟩
  intro n p hn hp
  exact ⟨ht.edge_len n p hp, ht.edge_nonneg henv hp,
    ht.fillPath_length hn (ht.reach n p hp) hfuel⟩

/-! ### The polyline is at least as long as its chord -/

theorem chord_step (a b c : Vec3 K) (l L : K) (hl : 0 ≤ l) (hL : 0 ≤ L)
    (h1 : l * l = (a.sub b).squaredNorm) (h2 : (b.sub c).squaredNorm ≤ L * L) :
    (a.sub c).squaredNorm ≤ (l + L) * (l + L) := by
  simp only [Vec3.sub, Vec3.squaredNorm] at h1 h2 ⊢
  have hlL : 0 ≤ l * L := mul_nonneg hl hL
  have hv0 : 0 ≤ (b.x - c.x) * (b.x - c.x) + (b.y - c.y) * (b.y - c.y) +
      (b.z - c.z) * (b.z - c.z) := by
    have := mul_self_nonneg (b.x - c.x)
    have := mul_self_nonneg (b.y - c.y)
    have := mul_self_nonneg (b.z - c.z)
    linarith
  have hcs : ((a.x - b.x) * (b.x - c.x) + (a.y - b.y) * (b.y - c.y) +
      (a.z - b.z) * (b.z - c.z)) ^ 2 ≤ (l * L) ^ 2 := by
    have e : (l * L) ^ 2 = (l * l) * (L * L) := by ring
    rw [e, h1]
    refine le_trans (dot_sq_le _ _ _ _ _ _) ?_
    apply mul_le_mul_of_nonneg_left h2
    rw [← h1]
    exact mul_self_nonneg l
  have hdot : (a.x - b.x) * (b.x - c.x) + (a.y - b.y) * (b.y - c.y) +
      (a.z - b.z) * (b.z - c.z) ≤ l * L := by
    by_contra hcon
    have hlt := not_le.1 hcon
    have : (l * L) ^ 2 < ((a.x - b.x) * (b.x - c.x) + (a.y - b.y) * (b.y - c.y) +
        (a.z - b.z) * (b.z - c.z)) ^ 2 := by
      apply pow_lt_pow_left hlt hlL
      norm_num
    exact absurd hcs (not_le.2 this)
  have e1 : (a.x - c.x) * (a.x - c.x) + (a.y - c.y) * (a.y - c.y) + (a.z - c.z) * (a.z - c.z) =
      ((a.x - b.x) * (a.x - b.x) + (a.y - b.y) * (a.y - b.y) + (a.z - b.z) * (a.z - b.z)) +
      2 * ((a.x - b.x) * (b.x - c.x) + (a.y - b.y) * (b.y - c.y) + (a.z - b.z) * (b.z - c.z)) +
      ((b.x - c.x) * (b.x - c.x) + (b.y - c.y) * (b.y - c.y) + (b.z - c.z) * (b.z - c.z)) := by
    ring
  have e2 : (l + L) * (l + L) = l * l + 2 * (l * L) + L * L := by ring
  rw [e1, e2, ← h1]
  linarith

/-- A polyline with exact edge lengths is at least as long as the straight line from its
first to its last waypoint. -/
theorem polyline_chord (env : Env K) :
    ∀ (path : List (Vec3 K)), ExactAlong env path →
      ∀ p0 pk, path.head? = some p0 → path.getLast? = some pk →
        0 ≤ polylineLength env path ∧
        (p0.sub pk).squaredNorm ≤ polylineLength env path * polylineLength env path := by
  intro path
  induction path with
  | nil => intro _ p0 pk h0; simp at h0
  | cons p rest ih =>
    intro hex p0 pk h0 hk
    simp only [List.head?_cons, Option.some.injEq] at h0
    subst h0
    cases rest with
    | nil =>
      simp only [List.getLast?_singleton, Option.some.injEq] at hk
      subst hk
      simp [polylineLength, Vec3.sub, Vec3.squaredNorm]
    | cons q rest =>
      have hex' : SqrtAt env.sqrt (p.sub q).squaredNorm ∧ ExactAlong env (q :: rest) :=
        List.chain'_cons.1 hex
      have hk' : (q :: rest).getLast? = some pk := by
        rw [List.getLast?_cons_cons] at hk
        exact hk
      obtain ⟨i1, i2⟩ := ih hex'.2 q pk rfl hk'
      obtain ⟨s1, s2⟩ := hex'.1
      have e : polylineLength env (p :: q :: rest) =
          calDist env p q + polylineLength env (q :: rest) := rfl
      rw [e]
      have hd : calDist env p q = env.sqrt (p.sub q).squaredNorm := rfl
      rw [hd]
      exact ⟨add_nonneg s1 i1, chord_step p q pk _ _ s1 i1 s2 i2⟩

/-- Bounds on a cost that is the length of a polyline with exact edge lengths from `s` to
`g`. -/
theorem radicand_of_polyline (env : Env K) (s g : Vec3 K) (path : List (Vec3 K)) (c : K)
    (hex : ExactAlong env path) (hs : path.head? = some s) (hg : path.getLast? = some g)
    (hc : polylineLength env path = c) :
    0 ≤ c ∧
    0 ≤ c / 2 * (c / 2) - (g.sub s).squaredNorm / 4 ∧
    (SqrtAt env.sqrt (s.sub g).squaredNorm → calDist env s g ≤ c) ∧
    (SqrtAt env.sqrt (c / 2 * (c / 2) - (g.sub s).squaredNorm / 4) →
      env.sqrt (c / 2 * (c / 2) - (g.sub s).squaredNorm / 4) ≤ c / 2) := by
  obtain ⟨h0, h1⟩ := polyline_chord env path hex s g hs hg
  rw [hc] at h0 h1
  have hsq : (g.sub s).squaredNorm = (s.sub g).squaredNorm := by
    simp only [Vec3.sub, Vec3.squaredNorm]; ring
  have hrad : 0 ≤ c / 2 * (c / 2) - (g.sub s).squaredNorm / 4 := by
    rw [hsq]
    have e : c / 2 * (c / 2) - (s.sub g).squaredNorm / 4 = (c * c - (s.sub g).squaredNorm) / 4 := by
      ring
    rw [e]
    apply div_nonneg _ (by norm_num)
    linarith
  have hn0 : 0 ≤ (g.sub s).squaredNorm := by
    simp only [Vec3.sub, Vec3.squaredNorm]
    have := mul_self_nonneg (g.x - s.x)
    have := mul_self_nonneg (g.y - s.y)
    have := mul_self_nonneg (g.z - s.z)
    linarith
  refine ⟨h0, hrad, ?_, ?_⟩
  · rintro ⟨d0, d2⟩
    show env.sqrt (s.sub g).squaredNorm ≤ c
    by_contra hcon
    have hlt := not_le.1 hcon
    have := mul_self_lt_mul_self h0 hlt
    rw [d2] at this
    exact absurd h1 (not_le.2 this)
  · rintro ⟨b0, b2⟩
    have hc2 : 0 ≤ c / 2 := div_nonneg h0 (by norm_num)
    by_contra hcon
    have hlt := not_le.1 hcon
    have := mul_self_lt_mul_self hc2 hlt
    rw [b2] at this
    have hq : 0 ≤ (g.sub s).squaredNorm / 4 := div_nonneg hn0 (by norm_num)
    linarith

theorem radicandOK_of_inv {env : Env K} {s g : Vec3 K} {st : RRTStar K}
    (hpaths : ∀ path ∈ st.path_list_, path.head? = some s ∧ path.getLast? = some g)
    (hpc : PathCosts env st) : RadicandOK env s g st := by
  intro i path r hp hr hex
  have hmem : path ∈ st.path_list_ := List.mem_iff_getElem?.2 ⟨i, hp⟩
  obtain ⟨h1, h2⟩ := hpaths path hmem
  exact radicand_of_polyline env s g path r.1 hex h1 h2 (hpc.index.2 i path r hp hr)

set_option maxRecDepth 100000 in
theorem tri_run_eval :
    (match plan triEnv 10 RRTStar.init ⟨0, 0, 0⟩ ⟨3, 0, 0⟩ with
      | .ok (true, st) =>
        decide (st.path_list_ = [[⟨0, 0, 0⟩, ⟨3, 8 / 5, 0⟩, ⟨3, 0, 0⟩]]) &&
        decide (st.solution_cost_time_pair_list_ = [(5, 3)]) &&
        decide (st.scale_ = ⟨5 / 2, 2, 2⟩)
      | _ => false) = true := by
  decide!

/-- The run on the triangle: one node is inserted, the goal is reached through it at cost
17/5 + 8/5 = 5, and the ellipsoid gets the semi-axes 5/2 and 2. -/
theorem tri_run :
    ∃ st, plan triEnv 10 RRTStar.init ⟨0, 0, 0⟩ ⟨3, 0, 0⟩ = .ok (true, st) ∧
      getAllPaths st = [[⟨0, 0, 0⟩, ⟨3, 8 / 5, 0⟩, ⟨3, 0, 0⟩]] ∧
      getSolutions st = [(5, 3)] ∧ st.scale_ = ⟨5 / 2, 2, 2⟩ := by
  have h := tri_run_eval
  cases hp : plan triEnv 10 RRTStar.init ⟨0, 0, 0⟩ ⟨3, 0, 0⟩ with
  | error e => rw [hp] at h; cases h
  | ok r =>
    obtain ⟨b, st⟩ := r
    cases b with
    | false => rw [hp] at h; cases h
    | true =>
      rw [hp] at h
      simp only [Bool.and_eq_true, decide_eq_true_eq] at h
      exact ⟨st, rfl, h.1.1, h.1.2, h.2⟩

theorem triEnv_ok : EnvOK triEnv := envOK_of_reference triEnv rfl rfl rfl

set_option maxRecDepth 100000 in
/-- On the triangle the square root is exact at the two squared edge lengths, at the squared
distance from start to goal and at the radicand of the minor semi-axis. -/
theorem tri_exact :
    SqrtAt triEnv.sqrt (((⟨0, 0, 0⟩ : Vec3 ℚ).sub ⟨3, 8 / 5, 0⟩).squaredNorm) ∧
    SqrtAt triEnv.sqrt (((⟨3, 8 / 5, 0⟩ : Vec3 ℚ).sub ⟨3, 0, 0⟩).squaredNorm) ∧
    SqrtAt triEnv.sqrt (((⟨0, 0, 0⟩ : Vec3 ℚ).sub ⟨3, 0, 0⟩).squaredNorm) ∧
    SqrtAt triEnv.sqrt ((5 : ℚ) / 2 * (5 / 2) -
      ((⟨3, 0, 0⟩ : Vec3 ℚ).sub ⟨0, 0, 0⟩).squaredNorm / 4) := by
  refine ⟨⟨?_, ?_⟩, ⟨?_, ?_⟩, ⟨?_, ?_⟩, ⟨?_, ?_⟩⟩ <;> decide!

end Lemmas

/-! ## Claims -/

section Claims

variable {K : Type} [LinearOrderedField K]

/-- C1: with `isSegmentValid` a pure function of its two endpoints, in every state the
planning loop passes through and in the state `plan` returns, every node with a parent has a
valid segment from the state of its parent to its own state; when `plan` returns `true`,
every consecutive pair of waypoints of `getPath()` and of every snapshot of `getAllPaths()`
is a valid segment. -/
theorem c1_segments_valid {env : Env K} (henv : EnvOK env) {st0 : RRTStar K} (hc : Clean st0)
    {fuel : Nat} (hfuel : env.max_tree_node_nums_ ≤ fuel) {s g : Vec3 K} {b : Bool}
    {st : RRTStar K} (h : plan env fuel st0 s g = .ok (b, st)) :
    (∀ stl, PlanReach env fuel st0 s g stl → EdgesValid env stl) ∧
    EdgesValid env st ∧
    (b = true → SegmentsValid env (getPath st) ∧
      ∀ path ∈ getAllPaths st, SegmentsValid env path) := by
  refine ⟨fun stl hr => (planReach_inv henv hc hfuel hr).tree.edge_valid, ?_, ?_⟩
  · rcases plan_result henv hc hfuel h with ⟨_, hst, _⟩ | ⟨_, _, _, hinv, _⟩
    · intro i p hp
      rw [hst, reset_parent hc] at hp
      cases hp
    · exact hinv.tree.edge_valid
  · intro hb
    rcases plan_result henv hc hfuel h with ⟨hf, _, _⟩ | ⟨_, _, _, hinv, _, _, hpath⟩
    · rw [hb] at hf; cases hf
    · obtain ⟨k, _, hk, hfp⟩ := hpath hb
      refine ⟨?_, fun path hp => (hinv.paths_ok path hp).1⟩
      unfold getPath
      rw [hfp]
      exact segmentsValid_reverse_upStates hinv.tree.edge_valid hk

/-- Witness of C1 in the small world: the run finds the goal and all segments are valid. -/
theorem c1_segments_valid_witness :
    ∃ st, plan demoEnv 10 RRTStar.init ⟨0, 0, 0⟩ ⟨6, 0, 4⟩ = .ok (true, st) ∧
      EdgesValid demoEnv st ∧ SegmentsValid demoEnv (getPath st) ∧
      ∀ path ∈ getAllPaths st, SegmentsValid demoEnv path := by
  obtain ⟨st, h, hsol, hval⟩ := demo_run
  have hw := c1_segments_valid demoEnv_ok init_clean (by decide) h
  exact ⟨st, h, hw.2.1, (hw.2.2 rfl).1, (hw.2.2 rfl).2⟩

/-- C2: in every state the planning loop passes through (after any number of passes, each
made of an insertion by `addTreeNode`, a goal connection and rewires by `changeNodeParent`)
and in the state `plan` returns, every node with a parent has
`cost_from_start = cost_from_start of the parent + cost_from_parent`. -/
theorem c2_cost_consistency {env : Env K} (henv : EnvOK env) {st0 : RRTStar K} (hc : Clean st0)
    {fuel : Nat} (hfuel : env.max_tree_node_nums_ ≤ fuel) {s g : Vec3 K} {b : Bool}
    {st : RRTStar K} (h : plan env fuel st0 s g = .ok (b, st)) :
    (∀ stl, PlanReach env fuel st0 s g stl → CostConsistent stl) ∧ CostConsistent st := by
  refine ⟨fun stl hr => (planReach_inv henv hc hfuel hr).tree.cost_ok, ?_⟩
  rcases plan_result henv hc hfuel h with ⟨_, hst, _⟩ | ⟨_, _, _, hinv, _⟩
  · intro i p hp
    rw [hst, reset_parent hc] at hp
    cases hp
  · exact hinv.tree.cost_ok

/-- Witness of C2 in the small world, whose run rewires a node that has the goal below it. -/
theorem c2_cost_consistency_witness :
    ∃ st, plan demoEnv 10 RRTStar.init ⟨0, 0, 0⟩ ⟨6, 0, 4⟩ = .ok (true, st) ∧
      st.valid_tree_node_nums_ = 5 ∧ CostConsistent st := by
  obtain ⟨st, h, hsol, hval⟩ := demo_run
  exact ⟨st, h, hval, (c2_cost_consistency demoEnv_ok init_clean (by decide) h).2⟩

/-- Counterexample to C3 as stated: with room for two nodes `plan` returns with the goal in
slot 0, a slot in use, and no number of parent links leads from the goal to the start. -/
theorem c3_counterexample :
    ∃ b st, plan capTwoEnv 5 RRTStar.init ⟨0, 0, 0⟩ ⟨6, 0, 4⟩ = .ok (b, st) ∧
      goal_node_ < st.valid_tree_node_nums_ ∧
      ∀ k, ancestorAt st.nodes_pool_ k goal_node_ ≠ some start_node_ := by
  have hok : EnvOK capTwoEnv := envOK_of_reference capTwoEnv rfl rfl rfl
  obtain ⟨st, hrun, _, _, _, hv, _, _⟩ :=
    plan_capacity_two capTwoEnv 5 RRTStar.init ⟨0, 0, 0⟩ ⟨6, 0, 4⟩ rfl rfl rfl
  refine ⟨false, st, hrun, by rw [hv]; decide, ?_⟩
  rcases plan_result hok init_clean (by decide) hrun with ⟨_, _, h⟩ | ⟨_, _, _, hinv, hb, _, _⟩
  · rcases h with h | h <;> cases h
  · have hpar : (st.nodes_pool_ goal_node_).parent = none := by
      by_contra hne
      have := hinv.found_iff.2 hne
      rw [← hb] at this
      cases this
    intro k
    cases k with
    | zero => simp [ancestorAt, goal_node_, start_node_]
    | succ k => simp [ancestorAt, hpar]

/-- C3, amended: in every state the planning loop passes through and in the state `plan`
returns, every slot in use other than a goal that has no parent yet reaches the start node
over parent links, in fewer links than there are slots in use; the same holds right after
each mutation of the loop body (insertion, goal connection, one rewire step) made in a state
that satisfies the loop invariant. -/
theorem c3_acyclic {env : Env K} (henv : EnvOK env) {st0 : RRTStar K} (hc : Clean st0)
    {fuel : Nat} (hfuel : env.max_tree_node_nums_ ≤ fuel) {s g : Vec3 K} {b : Bool}
    {st : RRTStar K} (h : plan env fuel st0 s g = .ok (b, st)) :
    (∀ stl, PlanReach env fuel st0 s g stl → TreeAcyclic stl) ∧
    TreeAcyclic st ∧
    (∀ stl, Inv env s g stl →
      (∀ par x cfs cfp n st',
        stl.valid_tree_node_nums_ < env.max_tree_node_nums_ →
        par < stl.valid_tree_node_nums_ → par ≠ goal_node_ →
        cfs = (stl.nodes_pool_ par).cost_from_start + cfp →
        cfp = calDist env (stl.nodes_pool_ par).x x →
        env.isSegmentValid (stl.nodes_pool_ par).x x = true →
        addTreeNode env stl par x cfs cfp = .ok (n, st') → TreeAcyclic st') ∧
      (∀ t0 csq x_new new_node st',
        new_node < stl.valid_tree_node_nums_ → new_node ≠ goal_node_ →
        (stl.nodes_pool_ new_node).x = x_new →
        connectGoal env fuel t0 csq x_new new_node stl = .ok st' → TreeAcyclic st') ∧
      (∀ t0 csq new_node curr_node st',
        new_node < stl.valid_tree_node_nums_ → new_node ≠ goal_node_ →
        curr_node < stl.valid_tree_node_nums_ → curr_node ≠ goal_node_ →
        rewireStep env fuel t0 csq new_node curr_node stl = .ok st' → TreeAcyclic st')) := by
  refine ⟨fun stl hr => (planReach_inv henv hc hfuel hr).tree.acyclic, ?_, ?_⟩
  · rcases plan_result henv hc hfuel h with ⟨_, hst, _⟩ | ⟨_, _, _, hinv, _⟩
    · intro i hi
      rw [hst] at hi
      exact absurd hi (Nat.not_lt_zero i)
    · have ht : TreeInv env st.nodes_pool_ st.valid_tree_node_nums_ := hinv.tree
      exact TreeInv.acyclic ht
  · intro stl hinv
    have hfl : stl.valid_tree_node_nums_ ≤ fuel := le_trans hinv.cap hfuel
    refine ⟨?_, ?_, ?_⟩
    · intro par x cfs cfp n st' hcap hpar hpar0 hcfs hcfp hseg hadd
      obtain ⟨pool', hrun, htree, _⟩ :=
        addTreeNode_spec hinv.tree hcap hpar hpar0 hcfs hcfp hseg
      rw [hrun] at hadd
      have hst : _ = st' := congrArg Prod.snd (Except.ok.inj hadd)
      rw [← hst]
      exact TreeInv.acyclic htree
    · intro t0 csq x_new new_node st' hnew hnew0 hx hrun
      obtain ⟨st2, hrun2, hinv2, _⟩ :=
        @connectGoal_inv K _ env henv s g stl fuel t0 csq x_new new_node hinv hnew hnew0 hx hfl
      rw [hrun] at hrun2
      rw [Except.ok.inj hrun2]
      exact hinv2.tree.acyclic
    · intro t0 csq new_node curr_node st' hnew hnew0 hcurr hcurr0 hrun
      obtain ⟨st2, hrun2, hinv2, _⟩ :=
        @rewireStep_inv K _ env henv s g stl fuel t0 csq new_node curr_node hinv hnew hnew0
          hcurr hcurr0 hfl
      rw [hrun] at hrun2
      rw [Except.ok.inj hrun2]
      exact hinv2.tree.acyclic

/-- Witness of C3 (amended) in the small world: every slot in use reaches the start. -/
theorem c3_acyclic_witness :
    ∃ st, plan demoEnv 10 RRTStar.init ⟨0, 0, 0⟩ ⟨6, 0, 4⟩ = .ok (true, st) ∧
      st.valid_tree_node_nums_ = 5 ∧ TreeAcyclic st := by
  obtain ⟨st, h, hsol, hval⟩ := demo_run
  exact ⟨st, h, hval, (c3_acyclic demoEnv_ok init_clean (by decide) h).2.1⟩

/-- C4: the costs of `getSolutions()` at return are non-increasing in the order of appending;
every pass through the loop body is a chain of steps each of which either lowers the cost of
the goal strictly and appends exactly one record with the new cost, or changes neither the
cost of the goal nor the solution list, so the cost of the goal never increases; the goal
connection and each rewire step are such steps, and a rewire step lowers the cost of the
goal only when it reparents an ancestor of the goal. -/
theorem c4_monotone_improvement {env : Env K} (henv : EnvOK env) {st0 : RRTStar K}
    (hc : Clean st0) {fuel : Nat} (hfuel : env.max_tree_node_nums_ ≤ fuel) {s g : Vec3 K}
    {b : Bool} {st : RRTStar K} (h : plan env fuel st0 s g = .ok (b, st)) :
    ((getSolutions st).map Prod.fst).Pairwise (fun c d => d ≤ c) ∧
    (∀ stl brk stl', PlanReach env fuel st0 s g stl →
      stl.valid_tree_node_nums_ < env.max_tree_node_nums_ →
      iteration env fuel (env.clock (plan_init env st0 s g).clock_reads)
        ((g.sub s).squaredNorm / 4) { stl with clock_reads := stl.clock_reads + 1 } =
          .ok (brk, stl') →
      Relation.ReflTransGen RecordStep stl stl' ∧
      (stl'.nodes_pool_ goal_node_).cost_from_start ≤
        (stl.nodes_pool_ goal_node_).cost_from_start) ∧
    (∀ stl, Inv env s g stl →
      (∀ t0 csq x_new new_node st',
        new_node < stl.valid_tree_node_nums_ → new_node ≠ goal_node_ →
        (stl.nodes_pool_ new_node).x = x_new →
        connectGoal env fuel t0 csq x_new new_node stl = .ok st' → RecordStep stl st') ∧
      (∀ t0 csq new_node curr_node st',
        new_node < stl.valid_tree_node_nums_ → new_node ≠ goal_node_ →
        curr_node < stl.valid_tree_node_nums_ → curr_node ≠ goal_node_ →
        rewireStep env fuel t0 csq new_node curr_node stl = .ok st' →
        RecordStep stl st' ∧
        ((st'.nodes_pool_ goal_node_).cost_from_start <
            (stl.nodes_pool_ goal_node_).cost_from_start →
          Anc stl.nodes_pool_ curr_node goal_node_))) := by
  refine ⟨?_, ?_, ?_⟩
  · rcases plan_result henv hc hfuel h with ⟨_, hst, _⟩ | ⟨_, _, _, hinv, _⟩
    · rw [hst]
      simp [getSolutions, reset]
    · have hd : ((getSolutions st).map Prod.fst).Pairwise (fun c d => d < c) := hinv.hist_desc
      exact hd.imp (fun hlt => le_of_lt hlt)
  · intro stl brk stl' hr hcap hit
    have hinv := planReach_inv henv hc hfuel hr
    have hinv1 : Inv env s g { stl with clock_reads := stl.clock_reads + 1 } :=
      hinv.of_fields_eq rfl rfl rfl rfl rfl rfl rfl
    obtain ⟨b2, st2, hit2, _, _, _, _, hle, hsteps⟩ :=
      @iteration_inv K _ env henv s g _ fuel (env.clock (plan_init env st0 s g).clock_reads)
        ((g.sub s).squaredNorm / 4) hinv1 hcap hfuel
    rw [hit] at hit2
    have hst : stl' = st2 := congrArg Prod.snd (Except.ok.inj hit2)
    rw [hst]
    have hstep0 : RecordStep stl { stl with clock_reads := stl.clock_reads + 1 } :=
      RecordStep.same rfl rfl
    exact ⟨Relation.ReflTransGen.head hstep0 hsteps, hle⟩
  · intro stl hinv
    have hfl : stl.valid_tree_node_nums_ ≤ fuel := le_trans hinv.cap hfuel
    refine ⟨?_, ?_⟩
    · intro t0 csq x_new new_node st' hnew hnew0 hx hrun
      obtain ⟨st2, hrun2, _, hrec, _⟩ :=
        @connectGoal_inv K _ env henv s g stl fuel t0 csq x_new new_node hinv hnew hnew0 hx hfl
      rw [hrun] at hrun2
      rw [Except.ok.inj hrun2]
      exact hrec
    · intro t0 csq new_node curr_node st' hnew hnew0 hcurr hcurr0 hrun
      obtain ⟨st2, hrun2, _, hrec, _, _, _, _, _, hanc⟩ :=
        @rewireStep_inv K _ env henv s g stl fuel t0 csq new_node curr_node hinv hnew hnew0
          hcurr hcurr0 hfl
      rw [hrun] at hrun2
      rw [Except.ok.inj hrun2]
      exact ⟨hrec, hanc⟩

/-- Witness of C4 in the small world: the run records two solutions, the second cheaper. -/
theorem c4_monotone_improvement_witness :
    ∃ st, plan demoEnv 10 RRTStar.init ⟨0, 0, 0⟩ ⟨6, 0, 4⟩ = .ok (true, st) ∧
      (getSolutions st).map Prod.fst = [14, 10] ∧
      ((getSolutions st).map Prod.fst).Pairwise (fun c d => d ≤ c) := by
  obtain ⟨st, h, hsol, hval⟩ := demo_run
  exact ⟨st, h, hsol, (c4_monotone_improvement demoEnv_ok init_clean (by decide) h).1⟩

/-- C5: `plan` returns `true` exactly when the solution list is non-empty at return; when it
returns `true`, `getPath()` is non-empty, starts with the start state, ends with the goal
state and is the chain of states along the parent links of the goal, start first; when it
returns `false`, `getPath()` is empty. -/
theorem c5_plan_result {env : Env K} (henv : EnvOK env) {st0 : RRTStar K} (hc : Clean st0)
    {fuel : Nat} (hfuel : env.max_tree_node_nums_ ≤ fuel) {s g : Vec3 K} {b : Bool}
    {st : RRTStar K} (h : plan env fuel st0 s g = .ok (b, st)) :
    (b = true ↔ getSolutions st ≠ []) ∧
    (b = true → getPath st ≠ [] ∧ (getPath st).head? = some s ∧
      (getPath st).getLast? = some g ∧
      ∃ k, ancestorAt st.nodes_pool_ k goal_node_ = some start_node_ ∧
        getPath st = (upStates st.nodes_pool_ k goal_node_).reverse) ∧
    (b = false → getPath st = []) := by
  rcases plan_result henv hc hfuel h with ⟨hb, hst, _⟩ | ⟨_, _, _, hinv, hb, hfalse, htrue⟩
  · subst hb
    subst hst
    simp [getSolutions, getPath, reset]
  · refine ⟨?_, ?_, hfalse⟩
    · rw [hb]
      exact hinv.hist_iff
    · intro hbt
      obtain ⟨k, _, hk, hfp⟩ := htrue hbt
      have hsx : (st.nodes_pool_ start_node_).x = s := hinv.start_x
      have hgx : (st.nodes_pool_ goal_node_).x = g := hinv.goal_x
      unfold getPath
      rw [hfp]
      refine ⟨?_, ?_, ?_, k, hk, rfl⟩
      · simpa using upStates_ne_nil st.nodes_pool_ k goal_node_
      · rw [List.head?_reverse, upStates_getLast k _ _ hk, hsx]
      · rw [List.getLast?_reverse, upStates_head, hgx]

/-- Witness of C5 in the small world: `plan` returns `true` with a path from start to goal. -/
theorem c5_plan_result_witness :
    ∃ st, plan demoEnv 10 RRTStar.init ⟨0, 0, 0⟩ ⟨6, 0, 4⟩ = .ok (true, st) ∧
      getSolutions st ≠ [] ∧ (getPath st).head? = some ⟨0, 0, 0⟩ ∧
      (getPath st).getLast? = some ⟨6, 0, 4⟩ := by
  obtain ⟨st, h, hsol, hval⟩ := demo_run
  have hw := c5_plan_result demoEnv_ok init_clean (by decide) h
  exact ⟨st, h, hw.1.1 rfl, (hw.2.1 rfl).2.1, (hw.2.1 rfl).2.2.1⟩

/-- Counterexample to C6 as stated: start `(0,0,0)` and goal `(3,4,0)` are valid, five apart
with a steer length of five, joined by a valid segment, the capacity is two, and `plan`
returns `false` with an empty path whatever the fuel. -/
theorem c6_counterexample :
    capTwoEnv.isStateValid ⟨0, 0, 0⟩ = true ∧ capTwoEnv.isStateValid ⟨3, 4, 0⟩ = true ∧
    calDist capTwoEnv ⟨0, 0, 0⟩ ⟨3, 4, 0⟩ ≤ capTwoEnv.steer_length_ ∧
    capTwoEnv.isSegmentValid ⟨0, 0, 0⟩ ⟨3, 4, 0⟩ = true ∧
    capTwoEnv.max_tree_node_nums_ = 2 ∧
    ∀ fuel, ∃ st, plan capTwoEnv fuel RRTStar.init ⟨0, 0, 0⟩ ⟨3, 4, 0⟩ = .ok (false, st) ∧
      getPath st = [] := by
  refine ⟨rfl, rfl, by decide!, by decide!, rfl, ?_⟩
  intro fuel
  obtain ⟨st, hrun, hp, _⟩ :=
    plan_capacity_two capTwoEnv fuel RRTStar.init ⟨0, 0, 0⟩ ⟨3, 4, 0⟩ rfl rfl rfl
  exact ⟨st, hrun, hp⟩

/-- C6, amended: for every valid start and goal, with `max_tree_node_nums = 2` the planning
loop is never entered: `plan` returns `false` for any fuel, `getPath()`, `getAllPaths()` and
`getSolutions()` are empty, two slots are in use and no sample was drawn. -/
theorem c6_capacity_two (env : Env K) (fuel : Nat) (st0 : RRTStar K) (s g : Vec3 K)
    (hs : env.isStateValid s = true) (hg : env.isStateValid g = true)
    (hmax : env.max_tree_node_nums_ = 2) :
    ∃ st, plan env fuel st0 s g = .ok (false, st) ∧ getPath st = [] ∧ getAllPaths st = [] ∧
      getSolutions st = [] ∧ st.valid_tree_node_nums_ = 2 ∧
      st.sampler_draws = st0.sampler_draws := by
  obtain ⟨st, h1, h2, h3, h4, h5, h6, _⟩ := plan_capacity_two env fuel st0 s g hs hg hmax
  exact ⟨st, h1, h2, h3, h4, h5, h6⟩

/-- Witness of C6 (amended) in the small world with capacity two and no fuel at all. -/
theorem c6_capacity_two_witness :
    ∃ st, plan capTwoEnv 0 RRTStar.init ⟨0, 0, 0⟩ ⟨3, 4, 0⟩ = .ok (false, st) ∧
      getPath st = [] ∧ getAllPaths st = [] ∧ getSolutions st = [] ∧
      st.valid_tree_node_nums_ = 2 ∧ st.sampler_draws = 0 :=
  c6_capacity_two capTwoEnv 0 RRTStar.init ⟨0, 0, 0⟩ ⟨3, 4, 0⟩ rfl rfl rfl

theorem rejectEnv_rejects (capacity : Nat) (k : Nat) :
    (rejectEnv capacity).isStateValid ((rejectEnv capacity).samples k) = false := by
  rcases k with _ | _ | k
  · show (decide ((⟨3, 4, 0⟩ : Vec3 ℚ) = ⟨0, 0, 0⟩) ||
      decide ((⟨3, 4, 0⟩ : Vec3 ℚ) = ⟨6, 0, 4⟩)) = false
    decide!
  · show (decide ((⟨6, 0, 0⟩ : Vec3 ℚ) = ⟨0, 0, 0⟩) ||
      decide ((⟨6, 0, 0⟩ : Vec3 ℚ) = ⟨6, 0, 4⟩)) = false
    decide!
  · show (decide ((⟨3, 0, 0⟩ : Vec3 ℚ) = ⟨0, 0, 0⟩) ||
      decide ((⟨3, 0, 0⟩ : Vec3 ℚ) = ⟨6, 0, 4⟩)) = false
    decide!

/-- Counterexample to C7 as stated: start and goal are valid, every sample is rejected, the
capacity is two, and the loop ends at the first test of its guard (the clock was read twice:
start time and one guard) although the elapsed second is within the budget of three: it
ended through the capacity test, not through the elapsed-time test. -/
theorem c7_counterexample :
    (rejectEnv 2).isStateValid ⟨0, 0, 0⟩ = true ∧ (rejectEnv 2).isStateValid ⟨6, 0, 4⟩ = true ∧
    (∀ k, (rejectEnv 2).isStateValid ((rejectEnv 2).samples k) = false) ∧
    ∃ st, plan (rejectEnv 2) 5 RRTStar.init ⟨0, 0, 0⟩ ⟨6, 0, 4⟩ = .ok (false, st) ∧
      st.clock_reads = 2 ∧
      (rejectEnv 2).clock 1 - (rejectEnv 2).clock 0 < (rejectEnv 2).search_time_ := by
  refine ⟨by decide!, by decide!, rejectEnv_rejects 2, ?_⟩
  obtain ⟨st, hrun, _, _, _, _, _, hcr⟩ :=
    plan_capacity_two (rejectEnv 2) 5 RRTStar.init ⟨0, 0, 0⟩ ⟨6, 0, 4⟩ (by decide!) (by decide!) rfl
  exact ⟨st, hrun, hcr, by decide!⟩

/-- C7, amended: if start and goal are valid, the capacity is at least two and the occupancy
map rejects every sampled point, then every pass through the loop body only draws a sample:
no node is inserted and the tree is not touched (two slots stay in use, the pool is the one
`plan` set up); once a guard reading of the clock is past the budget `plan` returns `false`
with `getPath()`, `getAllPaths()` and `getSolutions()` empty; and when the capacity exceeds
two the loop ended through the elapsed-time test (with capacity two it is never entered). -/
theorem c7_budget_exhaustion (env : Env K) (fuel n : Nat) (st0 : RRTStar K) (s g : Vec3 K)
    (hs : env.isStateValid s = true) (hg : env.isStateValid g = true)
    (hmax : 2 ≤ env.max_tree_node_nums_)
    (hrej : ∀ k, env.isStateValid (env.samples k) = false) (hn : n ≤ fuel)
    (hclock : env.search_time_ ≤
      env.clock (st0.clock_reads + 1 + n) - env.clock st0.clock_reads) :
    (∀ t0 csq stl, iteration env fuel t0 csq stl =
      .ok (false, { stl with sampler_draws := stl.sampler_draws + 1 })) ∧
    ∃ st, plan env fuel st0 s g = .ok (false, st) ∧ getPath st = [] ∧ getAllPaths st = [] ∧
      getSolutions st = [] ∧ st.valid_tree_node_nums_ = 2 ∧
      st.nodes_pool_ = (plan_init env st0 s g).nodes_pool_ ∧
      (2 < env.max_tree_node_nums_ →
        env.search_time_ ≤ env.clock (st.clock_reads - 1) - env.clock st0.clock_reads) := by
  refine ⟨fun t0 csq stl => iteration_rejected fuel t0 csq stl (hrej _), ?_⟩
  obtain ⟨hv, hp, hf, hpl, hsol, hcr, hsd⟩ := plan_init_fields env st0 s g
  rw [plan_valid_unfold env fuel st0 s g hs hg hmax]
  unfold rrt_star
  simp only
  obtain ⟨st', hrun, h1, h2, h3, h4, h5, h6, h7⟩ :=
    rrt_loop_rejected fuel (env.clock (plan_init env st0 s g).clock_reads)
      ((g.sub s).squaredNorm / 4) hrej fuel n (rrt_star_init (plan_init env st0 s g)) hn
      (by simpa [rrt_star_init, hcr] using hclock)
  rw [hrun]
  have hgf : st'.goal_found = false := h3
  simp only [hgf, Bool.false_eq_true, if_false]
  refine ⟨st', rfl, ?_, ?_, ?_, ?_, h1, ?_⟩
  · exact h4.trans hf
  · exact h5.trans hpl
  · exact h6.trans hsol
  · exact h2.trans hv
  · intro hlt
    have := h7 (by simpa [rrt_star_init, hv] using hlt)
    rwa [hcr] at this

/-- Witness of C7 (amended): capacity five, a budget of three seconds and a clock that ticks
once per reading; the third guard reading is past the budget. -/
theorem c7_budget_exhaustion_witness :
    ∃ st, plan (rejectEnv 5) 5 RRTStar.init ⟨0, 0, 0⟩ ⟨6, 0, 4⟩ = .ok (false, st) ∧
      getPath st = [] ∧ getSolutions st = [] ∧ st.valid_tree_node_nums_ = 2 := by
  obtain ⟨st, h1, h2, _, h4, h5, _⟩ :=
    (c7_budget_exhaustion (rejectEnv 5) 5 2 RRTStar.init ⟨0, 0, 0⟩ ⟨6, 0, 4⟩
      (by decide!) (by decide!) (by decide) (rejectEnv_rejects 5) (by decide) (by decide!)).2
  exact ⟨st, h1, h2, h4, h5⟩

/-- C8: if the start or the goal is invalid, `plan` returns `false` at once, for any fuel:
the state returned is the state after `reset()`, in which `getPath()`, `getAllPaths()` and
`getSolutions()` are empty whatever they held before, no slot is in use, and neither the
clock nor the sampler was consulted. -/
theorem c8_invalid_endpoints (env : Env K) (fuel : Nat) (st0 : RRTStar K) (s g : Vec3 K)
    (hbad : env.isStateValid s = false ∨ env.isStateValid g = false) :
    plan env fuel st0 s g = .ok (false, reset st0) ∧
    getPath (reset st0) = [] ∧ getAllPaths (reset st0) = [] ∧ getSolutions (reset st0) = [] ∧
    (reset st0).valid_tree_node_nums_ = 0 ∧
    (reset st0).clock_reads = st0.clock_reads ∧
    (reset st0).sampler_draws = st0.sampler_draws := by
  refine ⟨?_, rfl, rfl, rfl, rfl, rfl, rfl⟩
  unfold plan
  rcases hbad with h | h
  · simp [h]
  · by_cases hs : env.isStateValid s = true
    · simp [hs, h]
    · simp [hs]

/-- Witness of C8: an invalid start, on a planner whose outputs are not empty. -/
theorem c8_invalid_endpoints_witness :
    plan (rejectEnv 5) 0
        { (RRTStar.init : RRTStar ℚ) with
          final_path_ := [⟨1, 1, 1⟩], path_list_ := [[⟨1, 1, 1⟩]],
          solution_cost_time_pair_list_ := [(1, 1)] } ⟨1, 1, 1⟩ ⟨6, 0, 4⟩ =
      .ok (false, reset { (RRTStar.init : RRTStar ℚ) with
          final_path_ := [⟨1, 1, 1⟩], path_list_ := [[⟨1, 1, 1⟩]],
          solution_cost_time_pair_list_ := [(1, 1)] }) :=
  (c8_invalid_endpoints (rejectEnv 5) 0 _ ⟨1, 1, 1⟩ ⟨6, 0, 4⟩ (Or.inl (by decide!))).1

/-- C10: for a node `n` in use whose parent links lead in `k` steps to the start node, in a
pool where the start has no parent and parents are slots in use: `k` is less than the number
of slots in use, and with any fuel of at least `k` steps (the number of slots in use is
enough) `fillPath(n)` returns the `k + 1` states of the chain ordered from the start to `n`:
entry `j` is the state of the node `k - j` links above `n`, the first entry is the state of
the start and the last is the state of `n`. -/
theorem c10_fillPath (pool : Pool K) (valid n k : Nat)
    (hlive : ∀ i p, (pool i).parent = some p → p < valid) (hn : n < valid)
    (hroot : (pool start_node_).parent = none)
    (hchain : ancestorAt pool k n = some start_node_) :
    k < valid ∧
    ∀ fuel, k ≤ fuel →
      ∃ path, fillPath fuel pool n = .ok path ∧ path.length = k + 1 ∧
        (∀ j, j ≤ k → ∃ v, ancestorAt pool (k - j) n = some v ∧ path[j]? = some (pool v).x) ∧
        path.head? = some (pool start_node_).x ∧ path.getLast? = some (pool n).x := by
  refine ⟨depth_lt_valid hlive hn hroot hchain, ?_⟩
  intro fuel hk
  have hlen := upStates_length k n _ hchain
  refine ⟨_, fillPath_spec hroot hchain hk, by simpa using hlen, ?_, ?_, ?_⟩
  · intro j hj
    obtain ⟨v, hv⟩ := ancestorAt_of_le hchain (k - j) (by omega)
    refine ⟨v, hv, ?_⟩
    rw [List.getElem?_reverse (by omega), hlen, upStates_get k n _ hchain _ (by omega)]
    have : k + 1 - 1 - j = k - j := by omega
    rw [this, hv]
    rfl
  · rw [List.head?_reverse, upStates_getLast k n _ hchain]
  · rw [List.getLast?_reverse, upStates_head]

theorem chainPool_live (i p : Nat) (h : (chainPool i).parent = some p) : p < 3 := by
  rcases i with _ | _ | _ | i
  · simp [chainPool] at h; omega
  · simp [chainPool] at h
  · simp [chainPool] at h; omega
  · simp [chainPool] at h

/-- Witness of C10 on a chain of three nodes: start, one node, goal. -/
theorem c10_fillPath_witness :
    2 < 3 ∧ ∀ fuel, 2 ≤ fuel →
      ∃ path, fillPath fuel chainPool goal_node_ = .ok path ∧ path.length = 3 ∧
        path.head? = some ⟨0, 0, 0⟩ ∧ path.getLast? = some ⟨2, 0, 0⟩ := by
  have hw := c10_fillPath chainPool 3 goal_node_ 2 chainPool_live (by decide) rfl rfl
  refine ⟨hw.1, fun fuel hf => ?_⟩
  obtain ⟨path, h1, h2, _, h4, h5⟩ := hw.2 fuel hf
  exact ⟨path, h1, h2, h4, h5⟩

/-- Counterexample to C11 as stated: with two slots in use in a pool of two, `addTreeNode`
does not return at all (neither a node nor "no node"): it reads slot 2 of a two-slot pool. -/
theorem c11_counterexample :
    (plan_init capTwoEnv RRTStar.init ⟨0, 0, 0⟩ ⟨6, 0, 4⟩).valid_tree_node_nums_ =
      capTwoEnv.max_tree_node_nums_ ∧
    addTreeNode capTwoEnv (plan_init capTwoEnv RRTStar.init ⟨0, 0, 0⟩ ⟨6, 0, 4⟩)
      start_node_ ⟨1, 0, 0⟩ 1 1 = .error .outOfBounds ∧
    ∀ r, addTreeNode capTwoEnv (plan_init capTwoEnv RRTStar.init ⟨0, 0, 0⟩ ⟨6, 0, 4⟩)
      start_node_ ⟨1, 0, 0⟩ 1 1 ≠ .ok r := by
  have h : addTreeNode capTwoEnv (plan_init capTwoEnv RRTStar.init ⟨0, 0, 0⟩ ⟨6, 0, 4⟩)
      start_node_ ⟨1, 0, 0⟩ 1 1 = .error .outOfBounds := rfl
  refine ⟨rfl, h, ?_⟩
  intro r hr
  rw [h] at hr
  cases hr

/-- C11, amended: `addTreeNode` has no failure path.  Called with the count of slots in use
at the capacity it reads a slot outside the pool; called with the count below the capacity
it claims the slot whose number is the count, sets its parent to `parent`, appends it to the
children of `parent`, stores state, cost from start and cost from parent in it, raises the
count by exactly one, leaves every other slot and every other field of the planner alone,
and returns the slot. -/
theorem c11_addTreeNode (env : Env K) (st : RRTStar K) (parent : Nat) (state : Vec3 K)
    (cost_from_start cost_from_parent : K) :
    (env.max_tree_node_nums_ ≤ st.valid_tree_node_nums_ →
      addTreeNode env st parent state cost_from_start cost_from_parent =
        .error .outOfBounds) ∧
    (st.valid_tree_node_nums_ < env.max_tree_node_nums_ →
      ∃ pool', addTreeNode env st parent state cost_from_start cost_from_parent =
          .ok (st.valid_tree_node_nums_,
            { st with valid_tree_node_nums_ := st.valid_tree_node_nums_ + 1,
                      nodes_pool_ := pool' }) ∧
        (pool' st.valid_tree_node_nums_).parent = some parent ∧
        (pool' st.valid_tree_node_nums_).x = state ∧
        (pool' st.valid_tree_node_nums_).cost_from_start = cost_from_start ∧
        (pool' st.valid_tree_node_nums_).cost_from_parent = cost_from_parent ∧
        (pool' parent).children = (st.nodes_pool_ parent).children ++ [st.valid_tree_node_nums_] ∧
        (∀ m, m ≠ st.valid_tree_node_nums_ → m ≠ parent → pool' m = st.nodes_pool_ m) ∧
        (parent ≠ st.valid_tree_node_nums_ →
          (pool' parent).parent = (st.nodes_pool_ parent).parent ∧
          (pool' parent).x = (st.nodes_pool_ parent).x ∧
          (pool' parent).cost_from_start = (st.nodes_pool_ parent).cost_from_start ∧
          (pool' parent).cost_from_parent = (st.nodes_pool_ parent).cost_from_parent ∧
          (pool' st.valid_tree_node_nums_).children =
            (st.nodes_pool_ st.valid_tree_node_nums_).children)) := by
  constructor
  · intro hfull
    unfold addTreeNode
    rw [if_neg (by omega)]
  · intro hcap
    refine ⟨_, by unfold addTreeNode; rw [if_pos hcap], ?_, ?_, ?_, ?_, ?_, ?_, ?_⟩
    · by_cases hp : st.valid_tree_node_nums_ = parent <;> simp [Pool.modify_apply, hp]
    · by_cases hp : st.valid_tree_node_nums_ = parent <;> simp [Pool.modify_apply, hp]
    · by_cases hp : st.valid_tree_node_nums_ = parent <;> simp [Pool.modify_apply, hp]
    · by_cases hp : st.valid_tree_node_nums_ = parent <;> simp [Pool.modify_apply, hp]
    · by_cases hp : parent = st.valid_tree_node_nums_
      · simp [Pool.modify_apply, hp]
      · simp [Pool.modify_apply, hp]
    · intro m hm hmp
      simp [Pool.modify_apply, hm, hmp]
    · intro hp
      simp [Pool.modify_apply, hp, Ne.symm hp]

/-- Witness of C11 (amended): the first insertion of a run, below the start, in a pool of
five slots with two in use. -/
theorem c11_addTreeNode_witness :
    ∃ pool', addTreeNode demoEnv (plan_init demoEnv RRTStar.init ⟨0, 0, 0⟩ ⟨6, 0, 4⟩)
        start_node_ ⟨3, 4, 0⟩ 5 5 =
        .ok (2, { plan_init demoEnv RRTStar.init ⟨0, 0, 0⟩ ⟨6, 0, 4⟩ with
                  valid_tree_node_nums_ := 3, nodes_pool_ := pool' }) ∧
      (pool' 2).parent = some start_node_ ∧ (pool' 2).x = ⟨3, 4, 0⟩ ∧
      (pool' start_node_).children = [2] := by
  obtain ⟨pool', h1, h2, h3, _, _, h6, _⟩ :=
    (c11_addTreeNode demoEnv (plan_init demoEnv RRTStar.init ⟨0, 0, 0⟩ ⟨6, 0, 4⟩)
      start_node_ ⟨3, 4, 0⟩ 5 5).2 (by decide)
  exact ⟨pool', h1, h2, h3, h6⟩

/-- C12: for a capacity of at least two, in a call of `plan` the count of slots in use is
between two and the capacity in every state of the planning loop and at most the capacity at
return; a pass through the loop body never lowers the count and raises it by at most one; in
every state in which the guard of the loop is open the count is below the capacity, so the
slot `addTreeNode` claims lies inside the pool, as do slots 0 and 1; and `plan` never reads
outside the pool: its only fault is the exhaustion of the fuel. -/
theorem c12_capacity {env : Env K} (henv : EnvOK env) {st0 : RRTStar K} (hc : Clean st0)
    {fuel : Nat} (hfuel : env.max_tree_node_nums_ ≤ fuel) (hmax : 2 ≤ env.max_tree_node_nums_)
    (s g : Vec3 K) :
    plan env fuel st0 s g ≠ .error .outOfBounds ∧
    (∀ b st, plan env fuel st0 s g = .ok (b, st) →
      st.valid_tree_node_nums_ ≤ env.max_tree_node_nums_) ∧
    (∀ stl, PlanReach env fuel st0 s g stl →
      2 ≤ stl.valid_tree_node_nums_ ∧ stl.valid_tree_node_nums_ ≤ env.max_tree_node_nums_ ∧
      goal_node_ < env.max_tree_node_nums_ ∧ start_node_ < env.max_tree_node_nums_) ∧
    (∀ stl, PlanReach env fuel st0 s g stl →
      stl.valid_tree_node_nums_ < env.max_tree_node_nums_ →
      (∀ parent state cfs cfp, ∃ st',
        addTreeNode env stl parent state cfs cfp = .ok (stl.valid_tree_node_nums_, st') ∧
        st'.valid_tree_node_nums_ = stl.valid_tree_node_nums_ + 1) ∧
      ∃ brk stl',
        iteration env fuel (env.clock (plan_init env st0 s g).clock_reads)
          ((g.sub s).squaredNorm / 4) { stl with clock_reads := stl.clock_reads + 1 } =
            .ok (brk, stl') ∧
        stl.valid_tree_node_nums_ ≤ stl'.valid_tree_node_nums_ ∧
        stl'.valid_tree_node_nums_ ≤ stl.valid_tree_node_nums_ + 1) := by
  refine ⟨?_, ?_, ?_, ?_⟩
  · intro h
    have := plan_error henv hc hfuel hmax h
    cases this
  · intro b st h
    rcases plan_result henv hc hfuel h with ⟨_, hst, _⟩ | ⟨_, _, _, hinv, _⟩
    · rw [hst]; exact Nat.zero_le _
    · exact hinv.cap
  · intro stl hr
    have hinv := planReach_inv henv hc hfuel hr
    refine ⟨hinv.tree.two_le, hinv.cap, ?_, ?_⟩
    · simp only [goal_node_]; omega
    · simp only [start_node_]; omega
  · intro stl hr hcap
    have hinv := planReach_inv henv hc hfuel hr
    refine ⟨?_, ?_⟩
    · intro parent state cfs cfp
      obtain ⟨pool', hrun⟩ := addTreeNode_ok env stl parent state cfs cfp hcap
      exact ⟨_, hrun, rfl⟩
    · have hinv1 : Inv env s g { stl with clock_reads := stl.clock_reads + 1 } :=
        hinv.of_fields_eq rfl rfl rfl rfl rfl rfl rfl
      obtain ⟨b, st2, hit, _, _, hlo, hhi, _⟩ :=
        @iteration_inv K _ env henv s g _ fuel (env.clock (plan_init env st0 s g).clock_reads)
          ((g.sub s).squaredNorm / 4) hinv1 hcap hfuel
      exact ⟨b, st2, hit, hlo, hhi⟩

/-- Witness of C12 in the small world (capacity five). -/
theorem c12_capacity_witness :
    plan demoEnv 10 RRTStar.init ⟨0, 0, 0⟩ ⟨6, 0, 4⟩ ≠ .error .outOfBounds ∧
    ∀ b st, plan demoEnv 10 RRTStar.init ⟨0, 0, 0⟩ ⟨6, 0, 4⟩ = .ok (b, st) →
      st.valid_tree_node_nums_ ≤ 5 :=
  ⟨(c12_capacity demoEnv_ok init_clean (by decide) (by decide) ⟨0, 0, 0⟩ ⟨6, 0, 4⟩).1,
   (c12_capacity demoEnv_ok init_clean (by decide) (by decide) ⟨0, 0, 0⟩ ⟨6, 0, 4⟩).2.1⟩

/-- C13, amended: for every pool whose linked nodes are slots in use, whose children lists hold
exactly the nodes whose parent is the owner, each once, and whose costs are consistent, for
every node in use and every new parent outside the subtree of the node (the node itself
belongs to its subtree), `changeNodeParent(node, new_parent, c)` returns with fuel for the
slots in use, and afterwards the cost from start of the node is the cost of the new parent
plus `c`, that of every node of the subtree has changed by the same amount as the node's,
that of every node outside the subtree is unchanged, and the costs are consistent again. -/
theorem c13_subtree_propagation (pool : Pool K) (valid node new_parent fuel : Nat) (c : K)
    (hlive : ∀ i p, (pool i).parent = some p → i < valid)
    (hch : ∀ p k, k ∈ (pool p).children ↔ (pool k).parent = some p)
    (hnd : ∀ p, (pool p).children.Nodup)
    (hcost : ∀ i p, (pool i).parent = some p →
      (pool i).cost_from_start = (pool p).cost_from_start + (pool i).cost_from_parent)
    (hnode : node < valid) (hout : ¬ Anc pool node new_parent) (hfuel : valid ≤ fuel) :
    ∃ pool', changeNodeParent fuel pool node new_parent c = .ok pool' ∧
      (pool' node).parent = some new_parent ∧
      (pool' new_parent).cost_from_start = (pool new_parent).cost_from_start ∧
      (pool' node).cost_from_start = (pool' new_parent).cost_from_start + c ∧
      (∀ m, Anc pool node m →
        (pool' m).cost_from_start - (pool m).cost_from_start =
          (pool' node).cost_from_start - (pool node).cost_from_start) ∧
      (∀ m, ¬ Anc pool node m → (pool' m).cost_from_start = (pool m).cost_from_start) ∧
      (∀ m p, (pool' m).parent = some p →
        (pool' m).cost_from_start = (pool' p).cost_from_start + (pool' m).cost_from_parent) := by
  obtain ⟨pool', hrun, _, hpar, _, _, _, hcons, hdesc, hout'⟩ :=
    changeNodeParent_costs c hlive hch hnd hcost hnode hout hfuel
  have hnp := hout' new_parent hout
  have hn := hdesc node Anc.refl
  refine ⟨pool', hrun, by rw [hpar, if_pos rfl], hnp, ?_, ?_, hout', hcons⟩
  · rw [hn, hnp]; ring
  · intro m hm
    rw [hdesc m hm, hn]; ring

/-- The pool `propPool` with six slots in use is well formed: links only among slots in use,
children lists that mirror the parent links without duplicates, consistent costs. -/
theorem propPool_wf :
    (∀ i p, (propPool i).parent = some p → i < 6) ∧
    (∀ p k, k ∈ (propPool p).children ↔ (propPool k).parent = some p) ∧
    (∀ p, (propPool p).children.Nodup) ∧
    (∀ i p, (propPool i).parent = some p →
      (propPool i).cost_from_start =
        (propPool p).cost_from_start + (propPool i).cost_from_parent) := by
  refine ⟨?_, ?_, ?_, ?_⟩
  · intro i p hp
    rcases i with _ | _ | _ | _ | _ | _ | i <;> simp [propPool] at hp <;> omega
  · intro p k
    rcases p with _ | _ | _ | _ | _ | _ | p <;>
      rcases k with _ | _ | _ | _ | _ | _ | k <;> simp [propPool]
  · intro p
    rcases p with _ | _ | _ | _ | _ | _ | p <;> simp [propPool]
  · intro i p hp
    rcases i with _ | _ | _ | _ | _ | _ | i <;> simp [propPool] at hp <;>
      subst hp <;> simp [propPool] <;> norm_num

/-- In `propPool` the slots 5, 2 and 1 are outside the subtree of slot 3. -/
theorem propPool_not_below (m : Nat) (h : Anc propPool 3 m) (hm : m = 5 ∨ m = 2 ∨ m = 1) :
    False := by
  induction h with
  | refl => omega
  | @step m p hp _ ih =>
    rcases hm with rfl | rfl | rfl
    · simp only [propPool, Option.some.injEq] at hp
      exact ih (Or.inr (Or.inr hp.symm))
    · simp only [propPool, Option.some.injEq] at hp
      exact ih (Or.inr (Or.inr hp.symm))
    · simp [propPool] at hp

/-- Witness of C13 (amended) on a tree of depth three: slot 3 (cost 7, with slot 4 at cost 10 below
it) is moved from slot 2 onto slot 5 (cost 1) with edge cost 1; slot 3 ends at cost 2, slot
4 at cost 5, and slot 2 keeps its cost 5. -/
theorem c13_subtree_propagation_witness :
    ∃ pool', changeNodeParent 6 propPool 3 5 (1 : ℚ) = .ok pool' ∧
      (pool' 3).cost_from_start = 2 ∧ (pool' 4).cost_from_start = 5 ∧
      (pool' 2).cost_from_start = 5 := by
  obtain ⟨pool', hrun, _, h5, h3, hdesc, hout, _⟩ :=
    c13_subtree_propagation propPool 6 3 5 6 (1 : ℚ) propPool_wf.1 propPool_wf.2.1
      propPool_wf.2.2.1 propPool_wf.2.2.2 (by decide)
      (fun h => propPool_not_below 5 h (Or.inl rfl)) (le_refl _)
  have c5 : (propPool 5).cost_from_start = 1 := rfl
  have c3 : (propPool 3).cost_from_start = 7 := rfl
  have c4 : (propPool 4).cost_from_start = 10 := rfl
  have c2 : (propPool 2).cost_from_start = 5 := rfl
  have h3' : (pool' 3).cost_from_start = 2 := by rw [h3, h5, c5]; norm_num
  have h4 := hdesc 4 (Anc.step (show (propPool 4).parent = some 3 from rfl) Anc.refl)
  rw [h3', c3, c4] at h4
  have h2 := hout 2 (fun h => propPool_not_below 2 h (Or.inr (Or.inl rfl)))
  refine ⟨pool', hrun, h3', ?_, by rw [h2, c2]⟩
  linarith

/-- C14: in a call `plan(s, g)` made on a planner whose slots beyond the count carry no
link, the children list of every slot (in use or not) holds exactly the slots in use whose
parent is that slot, each once, after `reset`, after the setup of start and goal, in every
state the planning loop passes through and in the state `plan` returns; and each mutation
keeps the property on its own: `addTreeNode` whenever it returns, and `changeNodeParent`
whenever it returns for a node in use. -/
theorem c14_children_exact {env : Env K} (henv : EnvOK env) {st0 : RRTStar K} (hc : Clean st0)
    {fuel : Nat} (hfuel : env.max_tree_node_nums_ ≤ fuel) {s g : Vec3 K} {b : Bool}
    {st : RRTStar K} (h : plan env fuel st0 s g = .ok (b, st)) :
    ChildrenExact (reset st0) ∧
    ChildrenExact (plan_init env st0 s g) ∧
    (∀ stl, PlanReach env fuel st0 s g stl → ChildrenExact stl) ∧
    ChildrenExact st ∧
    (∀ (stl : RRTStar K), ChildrenExact stl →
      (∀ par x cfs cfp n st',
        addTreeNode env stl par x cfs cfp = .ok (n, st') → ChildrenExact st') ∧
      (∀ fl node new_parent c pool', node < stl.valid_tree_node_nums_ →
        changeNodeParent fl stl.nodes_pool_ node new_parent c = .ok pool' →
        ChildrenExact { stl with nodes_pool_ := pool' })) := by
  refine ⟨reset_childrenExact hc, plan_init_childrenExact env s g hc,
    fun stl hr => (planReach_inv henv hc hfuel hr).tree.childrenExact, ?_, ?_⟩
  · rcases plan_result henv hc hfuel h with ⟨_, hst, _⟩ | ⟨_, _, _, hinv, _⟩
    · rw [hst]
      exact reset_childrenExact hc
    · have ht : TreeInv env st.nodes_pool_ st.valid_tree_node_nums_ := hinv.tree
      exact ht.childrenExact
  · intro stl hex
    exact ⟨fun par x cfs cfp n st' hadd => addTreeNode_childrenExact hex hadd,
      fun fl node new_parent c pool' hnode hrun => changeNodeParent_childrenExact hex hnode hrun⟩

/-- Witness of C14 in the small world, whose run inserts three nodes and reparents twice. -/
theorem c14_children_exact_witness :
    ∃ st, plan demoEnv 10 RRTStar.init ⟨0, 0, 0⟩ ⟨6, 0, 4⟩ = .ok (true, st) ∧
      st.valid_tree_node_nums_ = 5 ∧ ChildrenExact st := by
  obtain ⟨st, h, hsol, hval⟩ := demo_run
  exact ⟨st, h, hval, (c14_children_exact demoEnv_ok init_clean (by decide) h).2.2.2.1⟩

/-- Counterexample to C13 as stated: in the well-formed tree `propPool` slot 3 is not a
descendant of itself (no positive number of parent links leads from slot 3 back to slot 3),
yet `changeNodeParent(3, 3, 1)` does not terminate: it runs out of every fuel. -/
theorem c13_counterexample :
    ((∀ i p, (propPool i).parent = some p → i < 6) ∧
      (∀ p k, k ∈ (propPool p).children ↔ (propPool k).parent = some p) ∧
      (∀ p, (propPool p).children.Nodup) ∧
      (∀ i p, (propPool i).parent = some p →
        (propPool i).cost_from_start =
          (propPool p).cost_from_start + (propPool i).cost_from_parent)) ∧
    (∀ k, 0 < k → ancestorAt propPool k 3 ≠ some 3) ∧
    ∀ fuel, changeNodeParent fuel propPool 3 3 (1 : ℚ) = .error .outOfFuel := by
  refine ⟨propPool_wf, ?_, ?_⟩
  · intro k hk
    rcases k with _ | _ | _ | k
    · omega
    · simp [ancestorAt, propPool]
    · simp [ancestorAt, propPool]
    · simp [ancestorAt, propPool]
  · intro fuel
    apply propagate_self_child 3 fuel _ [3] (by simp)
    rw [relink_children]
    simp

/-- C15: for every planner state reached from the constructed planner by a sequence of calls
of `plan`, in a further call `plan(s, g)` the state in which the planning loop is entered
has no parent and no children in any slot of the pool, two slots in use, cost 0 in the start
(slot 1), the unreached cost in the goal (slot 0), the goal not found, and empty path,
path list and solution list; with valid `s` and `g` and a capacity of at least two this is
the state in which `plan` enters the loop. -/
theorem c15_reset_between_calls {env : Env K} (henv : EnvOK env) {st0 : RRTStar K}
    (hr : Reachable env st0) (fuel : Nat) (s g : Vec3 K) :
    (∀ i, ((rrt_star_init (plan_init env st0 s g)).nodes_pool_ i).parent = none ∧
      ((rrt_star_init (plan_init env st0 s g)).nodes_pool_ i).children = []) ∧
    (∀ a i, ¬ (a ≠ i ∧ Anc (rrt_star_init (plan_init env st0 s g)).nodes_pool_ a i)) ∧
    (rrt_star_init (plan_init env st0 s g)).valid_tree_node_nums_ = 2 ∧
    ((rrt_star_init (plan_init env st0 s g)).nodes_pool_ start_node_).cost_from_start = 0 ∧
    ((rrt_star_init (plan_init env st0 s g)).nodes_pool_ goal_node_).cost_from_start = DBL_MAX ∧
    (rrt_star_init (plan_init env st0 s g)).goal_found = false ∧
    getPath (rrt_star_init (plan_init env st0 s g)) = [] ∧
    getAllPaths (rrt_star_init (plan_init env st0 s g)) = [] ∧
    getSolutions (rrt_star_init (plan_init env st0 s g)) = [] ∧
    (env.isStateValid s = true → env.isStateValid g = true → 2 ≤ env.max_tree_node_nums_ →
      PlanReach env fuel st0 s g (rrt_star_init (plan_init env st0 s g)) ∧
      plan env fuel st0 s g = rrt_star env fuel (plan_init env st0 s g) s g) := by
  have hc := hr.clean henv
  obtain ⟨hlinks, hs, hg, _, _⟩ := plan_init_unlinked env s g hc
  obtain ⟨hv, _, hf, hp, hsol, _, _⟩ := plan_init_fields env st0 s g
  refine ⟨hlinks, ?_, hv, hs, hg, rfl, hf, hp, hsol, ?_⟩
  · rintro a i ⟨hne, ha⟩
    cases ha with
    | refl => exact hne rfl
    | step hpar _ =>
      have := (hlinks i).1
      have e : (rrt_star_init (plan_init env st0 s g)).nodes_pool_ =
        (plan_init env st0 s g).nodes_pool_ := rfl
      rw [e, this] at hpar
      cases hpar
  · intro hsv hgv hmax
    exact ⟨⟨hsv, hgv, hmax, LoopReach.entry⟩, plan_valid_unfold env fuel st0 s g hsv hgv hmax⟩

/-- Witness of C15 in the small world: after a call that grew a tree of five nodes and found
the goal, the next call enters its loop with two slots in use and no link in any slot. -/
theorem c15_reset_between_calls_witness :
    ∃ st1, plan demoEnv 10 RRTStar.init ⟨0, 0, 0⟩ ⟨6, 0, 4⟩ = .ok (true, st1) ∧
      st1.valid_tree_node_nums_ = 5 ∧
      (rrt_star_init (plan_init demoEnv st1 ⟨0, 0, 0⟩ ⟨6, 0, 4⟩)).valid_tree_node_nums_ = 2 ∧
      (∀ i, ((rrt_star_init (plan_init demoEnv st1 ⟨0, 0, 0⟩ ⟨6, 0, 4⟩)).nodes_pool_ i).parent
          = none ∧
        ((rrt_star_init (plan_init demoEnv st1 ⟨0, 0, 0⟩ ⟨6, 0, 4⟩)).nodes_pool_ i).children
          = []) := by
  obtain ⟨st1, h, _, hval⟩ := demo_run
  have hw := c15_reset_between_calls demoEnv_ok
    (Reachable.call Reachable.init (by decide) h) 10 ⟨0, 0, 0⟩ ⟨6, 0, 4⟩
  exact ⟨st1, h, hval, hw.2.2.1, hw.1⟩

/-- C16: for every planner state, nearest node, new point `x_new` and list of neighbours,
the result `r` of the parent scan started from the nearest node has as `min_node` the nearest
node or a neighbour of the list whose segment to `x_new` is valid; `cost_from_p` is the
distance from the chosen node to `x_new` and `min_dist_from_start` the cost of the chosen
node plus that distance; this cost is at most the cost through the nearest node and at most
the cost through every neighbour of the list whose segment to `x_new` is valid; and, with
room in the pool, `addTreeNode` called with `r` as the loop does stores the chosen node as
parent, `x_new`, that distance as cost from parent and that minimum as cost from start in
the slot it claims. -/
theorem c16_parent_selection (env : Env K) (st : RRTStar K) (nearest_node : Nat)
    (x_new : Vec3 K) (neighbour_nodes : List Nat) (r : ParentChoice K)
    (hr : r = chooseParent env st.nodes_pool_ x_new neighbour_nodes
      { min_node := nearest_node
        cost_from_p := calDist env (st.nodes_pool_ nearest_node).x x_new
        min_dist_from_start := (st.nodes_pool_ nearest_node).cost_from_start +
          calDist env (st.nodes_pool_ nearest_node).x x_new }) :
    (r.min_node = nearest_node ∨
      (r.min_node ∈ neighbour_nodes ∧
        env.isSegmentValid (st.nodes_pool_ r.min_node).x x_new = true)) ∧
    r.cost_from_p = calDist env (st.nodes_pool_ r.min_node).x x_new ∧
    r.min_dist_from_start =
      (st.nodes_pool_ r.min_node).cost_from_start +
        calDist env (st.nodes_pool_ r.min_node).x x_new ∧
    r.min_dist_from_start ≤ (st.nodes_pool_ nearest_node).cost_from_start +
      calDist env (st.nodes_pool_ nearest_node).x x_new ∧
    (∀ n ∈ neighbour_nodes, env.isSegmentValid (st.nodes_pool_ n).x x_new = true →
      r.min_dist_from_start ≤
        (st.nodes_pool_ n).cost_from_start + calDist env (st.nodes_pool_ n).x x_new) ∧
    (st.valid_tree_node_nums_ < env.max_tree_node_nums_ →
      ∃ pool', addTreeNode env st r.min_node x_new r.min_dist_from_start r.cost_from_p =
          .ok (st.valid_tree_node_nums_,
            { st with valid_tree_node_nums_ := st.valid_tree_node_nums_ + 1,
                      nodes_pool_ := pool' }) ∧
        (pool' st.valid_tree_node_nums_).parent = some r.min_node ∧
        (pool' st.valid_tree_node_nums_).x = x_new ∧
        (pool' st.valid_tree_node_nums_).cost_from_parent =
          calDist env (st.nodes_pool_ r.min_node).x x_new ∧
        (pool' st.valid_tree_node_nums_).cost_from_start =
          (st.nodes_pool_ r.min_node).cost_from_start +
            calDist env (st.nodes_pool_ r.min_node).x x_new) := by
  obtain ⟨h1, h2, h3⟩ := chooseParent_min env st.nodes_pool_ x_new neighbour_nodes
    { min_node := nearest_node
      cost_from_p := calDist env (st.nodes_pool_ nearest_node).x x_new
      min_dist_from_start := (st.nodes_pool_ nearest_node).cost_from_start +
        calDist env (st.nodes_pool_ nearest_node).x x_new }
  rw [← hr] at h1 h2 h3
  have hfields : r.cost_from_p = calDist env (st.nodes_pool_ r.min_node).x x_new ∧
      r.min_dist_from_start = (st.nodes_pool_ r.min_node).cost_from_start +
        calDist env (st.nodes_pool_ r.min_node).x x_new := by
    rcases h1 with h1 | ⟨_, _, m3, m4⟩
    · rw [h1]; exact ⟨rfl, rfl⟩
    · exact ⟨m3, m4⟩
  refine ⟨?_, hfields.1, hfields.2, h2, h3, ?_⟩
  · rcases h1 with h1 | ⟨m1, m2, _, _⟩
    · left; rw [h1]
    · right; exact ⟨m1, m2⟩
  · intro hcap
    refine ⟨((st.nodes_pool_.modify st.valid_tree_node_nums_
        (fun n => { n with parent := some r.min_node })).modify r.min_node
        (fun n => { n with children := n.children ++ [st.valid_tree_node_nums_] })).modify
        st.valid_tree_node_nums_
        (fun n => { n with x := x_new, cost_from_start := r.min_dist_from_start,
                           cost_from_parent := r.cost_from_p }), ?_, ?_, ?_, ?_, ?_⟩
    · unfold addTreeNode
      rw [if_pos hcap]
    · by_cases hp : st.valid_tree_node_nums_ = r.min_node <;> simp [Pool.modify_apply, hp]
    · simp [Pool.modify_apply]
    · simp only [Pool.modify_apply, if_true]
      exact hfields.1
    · simp only [Pool.modify_apply, if_true]
      exact hfields.2

set_option maxRecDepth 100000 in
/-- In `chainState` the scan for the point `(1, 4/3, 0)` started from slot 2 over the
neighbours 1, 2, 0 picks the start, at cost 5/3. -/
theorem chainState_scan :
    (chooseParent demoEnv chainState.nodes_pool_ ⟨1, 4 / 3, 0⟩ [1, 2, 0]
      { min_node := 2
        cost_from_p := calDist demoEnv (chainState.nodes_pool_ 2).x ⟨1, 4 / 3, 0⟩
        min_dist_from_start := (chainState.nodes_pool_ 2).cost_from_start +
          calDist demoEnv (chainState.nodes_pool_ 2).x ⟨1, 4 / 3, 0⟩ }).min_node = 1 ∧
    (chooseParent demoEnv chainState.nodes_pool_ ⟨1, 4 / 3, 0⟩ [1, 2, 0]
      { min_node := 2
        cost_from_p := calDist demoEnv (chainState.nodes_pool_ 2).x ⟨1, 4 / 3, 0⟩
        min_dist_from_start := (chainState.nodes_pool_ 2).cost_from_start +
          calDist demoEnv (chainState.nodes_pool_ 2).x ⟨1, 4 / 3, 0⟩ }).min_dist_from_start
      = 5 / 3 ∧
    (chainState.nodes_pool_ 2).cost_from_start +
      calDist demoEnv (chainState.nodes_pool_ 2).x ⟨1, 4 / 3, 0⟩ = 7 / 3 := by
  decide!

/-- Witness of C16 on the chain of three nodes: for the point `(1, 4/3, 0)`, whose nearest
node is slot 2 (cost 7/3 through it), the scan over the neighbours 1, 2, 0 picks the start
(cost 5/3), and the node inserted in slot 3 gets the start as parent and 5/3 as cost. -/
theorem c16_parent_selection_witness :
    ∃ (r : ParentChoice ℚ) (pool' : Pool ℚ), r.min_node = 1 ∧ r.min_dist_from_start = 5 / 3 ∧
      addTreeNode demoEnv chainState r.min_node ⟨1, 4 / 3, 0⟩ r.min_dist_from_start
        r.cost_from_p =
        .ok (3, { chainState with valid_tree_node_nums_ := 4, nodes_pool_ := pool' }) ∧
      (pool' 3).parent = some 1 ∧ (pool' 3).cost_from_start = 5 / 3 := by
  have hw := c16_parent_selection demoEnv chainState 2 ⟨1, 4 / 3, 0⟩ [1, 2, 0] _ rfl
  obtain ⟨_, _, h3, _, _, hadd⟩ := hw
  obtain ⟨pool', ha, hp, _, _, hc⟩ := hadd (by decide)
  obtain ⟨e1, e2, _⟩ := chainState_scan
  refine ⟨_, pool', e1, e2, ha, ?_, ?_⟩
  · rw [← e1]; exact hp
  · rw [← e2, h3]; exact hc

/-- C17: in a state `st` of the loop body that satisfies the loop invariant, for a new node
in use and a stored list of neighbours in use other than the goal, split as
`pre ++ curr :: post`: the scan over `pre` returns a state `st1`, the step for `curr` returns
a state `st'`, and the scan goes on from `st'` with `post`.  With the candidate cost, the
distances and the costs read in `st1`: if the candidate cost is below the cost of `curr`,
the candidate cost plus the distance from `curr` to the goal is below the cost of the goal,
and the segment from the new node to `curr` is valid, then `st'` carries the pool returned
by `changeNodeParent(curr, new_node, distance)`, in which `curr` has the new node as parent,
the distance as cost from parent and the candidate cost, strictly less than before, as cost
from start; if one of the three fails, `st'` is `st1`, unchanged. -/
theorem c17_rewire {env : Env K} (henv : EnvOK env) {s g : Vec3 K} {st : RRTStar K}
    {fuel : Nat} {t0 csq : K} {new_node : Nat}
    (hinv : Inv env s g st) (hnew : new_node < st.valid_tree_node_nums_)
    (hnew0 : new_node ≠ goal_node_) (hfuel : st.valid_tree_node_nums_ ≤ fuel)
    (neighbour_nodes : List Nat)
    (hn : ∀ c ∈ neighbour_nodes, c < st.valid_tree_node_nums_ ∧ c ≠ goal_node_)
    (pre : List Nat) (curr_node : Nat) (post : List Nat)
    (hsplit : neighbour_nodes = pre ++ curr_node :: post) :
    ∃ st1 st', rewire env fuel t0 csq new_node pre st = .ok st1 ∧
      rewireStep env fuel t0 csq new_node curr_node st1 = .ok st' ∧
      rewire env fuel t0 csq new_node neighbour_nodes st =
        rewire env fuel t0 csq new_node post st' ∧
      (((st1.nodes_pool_ new_node).cost_from_start +
            calDist env (st1.nodes_pool_ new_node).x (st1.nodes_pool_ curr_node).x <
            (st1.nodes_pool_ curr_node).cost_from_start ∧
          (st1.nodes_pool_ new_node).cost_from_start +
            calDist env (st1.nodes_pool_ new_node).x (st1.nodes_pool_ curr_node).x +
            calDist env (st1.nodes_pool_ curr_node).x (st1.nodes_pool_ goal_node_).x <
            (st1.nodes_pool_ goal_node_).cost_from_start ∧
          env.isSegmentValid (st1.nodes_pool_ new_node).x (st1.nodes_pool_ curr_node).x = true) →
        changeNodeParent fuel st1.nodes_pool_ curr_node new_node
            (calDist env (st1.nodes_pool_ new_node).x (st1.nodes_pool_ curr_node).x) =
          .ok st'.nodes_pool_ ∧
        (st'.nodes_pool_ curr_node).parent = some new_node ∧
        (st'.nodes_pool_ curr_node).cost_from_parent =
          calDist env (st1.nodes_pool_ new_node).x (st1.nodes_pool_ curr_node).x ∧
        (st'.nodes_pool_ curr_node).cost_from_start =
          (st1.nodes_pool_ new_node).cost_from_start +
            calDist env (st1.nodes_pool_ new_node).x (st1.nodes_pool_ curr_node).x ∧
        (st'.nodes_pool_ curr_node).cost_from_start <
          (st1.nodes_pool_ curr_node).cost_from_start) ∧
      (¬ ((st1.nodes_pool_ new_node).cost_from_start +
            calDist env (st1.nodes_pool_ new_node).x (st1.nodes_pool_ curr_node).x <
            (st1.nodes_pool_ curr_node).cost_from_start ∧
          (st1.nodes_pool_ new_node).cost_from_start +
            calDist env (st1.nodes_pool_ new_node).x (st1.nodes_pool_ curr_node).x +
            calDist env (st1.nodes_pool_ curr_node).x (st1.nodes_pool_ goal_node_).x <
            (st1.nodes_pool_ goal_node_).cost_from_start ∧
          env.isSegmentValid (st1.nodes_pool_ new_node).x (st1.nodes_pool_ curr_node).x = true) →
        st' = st1) := by
  have hpre : ∀ c ∈ pre, c < st.valid_tree_node_nums_ ∧ c ≠ goal_node_ :=
    fun c hc => hn c (by rw [hsplit]; exact List.mem_append_left _ hc)
  have hcur := hn curr_node (by rw [hsplit]; simp)
  obtain ⟨st1, hrun1, hinv1, hv1, _⟩ :=
    @rewire_inv K _ env henv s g fuel t0 csq new_node hnew0 pre st hinv hnew hpre hfuel
  obtain ⟨st', hstep, hneg, hpos⟩ :=
    @rewireStep_effect K _ env henv s g st1 fuel t0 csq new_node curr_node hinv1
      (by rw [hv1]; exact hnew) hnew0 (by rw [hv1]; exact hcur.1) hcur.2
      (by rw [hv1]; exact hfuel)
  refine ⟨st1, st', hrun1, hstep, ?_, ?_, hneg⟩
  · rw [hsplit, rewire_append, hrun1]
    simp only [rewire, hstep]
  · rintro ⟨hA, hB, hC⟩
    obtain ⟨h1, h2, h3, h4, _⟩ := hpos hA hB hC
    exact ⟨h1, h2, h3, h4, by rw [h4]; exact hA⟩

/-- Witness of C17 on the tree left by the run with room for four nodes: the step of the
scan for slot 3 (cost 10, the goal below it at cost 14) with the start as the new node
passes the three tests (6 < 10, 6 + 4 < 14, free segment) and reparents slot 3 onto the
start at cost 6. -/
theorem c17_rewire_witness :
    ∃ st, plan demoFourEnv 10 RRTStar.init ⟨0, 0, 0⟩ ⟨6, 0, 4⟩ = .ok (true, st) ∧
      ∃ st', rewireStep demoFourEnv 10 0 0 1 3 { st with final_path_ := [] } = .ok st' ∧
        (st'.nodes_pool_ 3).parent = some 1 ∧ (st'.nodes_pool_ 3).cost_from_start = 6 := by
  obtain ⟨st, hrun, hv, g1, g2, g3, s1, s2, c1, c2, c3⟩ := demoFour_run
  obtain ⟨d1, d2, d3⟩ := demoFour_dists
  obtain ⟨st1, st', h1, h2, _, hpos, _⟩ :=
    @c17_rewire ℚ _ demoFourEnv demoFourEnv_ok ⟨0, 0, 0⟩ ⟨6, 0, 4⟩ { st with final_path_ := [] }
      10 0 0 1 (demoFour_inv hrun) (by show 1 < st.valid_tree_node_nums_; rw [hv]; decide)
      (by decide) (by show st.valid_tree_node_nums_ ≤ 10; rw [hv]; decide) [3]
      (by
        intro c hc
        rw [List.mem_singleton.1 hc]
        exact ⟨by show 3 < st.valid_tree_node_nums_; rw [hv]; decide, by decide⟩)
      [] 3 [] rfl
  have e1 : st1 = { st with final_path_ := [] } := (Except.ok.inj h1).symm
  rw [e1] at h2 hpos
  have hA : (st.nodes_pool_ 1).cost_from_start +
      calDist demoFourEnv (st.nodes_pool_ 1).x (st.nodes_pool_ 3).x <
      (st.nodes_pool_ 3).cost_from_start := by
    rw [s1, s2, c1, c2, d1]; norm_num
  have hB : (st.nodes_pool_ 1).cost_from_start +
      calDist demoFourEnv (st.nodes_pool_ 1).x (st.nodes_pool_ 3).x +
      calDist demoFourEnv (st.nodes_pool_ 3).x (st.nodes_pool_ goal_node_).x <
      (st.nodes_pool_ goal_node_).cost_from_start := by
    show (st.nodes_pool_ 1).cost_from_start +
      calDist demoFourEnv (st.nodes_pool_ 1).x (st.nodes_pool_ 3).x +
      calDist demoFourEnv (st.nodes_pool_ 3).x (st.nodes_pool_ 0).x <
      (st.nodes_pool_ 0).cost_from_start
    rw [s1, s2, c1, g1, g2, d1, d2]; norm_num
  have hC : demoFourEnv.isSegmentValid (st.nodes_pool_ 1).x (st.nodes_pool_ 3).x = true := by
    rw [s1, c1]; exact d3
  obtain ⟨_, p1, _, p3, _⟩ := hpos ⟨hA, hB, hC⟩
  refine ⟨st, hrun, st', h2, p1, ?_⟩
  rw [p3]
  show (st.nodes_pool_ 1).cost_from_start +
    calDist demoFourEnv (st.nodes_pool_ 1).x (st.nodes_pool_ 3).x = 6
  rw [s1, s2, c1, d1]; norm_num

set_option maxRecDepth 100000 in
/-- C20, the code at the failing input: a range query without a result ends the planning
loop at once (`break`): the pass returns with only the sampler advanced and the loop
returns that state; a nearest query without a result only ends the pass (`continue`): the
loop goes on with the next sample.  In the small world whose nearest query fails for the
first sample while the index holds the start node, the run goes on after the failure: it
draws four samples in all, inserts three nodes and finds the goal. -/
theorem c20_nearest_failure_continues :
    (∀ (env : Env ℚ) (inner n : Nat) (t0 csq : ℚ) (st : RRTStar ℚ) (nearest_node : Nat),
      env.clock st.clock_reads - t0 < env.search_time_ →
      st.valid_tree_node_nums_ < env.max_tree_node_nums_ →
      env.isStateValid (env.samples st.sampler_draws) = true →
      env.kd_nearest3 st.kd_tree (env.samples st.sampler_draws) = some nearest_node →
      env.isSegmentValid (st.nodes_pool_ nearest_node).x
        (steer env (st.nodes_pool_ nearest_node).x (env.samples st.sampler_draws)
          env.steer_length_) = true →
      env.kd_nearest_range3 st.kd_tree
        (steer env (st.nodes_pool_ nearest_node).x (env.samples st.sampler_draws)
          env.steer_length_) env.search_radius_ = none →
      rrt_loop env inner t0 csq (n + 1) st =
        .ok { st with clock_reads := st.clock_reads + 1
                      sampler_draws := st.sampler_draws + 1 }) ∧
    (∀ (env : Env ℚ) (inner n : Nat) (t0 csq : ℚ) (st : RRTStar ℚ),
      env.clock st.clock_reads - t0 < env.search_time_ →
      st.valid_tree_node_nums_ < env.max_tree_node_nums_ →
      env.isStateValid (env.samples st.sampler_draws) = true →
      env.kd_nearest3 st.kd_tree (env.samples st.sampler_draws) = none →
      rrt_loop env inner t0 csq (n + 1) st =
        rrt_loop env inner t0 csq n
          { st with clock_reads := st.clock_reads + 1
                    sampler_draws := st.sampler_draws + 1 }) ∧
    (rrt_star_init (plan_init nearFailEnv RRTStar.init ⟨0, 0, 0⟩ ⟨6, 0, 4⟩)).kd_tree =
      [(⟨0, 0, 0⟩, start_node_)] ∧
    nearFailEnv.kd_nearest3
      (rrt_star_init (plan_init nearFailEnv RRTStar.init ⟨0, 0, 0⟩ ⟨6, 0, 4⟩)).kd_tree
      (nearFailEnv.samples 0) = none ∧
    (match plan nearFailEnv 10 RRTStar.init ⟨0, 0, 0⟩ ⟨6, 0, 4⟩ with
      | .ok (true, st) =>
        decide (st.sampler_draws = 4) && decide (st.valid_tree_node_nums_ = 5) &&
          decide (st.solution_cost_time_pair_list_.map Prod.fst = [9])
      | _ => false) = true := by
  refine ⟨?_, ?_, ?_, ?_, ?_⟩
  · intro env inner n t0 csq st nearest_node hclock hcap hval hnear hseg hrange
    have hit : iteration env inner t0 csq { st with clock_reads := st.clock_reads + 1 } =
        .ok (true, { st with clock_reads := st.clock_reads + 1
                             sampler_draws := st.sampler_draws + 1 }) := by
      unfold iteration
      simp only [hval, hnear, hseg, hrange, Bool.not_true]
      simp
    rw [rrt_loop]
    simp only [hclock, hcap, and_self, if_true, hit]
  · intro env inner n t0 csq st hclock hcap hval hnear
    have hit : iteration env inner t0 csq { st with clock_reads := st.clock_reads + 1 } =
        .ok (false, { st with clock_reads := st.clock_reads + 1
                              sampler_draws := st.sampler_draws + 1 }) := by
      unfold iteration
      simp only [hval, hnear, Bool.not_true]
      simp
    rw [rrt_loop]
    simp only [hclock, hcap, and_self, if_true, hit]
  · decide!
  · decide!
  · decide!

/-- C21: in every state the planning loop of a call of `plan` passes through and in the state
`plan` returns, every node in use with a parent has as cost from parent the distance from
the state of its parent to its own state, which is not negative; `fillPath` returns a path
for it whose polyline length is its cost from start; the lists of `getAllPaths()` and
`getSolutions()` have the same length, and the cost at each position of the second is the
polyline length of the snapshot at the same position of the first. -/
theorem c21_geometric_costs {env : Env K} (henv : EnvOK env) {st0 : RRTStar K}
    (hc : Clean st0) {fuel : Nat} (hfuel : env.max_tree_node_nums_ ≤ fuel) {s g : Vec3 K}
    {b : Bool} {st : RRTStar K} (h : plan env fuel st0 s g = .ok (b, st)) :
    (∀ stl, PlanReach env fuel st0 s g stl → GeometricCosts env fuel stl) ∧
    GeometricCosts env fuel st := by
  constructor
  · intro stl hr
    have hinv := planReach_inv henv hc hfuel hr
    exact geometricCosts_of_inv henv hinv.tree (le_trans hinv.cap hfuel)
      (planReach_costs henv hc hfuel hr)
  · have hpc := plan_costs henv hc hfuel h
    rcases plan_result henv hc hfuel h with ⟨_, hst, _⟩ | ⟨_, _, _, hinv, _⟩
    · refine ⟨?_, hpc.index.1, hpc.index.2⟩
      intro n p hn
      rw [hst] at hn
      exact absurd hn (Nat.not_lt_zero n)
    · have ht : TreeInv env st.nodes_pool_ st.valid_tree_node_nums_ := hinv.tree
      have hcap : st.valid_tree_node_nums_ ≤ env.max_tree_node_nums_ := hinv.cap
      exact geometricCosts_of_inv henv ht (le_trans hcap hfuel) hpc

/-- Witness of C21 in the small world, whose run records two solutions: costs 14 and 10 are
the polyline lengths of the two snapshots. -/
theorem c21_geometric_costs_witness :
    ∃ st, plan demoEnv 10 RRTStar.init ⟨0, 0, 0⟩ ⟨6, 0, 4⟩ = .ok (true, st) ∧
      (getSolutions st).map Prod.fst = [14, 10] ∧ GeometricCosts demoEnv 10 st ∧
      (getAllPaths st).map (polylineLength demoEnv) = [14, 10] := by
  obtain ⟨st, h, hsol, hval⟩ := demo_run
  have hw := (c21_geometric_costs demoEnv_ok init_clean (by decide) h).2
  refine ⟨st, h, hsol, hw, ?_⟩
  obtain ⟨_, hlen, hidx⟩ := hw
  rw [← hsol]
  apply List.ext_getElem?
  intro i
  simp only [List.getElem?_map]
  cases hp : (getAllPaths st)[i]? with
  | none =>
    have : (getSolutions st)[i]? = none := by
      rw [List.getElem?_eq_none_iff] at hp ⊢
      omega
    rw [this]; rfl
  | some path =>
    cases hr : (getSolutions st)[i]? with
    | none =>
      rw [List.getElem?_eq_none_iff] at hr
      have := (List.getElem?_eq_some.1 hp).1
      omega
    | some r =>
      simp only [Option.map_some']
      rw [hidx i path r hp hr]

/-- C22: in exact arithmetic.  Each recomputation of the ellipsoid is made by the block that
records a solution: it appends the snapshot of the path of the goal and a record with the
cost `c` of the goal and, with informed sampling, sets the semi-axes to `c/2` and
`sqrt((c/2)^2 - c_square)`.  In every state the planning loop of a call `plan(s, g)` passes
through and in the state `plan` returns, for every recorded cost `c` whose snapshot has
exact edge lengths: `c` is not negative, the radicand `(c/2)^2 - |g - s|^2 / 4` is not
negative, `c` is at least the distance from `s` to `g` when the square root is exact at
their squared distance, and the minor semi-axis is at most the major semi-axis `c/2` when
the square root is exact at the radicand. -/
theorem c22_informed_radicand {env : Env K} (henv : EnvOK env) {st0 : RRTStar K}
    (hc : Clean st0) {fuel : Nat} (hfuel : env.max_tree_node_nums_ ≤ fuel) {s g : Vec3 K}
    {b : Bool} {st : RRTStar K} (h : plan env fuel st0 s g = .ok (b, st)) :
    (∀ (t0 csq : K) (sta stb : RRTStar K), storeSolution env fuel t0 csq sta = .ok stb →
      ∃ path t, getAllPaths stb = getAllPaths sta ++ [path] ∧
        getSolutions stb =
          getSolutions sta ++ [((sta.nodes_pool_ goal_node_).cost_from_start, t)] ∧
        (env.use_informed_sampling_ = true →
          stb.scale_ =
            ⟨(sta.nodes_pool_ goal_node_).cost_from_start / 2,
              env.sqrt ((sta.nodes_pool_ goal_node_).cost_from_start / 2 *
                ((sta.nodes_pool_ goal_node_).cost_from_start / 2) - csq),
              env.sqrt ((sta.nodes_pool_ goal_node_).cost_from_start / 2 *
                ((sta.nodes_pool_ goal_node_).cost_from_start / 2) - csq)⟩)) ∧
    (∀ stl, PlanReach env fuel st0 s g stl → RadicandOK env s g stl) ∧
    RadicandOK env s g st := by
  refine ⟨?_, ?_, ?_⟩
  · intro t0 csq sta stb hrun
    obtain ⟨_, path, t, e1, e2, _, e4⟩ := storeSolution_step hrun
    exact ⟨path, t, e1, e2, e4⟩
  · intro stl hr
    have hinv := planReach_inv henv hc hfuel hr
    exact radicandOK_of_inv (fun path hp => (hinv.paths_ok path hp).2)
      (planReach_costs henv hc hfuel hr)
  · have hpc := plan_costs henv hc hfuel h
    rcases plan_result henv hc hfuel h with ⟨_, hst, _⟩ | ⟨_, _, _, hinv, _⟩
    · refine radicandOK_of_inv ?_ hpc
      intro path hp
      rw [hst] at hp
      exact absurd hp (List.not_mem_nil path)
    · exact radicandOK_of_inv (fun path hp => (hinv.paths_ok path hp).2) hpc

/-- Witness of C22 on the triangle: the goal is reached at cost 5 for a distance 3 from start
to goal; the radicand is 25/4 - 9/4 = 4 and the minor semi-axis 2 is below the major
semi-axis 5/2. -/
theorem c22_informed_radicand_witness :
    ∃ st, plan triEnv 10 RRTStar.init ⟨0, 0, 0⟩ ⟨3, 0, 0⟩ = .ok (true, st) ∧
      getSolutions st = [(5, 3)] ∧ st.scale_ = ⟨5 / 2, 2, 2⟩ ∧
      0 ≤ (5 : ℚ) / 2 * (5 / 2) - ((⟨3, 0, 0⟩ : Vec3 ℚ).sub ⟨0, 0, 0⟩).squaredNorm / 4 ∧
      calDist triEnv ⟨0, 0, 0⟩ ⟨3, 0, 0⟩ ≤ 5 ∧
      triEnv.sqrt ((5 : ℚ) / 2 * (5 / 2) -
        ((⟨3, 0, 0⟩ : Vec3 ℚ).sub ⟨0, 0, 0⟩).squaredNorm / 4) ≤ 5 / 2 := by
  obtain ⟨st, hrun, hpaths, hsols, hscale⟩ := tri_run
  obtain ⟨x1, x2, x3, x4⟩ := tri_exact
  have hw := (c22_informed_radicand triEnv_ok init_clean (by decide) hrun).2.2
  have hex : ExactAlong triEnv [⟨0, 0, 0⟩, ⟨3, 8 / 5, 0⟩, ⟨3, 0, 0⟩] :=
    List.chain'_cons.2 ⟨x1, List.chain'_cons.2 ⟨x2, List.chain'_singleton _⟩⟩
  obtain ⟨_, h2, h3, h4⟩ := hw 0 [⟨0, 0, 0⟩, ⟨3, 8 / 5, 0⟩, ⟨3, 0, 0⟩] (5, 3)
    (by rw [hpaths]; rfl) (by rw [hsols]; rfl) hex
  exact ⟨st, hrun, hsols, hscale, h2, h3 x3, h4 x4⟩

end Claims

end PathPlan
